import Mathlib

/-!
Verification of the sudoku solver library (`sudoku-solver-lib`): a shallow
embedding of the board state, the weak-link machinery, the built-in logical
steps and the brute-force search, together with theorems about the claims of
the specification.

Conventions of the embedding:
* `u32` value masks are `Nat` with the `u32` bit layout of `value_mask.rs`
  (`2 ^ 31` is the solved flag, low bits are the candidate values).
* `Vec<ValueMask>` becomes `List Nat`; `BitVec` rows of the weak-link table
  become `Nat` bitsets (bit `i` set iff candidate `i` is linked), iterated in
  ascending index order exactly as the `bitvec` iterator does.
* Fallible loops that Rust runs unboundedly take an explicit fuel argument;
  `none` marks fuel exhaustion (which models divergence, not a Rust result).
* `&mut` methods become functions returning the new state paired with the
  `bool` result.
-/

set_option maxRecDepth 10000

namespace SudokuRs

/-! ## Value masks (`value_mask.rs`) -/

/-- Top bit of a cell mask: the cell is solved (`ValueMask::VALUE_SOLVED_MASK`). -/
def ValueMask.solvedFlag : Nat := 2 ^ 31

/-- Mask of the candidate bits (`ValueMask::CANDIDATES_MASK`, `!VALUE_SOLVED_MASK` in `u32`). -/
def ValueMask.candBits : Nat := 2 ^ 31 - 1

/-- The `u32` all-ones word, used to translate `u32` bitwise complement. -/
def u32All : Nat := 2 ^ 32 - 1

/-- A value mask is a `u32`: bit `v-1` set iff value `v` is a candidate. -/
abbrev ValueMask.T := Nat

/-- `ValueMask::from_all_values(size)`: values `1..=size` all set. -/
def ValueMask.fromAllValues (size : Nat) : Nat := 2 ^ size - 1

/-- `ValueMask::value_bits`: just the candidate bits, solved flag cleared. -/
def ValueMask.valueBits (m : Nat) : Nat := m &&& ValueMask.candBits

/-- `ValueMask::is_solved`: the solved flag is set. -/
def ValueMask.isSolved (m : Nat) : Bool := m &&& ValueMask.solvedFlag != 0

/-- `ValueMask::solved`: set the solved flag. -/
def ValueMask.solved (m : Nat) : Nat := m ||| ValueMask.solvedFlag

/-- `ValueMask::unsolved`: clear the solved flag (`m & !VALUE_SOLVED_MASK`). -/
def ValueMask.unsolved (m : Nat) : Nat := m &&& ValueMask.candBits

/-- `ValueMask::is_empty`: no candidate values remain. -/
def ValueMask.isEmpty (m : Nat) : Bool := ValueMask.valueBits m == 0

/-- `ValueMask::is_single`: exactly one candidate value remains. -/
def ValueMask.isSingle (m : Nat) : Bool :=
  ValueMask.valueBits m != 0 && ValueMask.valueBits m &&& (ValueMask.valueBits m - 1) == 0

/-- `ValueMask::has(value)`: bit `value - 1` is set. -/
def ValueMask.has (m v : Nat) : Bool := m &&& (1 <<< (v - 1)) != 0

/-- `ValueMask::with(value)`. -/
def ValueMask.with (m v : Nat) : Nat := m ||| (1 <<< (v - 1))

/-- `ValueMask::without(value)`: `m & !(1 << (value-1))` in `u32`. -/
def ValueMask.without (m v : Nat) : Nat := m &&& (u32All ^^^ (1 <<< (v - 1)))

/-- `ValueMask::with_only(value)`: `m & (VALUE_SOLVED_MASK | (1 << (value-1)))`. -/
def ValueMask.withOnly (m v : Nat) : Nat :=
  m &&& (ValueMask.solvedFlag ||| (1 <<< (v - 1)))

/-- Trailing-zero count of a word, with a fuel of 32 bits
(`u32::trailing_zeros`; returns 32 on zero input). -/
def tzAux : Nat → Nat → Nat
  | 0, _ => 0
  | f + 1, n => if n % 2 == 1 then 0 else tzAux f (n / 2) + 1

/-- Population count of a word, with explicit bit-width fuel
(`u32::count_ones`). -/
def popAux : Nat → Nat → Nat
  | 0, _ => 0
  | f + 1, n => (if n % 2 == 1 then 1 else 0) + popAux f (n / 2)

/-- Ascending list of the set-bit positions of `n`, starting the position
counter at `i`, with explicit fuel (mirrors the `ValueMaskIter` /
`bitvec` iteration order). -/
def bitIndicesFrom : Nat → Nat → Nat → List Nat
  | 0, _, _ => []
  | f + 1, n, i =>
    if n == 0 then []
    else if n % 2 == 1 then i :: bitIndicesFrom f (n / 2) (i + 1)
    else bitIndicesFrom f (n / 2) (i + 1)

/-- `ValueMask::count`: number of candidate values. -/
def ValueMask.count (m : Nat) : Nat := popAux 32 (ValueMask.valueBits m)

/-- `ValueMask::min`: smallest candidate value (`trailing_zeros + 1`). -/
def ValueMask.minVal (m : Nat) : Nat := tzAux 32 (ValueMask.valueBits m) + 1

/-- `ValueMask::value`: the value of a singleton mask (same computation as `min`). -/
def ValueMask.value (m : Nat) : Nat := tzAux 32 (ValueMask.valueBits m) + 1

/-- Iteration of a value mask in ascending value order (`ValueMaskIter`):
bit `v-1` yields value `v`. -/
def ValueMask.toVals (m : Nat) : List Nat := bitIndicesFrom 32 (ValueMask.valueBits m) 1

/-! ## Cell and candidate indices (`cell_index.rs`, `candidate_index.rs`) -/

/-- `CandidateIndex::from_cv`: candidate index of value `v` in cell `cell`. -/
def candOf (size cell v : Nat) : Nat := cell * size + v - 1

/-- `CandidateIndex::cell_index`: the cell of a candidate index. -/
def cellOfCand (size cand : Nat) : Nat := cand / size

/-- `CandidateIndex::value`: the value of a candidate index. -/
def valOfCand (size cand : Nat) : Nat := cand % size + 1

/-- `CellIndex::row`. -/
def rowOfCell (size cell : Nat) : Nat := cell / size

/-- `CellIndex::column`. -/
def colOfCell (size cell : Nat) : Nat := cell % size

/-! ## Logical step results (`logical_step/logical_step_result.rs`)

The Rust `LogicalStepResult` carries an optional human-readable description
with the `Changed` and `Invalid` variants; the descriptions play no role in
any claim, so the embedding keeps only the discriminant. -/

/-- Result of running one logical step (`LogicalStepResult`, description dropped). -/
inductive StepRes where
  | none
  | changed
  | invalid
deriving DecidableEq, Repr

/-- `LogicalStepResult::is_none`. -/
def StepRes.isNone : StepRes → Bool
  | .none => true
  | _ => false

/-- `LogicalStepResult::is_invalid`. -/
def StepRes.isInvalid : StepRes → Bool
  | .invalid => true
  | _ => false

/-! ## Board state (`board.rs`)

`Board` holds the mutable per-cell masks and solved counter (`CellsState`
below) plus the shared immutable metadata `BoardData`.  A constraint's
`enforce` receives the board immutably; in the embedding it receives the
mutable slice (`CellsState`) — the metadata is fixed and can be captured in
the closure.  `Constraint::step_logic` likewise acts on the mutable slice. -/

/-- The mutable part of a `Board`: the `board: Vec<ValueMask>` and
`solved_count` fields. -/
structure CellsState where
  board : List Nat
  solvedCount : Nat
deriving DecidableEq, Repr

/-- A constraint plug-in, reduced to the operations the claims touch:
`enforce` (true means `LogicResult::Invalid`), `step_logic` (board mutation
plus discriminant), and the build-time contributions `get_weak_links` and
`get_houses`, see `constraint.rs`. -/
structure Constraint where
  enforceInvalid : CellsState → Nat → Nat → Bool
  stepLogic : CellsState → Bool → CellsState × StepRes
  getWeakLinks : Nat → List (Nat × Nat)
  getHouses : Nat → List (List Nat)
  powerfulCells : List Nat

/-- Immutable board metadata (`BoardData`): size, houses, the weak-link
table (one bitset row per candidate index, accessed as a function), and the
registered constraints. -/
structure BoardData where
  size : Nat
  numCells : Nat
  numCandidates : Nat
  allValuesMask : Nat
  houses : List (List Nat)
  powerfulCells : List Nat
  weakLinks : Nat → Nat
  constraints : List Constraint

/-- The board: mutable cell state plus shared metadata. -/
structure Board where
  cells : CellsState
  data : BoardData

/-- `Board::cell(cell)`: the mask of one cell. -/
def Board.cell (b : Board) (cell : Nat) : Nat := b.cells.board.getD cell 0

/-- `Board::solved_count()`. -/
def Board.solvedCount (b : Board) : Nat := b.cells.solvedCount

/-- `Board::is_solved()`: every cell has been committed. -/
def Board.isSolved (b : Board) : Bool := b.cells.solvedCount == b.data.numCells

/-- Helper: replace the mask of one cell. -/
def Board.setCellMask (b : Board) (cell m : Nat) : Board :=
  { b with cells := { b.cells with board := b.cells.board.set cell m } }

/-- `Board::clear_value(cell, val)`: remove one value; false iff the cell
became empty. -/
def Board.clearValue (b : Board) (cell v : Nat) : Board × Bool :=
  let m := ValueMask.without (b.cell cell) v
  (b.setCellMask cell m, !(ValueMask.isEmpty m))

/-- `Board::clear_candidate(candidate)`. -/
def Board.clearCandidate (b : Board) (cand : Nat) : Board × Bool :=
  Board.clearValue b (cellOfCand b.data.size cand) (valOfCand b.data.size cand)

/-- `Board::clear_candidates(iter)`: batch clear; aggregates validity and
does not stop early. -/
def Board.clearCandidates (b : Board) : List Nat → Board × Bool
  | [] => (b, true)
  | c :: rest =>
    match Board.clearCandidate b c with
    | (b', ok) =>
      match Board.clearCandidates b' rest with
      | (b'', ok') => (b'', ok && ok')

/-- `Board::keep_mask(cell, mask)`: intersect one cell with a mask; false
iff the cell became empty. -/
def Board.keepMask (b : Board) (cell m : Nat) : Board × Bool :=
  let m' := b.cell cell &&& m
  (b.setCellMask cell m', !(ValueMask.isEmpty m'))

/-- `Board::has_candidate(candidate)`. -/
def Board.hasCandidate (b : Board) (cand : Nat) : Bool :=
  ValueMask.has (b.cell (cellOfCand b.data.size cand)) (valOfCand b.data.size cand)

/-- The weak-link elimination loop inside `Board::set_solved`: clear each
linked candidate in turn, returning `false` at the first one that empties a
cell (remaining eliminations are not applied). -/
def Board.applyWeakLinks (b : Board) : List Nat → Board × Bool
  | [] => (b, true)
  | c :: rest =>
    match Board.clearCandidate b c with
    | (b', true) => Board.applyWeakLinks b' rest
    | (b', false) => (b', false)

/-- The constraint loop inside `Board::set_solved`: `enforce` each
constraint in order, `false` at the first `Invalid` (later constraints are
not consulted); `enforce` does not mutate the board. -/
def Board.enforceAll (b : Board) (cell v : Nat) : List Constraint → Bool
  | [] => true
  | k :: rest =>
    if k.enforceInvalid b.cells cell v then false else Board.enforceAll b cell v rest

/-- The mark phase of `Board::set_solved`: write the single-value solved
mask and increment the solved counter. -/
def Board.setSolvedMark (b : Board) (cell v : Nat) : Board :=
  let b1 := b.setCellMask cell (ValueMask.solved (ValueMask.withOnly (b.cell cell) v))
  { b1 with cells := { b1.cells with solvedCount := b1.cells.solvedCount + 1 } }

/-- The body of `Board::set_solved` after its precondition checks: mark the
cell, apply the weak links of the committed candidate, then enforce every
constraint. -/
def Board.setSolvedInner (b : Board) (cell v : Nat) : Board × Bool :=
  let b1 := b.setSolvedMark cell v
  let cand := candOf b.data.size cell v
  let links := bitIndicesFrom b.data.numCandidates (b.data.weakLinks cand) 0
  match Board.applyWeakLinks b1 links with
  | (b2, true) => (b2, Board.enforceAll b2 cell v b.data.constraints)
  | (b2, false) => (b2, false)

/-- `Board::set_solved(cell, value)`: commit a value.  Fails when the value
is absent or the cell is already solved; otherwise sets the mask to the
single value with the solved flag, increments the counter, applies the weak
links of the committed candidate, then enforces every constraint. -/
def Board.setSolved (b : Board) (cell v : Nat) : Board × Bool :=
  if !(ValueMask.has (b.cell cell) v) then (b, false)
  else if ValueMask.isSolved (b.cell cell) then (b, false)
  else Board.setSolvedInner b cell v

/-! ## Default regions and houses (`math.rs`, `BoardData::create_houses`) -/

/-- The `while size % region_height != 0 { region_height -= 1 }` loop of
`default_regions`, run structurally downward from the starting height. -/
def regionHeightLoop (size : Nat) : Nat → Nat
  | 0 => 0
  | h + 1 => if size % (h + 1) == 0 then h + 1 else regionHeightLoop size h

/-- Floor square root (`(size as f64).sqrt().floor()`), computed
structurally so that concrete boards evaluate in the kernel. -/
def floorSqrt (n : Nat) : Nat :=
  ((List.range (n + 1)).filter (fun k => k * k ≤ n)).foldl Nat.max 0

/-- `default_regions(size)`: the flat region-label list of the standard
boxes (region height `⌊√size⌋` rounded down to a divisor). -/
def defaultRegions (size : Nat) : List Nat :=
  if size == 0 then []
  else
    let h := regionHeightLoop size (floorSqrt size)
    let w := size / h
    (List.range size).flatMap (fun i => (List.range size).map (fun j => i / h * h + j / w))

/-- Sorted insertion, for `sortCells`. -/
def insertSorted (x : Nat) : List Nat → List Nat
  | [] => [x]
  | y :: ys => if x ≤ y then x :: y :: ys else y :: insertSorted x ys

/-- Ascending sort of a cell list (`House::new` sorts its cells), computed
structurally so that concrete boards evaluate in the kernel. -/
def sortCells (l : List Nat) : List Nat := l.foldr insertSorted []

/-- The house of row `r` (cells in ascending column order). -/
def rowHouse (size r : Nat) : List Nat := (List.range size).map (fun c => r * size + c)

/-- The house of column `c` (cells in ascending row order). -/
def colHouse (size c : Nat) : List Nat := (List.range size).map (fun r => r * size + c)

/-- The (ascending) cells carrying one region label. -/
def regionCells (size : Nat) (regions : List Nat) (reg : Nat) : List Nat :=
  (List.range (size * size)).filter (fun cell => regions.getD cell 0 == reg)

/-- `BoardData::create_houses`: row houses, column houses, then the region
houses of length `size` that do not duplicate an existing house, then the
constraint-contributed houses (sorted, as `House::new` sorts its cells) that
do not duplicate an existing house.  The Rust code enumerates the region map
in `HashMap` iteration order; the embedding fixes the canonical ascending
label order, which affects only the position of the region houses in the
list. -/
def createHouses (size : Nat) (regions : List Nat) (constraints : List Constraint) :
    List (List Nat) :=
  let numCells := size * size
  let regions := if regions.length == numCells then regions else defaultRegions size
  let rows := (List.range size).map (rowHouse size)
  let cols := (List.range size).map (colHouse size)
  let maxLabel := regions.foldr Nat.max 0
  let withRegions := (List.range (maxLabel + 1)).foldl
    (fun hs reg =>
      let house := regionCells size regions reg
      if house.length == size && !(hs.any (fun h => h == house)) then hs ++ [house] else hs)
    (rows ++ cols)
  constraints.foldl
    (fun hs k =>
      (k.getHouses size).foldl
        (fun hs h0 =>
          let house := sortCells h0
          if !(hs.any (fun h => h == house)) then hs ++ [house] else hs)
        hs)
    withRegions

/-- `BoardData::create_houses_by_cell`: for each cell, the houses containing
it, in house-list order. -/
def housesByCell (numCells : Nat) (houses : List (List Nat)) : List (List (List Nat)) :=
  (List.range numCells).map (fun c => houses.filter (fun h => h.contains c))

/-! ## Weak-link table construction (`BoardData::init_weak_links`) -/

/-- Read one row of the weak-link table (out-of-range rows are empty). -/
def tableGet (t : List Nat) (i : Nat) : Nat := t.getD i 0

/-- `BoardData::add_weak_link`: set the link bit in both directions. -/
def addWeakLink (t : List Nat) (c1 c2 : Nat) : List Nat :=
  let t1 := t.set c1 (tableGet t c1 ||| (1 <<< c2))
  t1.set c2 (tableGet t1 c2 ||| (1 <<< c1))

/-- Ordered pairs `(x_i, x_j)`, `i < j`, of a list — the order of
`itertools` `combinations(2)` / `tuple_combinations`. -/
def pairsOf : List Nat → List (Nat × Nat)
  | [] => []
  | x :: xs => xs.map (fun y => (x, y)) ++ pairsOf xs

/-- `CellUtility::candidate_pairs(cells)`: for every value, the candidate
pairs of every cell pair of the group. -/
def candidatePairs (size : Nat) (cells : List Nat) : List (Nat × Nat) :=
  (List.Ico 1 (size + 1)).flatMap
    (fun v => (pairsOf cells).map (fun p => (candOf size p.1 v, candOf size p.2 v)))

/-- The link pairs contributed for one candidate by
`BoardData::init_sudoku_weak_links`: every higher value of the same cell,
then `candidate_pairs` of every house containing the cell. -/
def sudokuPairsFor (size : Nat) (hbc : List (List (List Nat))) (cand1 : Nat) :
    List (Nat × Nat) :=
  let cell1 := cellOfCand size cand1
  let val1 := valOfCand size cand1
  (List.Ico (val1 + 1) (size + 1)).map (fun v2 => (cand1, candOf size cell1 v2)) ++
    (hbc.getD cell1 []).flatMap (fun h => candidatePairs size h)

/-- All link pairs added by `BoardData::init_sudoku_weak_links`, in order. -/
def sudokuLinkPairs (size : Nat) (hbc : List (List (List Nat))) : List (Nat × Nat) :=
  (List.range (size * size * size)).flatMap (sudokuPairsFor size hbc)

/-- Insertion into an `EliminationList` (a `BTreeSet`): sorted and
de-duplicated. -/
def elimInsert (c : Nat) : List Nat → List Nat
  | [] => [c]
  | x :: xs =>
    if c < x then c :: x :: xs
    else if c == x then x :: xs
    else x :: elimInsert c xs

/-- `BoardData::init_constraint_weak_links`: fold the constraint link pairs
into the table (distinct pairs) and collect self-pairs as initial
eliminations; returns the new table and the elimination list. -/
def addConstraintPairs : List Nat → List Nat → List (Nat × Nat) → List Nat × List Nat
  | t, elims, [] => (t, elims)
  | t, elims, (c1, c2) :: rest =>
    if c1 != c2 then addConstraintPairs (addWeakLink t c1 c2) elims rest
    else addConstraintPairs t (elimInsert c1 elims) rest

/-- `BoardData::init_weak_links`: the sudoku links, then the constraint
links; returns the table plus the initial self-link eliminations. -/
def initWeakLinks (size : Nat) (houses : List (List Nat))
    (constraintPairs : List (Nat × Nat)) : List Nat × List Nat :=
  let numCands := size * size * size
  let hbc := housesByCell (size * size) houses
  let t0 := (sudokuLinkPairs size hbc).foldl (fun t p => addWeakLink t p.1 p.2)
    (List.replicate numCands 0)
  addConstraintPairs t0 [] constraintPairs

/-- First-occurrence de-duplication (`itertools` `unique()`), used for the
powerful-cell list. -/
def uniqueFirst (seen : List Nat) : List Nat → List Nat
  | [] => []
  | x :: xs => if x ∈ seen then uniqueFirst seen xs else x :: uniqueFirst (x :: seen) xs

/-- `Board::new(size, regions, constraints)`: build the metadata (houses,
weak links, powerful cells), start every cell at the full mask, and apply
the initial self-link eliminations (validity of that batch is discarded). -/
def Board.new (size : Nat) (regions : List Nat) (constraints : List Constraint) : Board :=
  let numCells := size * size
  let houses := createHouses size regions constraints
  let constraintPairs := constraints.flatMap (fun k => k.getWeakLinks size)
  let te := initWeakLinks size houses constraintPairs
  let data : BoardData :=
    { size := size
      numCells := numCells
      numCandidates := size * numCells
      allValuesMask := ValueMask.fromAllValues size
      houses := houses
      powerfulCells := uniqueFirst [] (constraints.flatMap (fun k => k.powerfulCells))
      weakLinks := fun c => tableGet te.1 c
      constraints := constraints }
  let b0 : Board :=
    { cells := { board := List.replicate numCells (ValueMask.fromAllValues size)
                 solvedCount := 0 }
      data := data }
  (b0.clearCandidates te.2).1

/-- The given-application loop of `SolverBuilder::build`: skip cells already
solved, otherwise `set_solved`; `none` models the builder's `Err` on a
failed given. -/
def applyGivens (b : Board) : List (Nat × Nat) → Option Board
  | [] => some b
  | (cell, v) :: rest =>
    if ValueMask.isSolved (b.cell cell) then applyGivens b rest
    else
      match b.setSolved cell v with
      | (b', true) => applyGivens b' rest
      | (_, false) => none

/-! ## Built-in logical steps (`logical_step/*.rs`)

Each step's `run(&mut board, generate_description)` becomes a function
`Board → Board × StepRes`; descriptions are dropped.  Loops that Rust runs
to a fixed point take explicit fuel. -/

/-- One pass of the `AllNakedSingles` loop over the given cells: commit
every unsolved singleton, report `none` (= `Invalid`) on a failed commit or
an empty cell, otherwise the board and whether anything changed. -/
def ansPass (b : Board) (changed : Bool) : List Nat → Option (Board × Bool)
  | [] => some (b, changed)
  | cell :: rest =>
    let m := b.cell cell
    if ValueMask.isSolved m then ansPass b changed rest
    else if ValueMask.isSingle m then
      match b.setSolved cell (ValueMask.value m) with
      | (b', true) => ansPass b' true rest
      | (_, false) => Option.none
    else if ValueMask.isEmpty m then Option.none
    else ansPass b changed rest

/-- The outer loop of `AllNakedSingles::run`: repeat passes until the board
is solved or a pass changes nothing. -/
def ansLoop (b : Board) (res : StepRes) : Nat → Board × StepRes
  | 0 => (b, res)
  | f + 1 =>
    if b.isSolved then (b, res)
    else
      match ansPass b false (List.range b.data.numCells) with
      | Option.none => (b, .invalid)
      | some (b', true) => ansLoop b' .changed f
      | some (_, false) => (b, res)

/-- `AllNakedSingles::run` (brute-force only, no descriptions). -/
def allNakedSingles (b : Board) (fuel : Nat) : Board × StepRes := ansLoop b .none fuel

/-- Anomaly of `ansPass` on invalid: the Rust loop keeps the partially
mutated board when it returns `Invalid`; this variant keeps it too, for the
statements about monotonicity. -/
def ansPassB (b : Board) (changed : Bool) : List Nat → Board × Option Bool
  | [] => (b, some changed)
  | cell :: rest =>
    let m := b.cell cell
    if ValueMask.isSolved m then ansPassB b changed rest
    else if ValueMask.isSingle m then
      match b.setSolved cell (ValueMask.value m) with
      | (b', true) => ansPassB b' true rest
      | (b', false) => (b', Option.none)
    else if ValueMask.isEmpty m then (b, Option.none)
    else ansPassB b changed rest

/-- `NakedSingle::run`: commit the first unsolved singleton (or report the
first empty cell as invalid). -/
def nakedSinglePass (b : Board) : List Nat → Board × StepRes
  | [] => (b, .none)
  | cell :: rest =>
    let m := b.cell cell
    if ValueMask.isSolved m then nakedSinglePass b rest
    else if ValueMask.isSingle m then
      match b.setSolved cell (ValueMask.value m) with
      | (b', true) => (b', .changed)
      | (b', false) => (b', .invalid)
    else if ValueMask.isEmpty m then (b, .invalid)
    else nakedSinglePass b rest

/-- `NakedSingle::run` over all cells. -/
def nakedSingle (b : Board) : Board × StepRes := nakedSinglePass b (List.range b.data.numCells)

/-- The per-house scan of `HiddenSingle::run`: accumulate the union of the
unsolved masks (`at_least_once`), the values seen at least twice among them
(`more_than_once`), and the union of the solved masks (`set_mask`). -/
def hsScan (b : Board) : List Nat → Nat → Nat → Nat → Nat × Nat × Nat
  | [], atLeast, more, setMask => (atLeast, more, setMask)
  | c :: rest, atLeast, more, setMask =>
    let m := b.cell c
    if ValueMask.isSolved m then hsScan b rest atLeast more (setMask ||| m)
    else hsScan b rest (atLeast ||| m) (more ||| (atLeast &&& m)) setMask

/-- The commit loop of `HiddenSingle::run`: set the value in the first house
cell whose mask holds it; `none` when no cell holds it (the Rust loop then
falls through to the next house). -/
def hsCommit (b : Board) (value : Nat) : List Nat → Board × StepRes
  | [] => (b, .none)
  | c :: rest =>
    if ValueMask.has (b.cell c) value then
      match b.setSolved c value with
      | (b', true) => (b', .changed)
      | (b', false) => (b', .invalid)
    else hsCommit b value rest

/-- The house loop of `HiddenSingle::run`. -/
def hsHouses (b : Board) : List (List Nat) → Board × StepRes
  | [] => (b, .none)
  | h :: rest =>
    match hsScan b h 0 0 0 with
    | (atLeast, more, setMask) =>
      let setU := ValueMask.unsolved setMask
      let allSeen := atLeast ||| setU
      if allSeen != b.data.allValuesMask then (b, .invalid)
      else
        let exactly := atLeast &&& (u32All ^^^ more)
        if ValueMask.isEmpty exactly then hsHouses b rest
        else
          match hsCommit b (ValueMask.minVal exactly) h with
          | (b', .none) => hsHouses b' rest
          | r => r

/-- `HiddenSingle::run`. -/
def hiddenSingle (b : Board) : Board × StepRes := hsHouses b b.data.houses

/-- The inner fold of `SimpleCellForcing::run`: intersect the weak-link rows
of the remaining candidates of a cell (union of the first with nothing,
intersection afterwards). -/
def scfElimSet (b : Board) (cell : Nat) : Nat :=
  match ValueMask.toVals (b.cell cell) with
  | [] => 0
  | v :: vs =>
    vs.foldl (fun acc v2 => acc &&& b.data.weakLinks (candOf b.data.size cell v2))
      (b.data.weakLinks (candOf b.data.size cell v))

/-- The cell loop of `SimpleCellForcing::run`: for the first unsolved cell
whose intersection yields still-present candidates, clear them (as a batch,
like `EliminationList::iter` in ascending candidate order). -/
def scfCells (b : Board) : List Nat → Board × StepRes
  | [] => (b, .none)
  | cell :: rest =>
    let m := b.cell cell
    if ValueMask.isSolved m then scfCells b rest
    else
      let elimSet := scfElimSet b cell
      if elimSet == 0 then scfCells b rest
      else
        let elims := (bitIndicesFrom b.data.numCandidates elimSet 0).filter b.hasCandidate
        if elims.isEmpty then scfCells b rest
        else
          match b.clearCandidates elims with
          | (b', true) => (b', .changed)
          | (b', false) => (b', .invalid)

/-- `SimpleCellForcing::run`. -/
def simpleCellForcing (b : Board) : Board × StepRes := scfCells b (List.range b.data.numCells)

/-- The constraint loop of `StepConstraints::run`: run each constraint's
`step_logic` in order and return the first non-`None` result (the board
keeps any mutation a constraint made, even on a `None` result, exactly as
the Rust dispatcher does). -/
def stepConstraintsList (b : Board) (brute : Bool) : List Constraint → Board × StepRes
  | [] => (b, .none)
  | k :: rest =>
    match k.stepLogic b.cells brute with
    | (cs, .none) => stepConstraintsList { b with cells := cs } brute rest
    | (cs, r) => ({ b with cells := cs }, r)

/-- `StepConstraints::run` (the `brute` flag is `!generate_description`). -/
def stepConstraints (b : Board) (brute : Bool) : Board × StepRes :=
  stepConstraintsList b brute b.data.constraints

/-! ## Brute-force search (`solver.rs`)

`SolverBuilder::build` wires the brute-force step list
`[AllNakedSingles, HiddenSingle, StepConstraints]` (the steps of
`standard_logic` whose `is_active_during_brute_force_solves` is true), so
`run_single_brute_force_step` is that fixed pipeline. -/

/-- `Solver::run_single_brute_force_step` for the built solver: the first
non-`None` result of the brute-force pipeline. -/
def runSingleBruteForceStep (b : Board) : Board × StepRes :=
  match allNakedSingles b (b.data.numCells + 1) with
  | (b1, .none) =>
    match hiddenSingle b1 with
    | (b2, .none) => stepConstraints b2 true
    | r => r
  | r => r

/-- `Solver::run_brute_force_logic`: repeat single steps until `None`
(true) or `Invalid` (false); fuel exhaustion is `none`. -/
def runBruteForceLogic (b : Board) : Nat → Option (Board × Bool)
  | 0 => Option.none
  | f + 1 =>
    match runSingleBruteForceStep b with
    | (b', .none) => some (b', true)
    | (b', .invalid) => some (b', false)
    | (b', .changed) => runBruteForceLogic b' f

/-- Propagation fuel used at every search node: `num_cells + 2` rounds,
enough because every `Changed` round of the classic pipeline commits at
least one further cell. -/
def bfFuel (b : Board) : Nat := b.data.numCells + 2

/-- Result of a single-solution search (`SingleSolutionResult`; the error
message is dropped). -/
inductive SingleSolutionResult where
  | none
  | solved (b : Board)
  | error

/-- A `usize::MAX` stand-in for the best-candidate-count sentinel. -/
def usizeMax : Nat := 2 ^ 64 - 1

/-- The powerful-cell loop of `Solver::find_best_brute_force_cell`: return
the first unsolved powerful cell with at most two candidates, else remember
the unsolved powerful cell with the fewest candidates. -/
def fbScan1 (b : Board) : List Nat → Option Nat → Nat → Option Nat
  | [], best, _ => best
  | c :: rest, best, bc =>
    let m := b.cell c
    if ValueMask.isSolved m then fbScan1 b rest best bc
    else
      let cnt := ValueMask.count m
      if cnt ≤ 2 then some c
      else if cnt < bc then fbScan1 b rest (some c) cnt
      else fbScan1 b rest best bc

/-- The all-cells loop of `Solver::find_best_brute_force_cell`: skip solved
cells and unsolved singletons, return the first cell with exactly two
candidates, else the cell with the fewest candidates. -/
def fbScan2 (b : Board) : List Nat → Option Nat → Nat → Option Nat
  | [], best, _ => best
  | c :: rest, best, bc =>
    let m := b.cell c
    if ValueMask.isSolved m then fbScan2 b rest best bc
    else
      let cnt := ValueMask.count m
      if cnt == 1 then fbScan2 b rest best bc
      else if cnt == 2 then some c
      else if cnt < bc then fbScan2 b rest (some c) cnt
      else fbScan2 b rest best bc

/-- `Solver::find_best_brute_force_cell`. -/
def findBestBruteForceCell (b : Board) : Option Nat :=
  match fbScan1 b b.data.powerfulCells Option.none usizeMax with
  | some c => some c
  | Option.none => fbScan2 b (List.range b.data.numCells) Option.none usizeMax

/-- The stack loop of `Solver::find_random_solution_for_board`.  The random
source (`ValueMask::random`, absent from the sources; per the spec it picks
an arbitrary remaining candidate) is modelled as a stream `rng` consulted
with a call counter `k` and the mask to choose from.  Returns the result
together with the final counter. -/
def frsLoop (rng : Nat → Nat → Nat) : Nat → List Board → Nat →
    Option (SingleSolutionResult × Nat)
  | _, [], k => some (.none, k)
  | 0, _ :: _, _ => Option.none
  | f + 1, b :: rest, k =>
    match runBruteForceLogic b (bfFuel b) with
    | Option.none => Option.none
    | some (_, false) => frsLoop rng f rest k
    | some (b', true) =>
      if b'.isSolved then some (.solved b', k)
      else
        match findBestBruteForceCell b' with
        | Option.none => some (.error, k)
        | some cell =>
          let v := rng k (b'.cell cell)
          let cleared := b'.clearValue cell v
          let stack1 := if cleared.2 then cleared.1 :: rest else rest
          let set := b'.setSolved cell v
          let stack2 := if set.2 then set.1 :: stack1 else stack1
          frsLoop rng f stack2 (k + 1)

/-- `Solver::find_random_solution_for_board`. -/
def findRandomSolutionForBoard (rng : Nat → Nat → Nat) (b : Board) (fuel : Nat) :
    Option SingleSolutionResult :=
  match frsLoop rng fuel [b] 0 with
  | some (r, _) => some r
  | Option.none => Option.none

/-- Result of a counting search (`SolutionCountResult`; the error message is
dropped). -/
inductive SolutionCountResult where
  | none
  | exactCount (k : Nat)
  | atLeastCount (k : Nat)
  | error
deriving DecidableEq, Repr

/-- The branch push of `find_solution_count_for_board`: push a copy with
each value of the chosen cell committed, in ascending value order (so the
largest value ends on top). -/
def fscPush (b : Board) (cell : Nat) : List Nat → List Board → List Board
  | [], stack => stack
  | v :: vs, stack =>
    let set := b.setSolved cell v
    fscPush b cell vs (if set.2 then set.1 :: stack else stack)

/-- The stack loop of `Solver::find_solution_count_for_board`, threading the
optional solution receiver's state `s` (`receive` returns false to stop).
Returns the result and the final receiver state. -/
def fscLoop {σ : Type} (recv : Option (σ → Board → σ × Bool)) (maxCount : Nat) :
    Nat → List Board → Nat → σ → Option (SolutionCountResult × σ)
  | _, [], count, s => some (if count == 0 then .none else .exactCount count, s)
  | 0, _ :: _, _, _ => Option.none
  | f + 1, b :: rest, count, s =>
    match runBruteForceLogic b (bfFuel b) with
    | Option.none => Option.none
    | some (_, false) => fscLoop recv maxCount f rest count s
    | some (b', true) =>
      if b'.isSolved then
        match recv with
        | Option.none =>
          if count + 1 ≥ maxCount then some (.atLeastCount (count + 1), s)
          else fscLoop recv maxCount f rest (count + 1) s
        | some r =>
          let rs := r s b'
          if !rs.2 then some (.atLeastCount (count + 1), rs.1)
          else if count + 1 ≥ maxCount then some (.atLeastCount (count + 1), rs.1)
          else fscLoop recv maxCount f rest (count + 1) rs.1
      else
        match findBestBruteForceCell b' with
        | Option.none => some (.error, s)
        | some cell =>
          fscLoop recv maxCount f (fscPush b' cell (ValueMask.toVals (b'.cell cell)) rest)
            count s

/-- `Solver::find_solution_count` (identical to
`find_solution_count_for_board` on the solver's own board). -/
def findSolutionCount {σ : Type} (b : Board) (maxCount : Nat)
    (recv : Option (σ → Board → σ × Bool)) (s : σ) (fuel : Nat) :
    Option (SolutionCountResult × σ) :=
  fscLoop recv maxCount fuel [b] 0 s

/-- Union one found solution's values into the true-candidate accumulator
(the `for (cell, mask) in solution.all_cell_masks()` loop of
`find_true_candidates`). -/
def unionSolution (numCells : Nat) (tcv : List Nat) (sol : Board) : List Nat :=
  (List.range numCells).map (fun c => tcv.getD c 0 ||| ValueMask.unsolved (sol.cell c))

/-- The per-value probe loop of `find_true_candidates`: commit the value on
a clone, attempt one random-search solution, and union it in when found. -/
def ftcVals (rng : Nat → Nat → Nat) (fuel : Nat) (b : Board) (cell : Nat) :
    List Nat → Nat → List Nat → Option (List Nat × Nat)
  | tcv, k, [] => some (tcv, k)
  | tcv, k, v :: vs =>
    match b.setSolved cell v with
    | (_, false) => ftcVals rng fuel b cell tcv k vs
    | (nb, true) =>
      match frsLoop rng fuel [nb] k with
      | Option.none => Option.none
      | some (.solved sol, k') =>
        ftcVals rng fuel b cell (unionSolution b.data.numCells tcv sol) k' vs
      | some (_, k') => ftcVals rng fuel b cell tcv k' vs

/-- The per-cell probe loop of `find_true_candidates`: for each unsolved
cell, probe the values still missing from the accumulator (the probe mask is
snapshotted before the value loop, as in the Rust code). -/
def ftcCells (rng : Nat → Nat → Nat) (fuel : Nat) (b : Board) :
    List Nat → Nat → List Nat → Option (List Nat × Nat)
  | tcv, k, [] => some (tcv, k)
  | tcv, k, c :: cells =>
    let m := b.cell c
    if ValueMask.isSolved m then ftcCells rng fuel b tcv k cells
    else
      let probe := m &&& (u32All ^^^ tcv.getD c 0)
      match ftcVals rng fuel b c tcv k (ValueMask.toVals probe) with
      | some (tcv', k') => ftcCells rng fuel b tcv' k' cells
      | Option.none => Option.none

/-- The final `keep_mask` loop of `find_true_candidates`: intersect every
cell with the accumulated union, stopping at the first emptied cell. -/
def ftcKeep (b : Board) (tcv : List Nat) : List Nat → Board × Bool
  | [] => (b, true)
  | c :: rest =>
    match b.keepMask c (tcv.getD c 0) with
    | (b', true) => ftcKeep b' tcv rest
    | (b', false) => (b', false)

/-- `Solver::find_true_candidates`: brute-force logic once; if unsolved,
probe every open candidate with one random-solution search, intersect every
cell with the union of the found solutions, run `AllNakedSingles` once, and
report the board through the `Solved` variant. -/
def findTrueCandidates (rng : Nat → Nat → Nat) (b : Board) (fuel : Nat) :
    Option SingleSolutionResult :=
  match runBruteForceLogic b (bfFuel b) with
  | Option.none => Option.none
  | some (_, false) => some .none
  | some (b0, true) =>
    if b0.isSolved then some (.solved b0)
    else
      let tcv := (List.range b0.data.numCells).map (fun c =>
        let m := b0.cell c
        if ValueMask.isSolved m then m else 0)
      match ftcCells rng fuel b0 tcv 0 (List.range b0.data.numCells) with
      | Option.none => Option.none
      | some (tcv1, _) =>
        match ftcKeep b0 tcv1 (List.range b0.data.numCells) with
        | (_, false) => some .none
        | (b1, true) =>
          match allNakedSingles b1 (b1.data.numCells + 1) with
          | (_, .invalid) => some .none
          | (b2, .changed) => some (.solved b2)
          | (b2, .none) => some (.solved b2)

/-! ## Direct form of the built weak-link table

`initWeakLinks` builds the table by folding `add_weak_link` over a highly
redundant pair list.  The next definitions give the row of a candidate
directly — all other candidates of the same cell, plus the same value in
every other cell of every house containing the cell — and the
characterization theorems below prove this equals the built table, which
both justifies the classic-links facts and lets concrete runs evaluate. -/

/-- Render a board the way `Display for Board` does: the value of each
singleton cell, `0` for an undecided cell (Rust prints `.`). -/
def renderCells (b : Board) : List Nat :=
  b.cells.board.map (fun m => if ValueMask.isSingle m then ValueMask.value m else 0)

/-! ## Bit-level lemmas about value masks -/

/-- The solved mask a successful `set_solved` writes: the solved flag plus
the single value bit. -/
def solvedMaskOf (v : Nat) : Nat := ValueMask.solvedFlag ||| (1 <<< (v - 1))

theorem has_eq_testBit (m v : Nat) : ValueMask.has m v = m.testBit (v - 1) := by
  unfold ValueMask.has
  rw [Nat.shiftLeft_eq, Nat.one_mul, Nat.and_two_pow]
  rcases h : m.testBit (v - 1) <;>
    simp [h, Nat.ne_of_gt (Nat.pos_pow_of_pos (v - 1) (show 0 < 2 by omega))]

theorem testBit_u32All (k : Nat) : u32All.testBit k = decide (k < 32) := by
  unfold u32All
  simpa using Nat.testBit_two_pow_sub_one 32 k

theorem testBit_without (m v k : Nat) :
    (ValueMask.without m v).testBit k =
      (m.testBit k && (decide (k < 32) ^^ decide (k = v - 1))) := by
  unfold ValueMask.without
  rw [Nat.testBit_land, Nat.testBit_xor, testBit_u32All, Nat.shiftLeft_eq, Nat.one_mul,
    Nat.testBit_two_pow]
  rcases Decidable.em (k = v - 1) with rfl | hk
  · simp
  · have hk2 : ¬(v - 1 = k) := fun h => hk h.symm
    simp [hk, hk2]

theorem testBit_solvedFlag (k : Nat) : ValueMask.solvedFlag.testBit k = decide (31 = k) := by
  unfold ValueMask.solvedFlag
  exact Nat.testBit_two_pow

theorem testBit_candBits (k : Nat) : ValueMask.candBits.testBit k = decide (k < 31) := by
  unfold ValueMask.candBits
  simpa using Nat.testBit_two_pow_sub_one 31 k

theorem testBit_valueBits (m k : Nat) :
    (ValueMask.valueBits m).testBit k = (m.testBit k && decide (k < 31)) := by
  unfold ValueMask.valueBits
  simp [Nat.testBit_land, testBit_candBits]

theorem valueBits_eq_zero_iff (m : Nat) :
    ValueMask.valueBits m = 0 ↔ ∀ k, k < 31 → m.testBit k = false := by
  constructor
  · intro h k hk
    have := congrArg (fun n => n.testBit k) h
    simp only [testBit_valueBits, Nat.zero_testBit] at this
    simpa [hk] using this
  · intro h
    apply Nat.eq_of_testBit_eq
    intro k
    simp only [testBit_valueBits, Nat.zero_testBit]
    rcases Decidable.em (k < 31) with hk | hk
    · simp [h k hk, hk]
    · simp [hk]

theorem isEmpty_eq (m : Nat) :
    ValueMask.isEmpty m = true ↔ ValueMask.valueBits m = 0 := by
  unfold ValueMask.isEmpty
  simp

theorem isSolved_eq_testBit (m : Nat) : ValueMask.isSolved m = m.testBit 31 := by
  unfold ValueMask.isSolved ValueMask.solvedFlag
  rw [Nat.and_two_pow]
  rcases h : m.testBit 31 <;>
    simp [h, Nat.ne_of_gt (Nat.pos_pow_of_pos 31 (show 0 < 2 by omega))]

theorem testBit_withOnly (m v k : Nat) :
    (ValueMask.withOnly m v).testBit k =
      (m.testBit k && (decide (31 = k) || decide (v - 1 = k))) := by
  unfold ValueMask.withOnly
  rw [Nat.testBit_land, Nat.testBit_lor, testBit_solvedFlag, Nat.shiftLeft_eq, Nat.one_mul,
    Nat.testBit_two_pow]

theorem testBit_solvedOp (m k : Nat) :
    (ValueMask.solved m).testBit k = (m.testBit k || decide (31 = k)) := by
  unfold ValueMask.solved
  rw [Nat.testBit_lor, testBit_solvedFlag]

theorem testBit_solvedMaskOf (v k : Nat) :
    (solvedMaskOf v).testBit k = (decide (31 = k) || decide (v - 1 = k)) := by
  unfold solvedMaskOf
  rw [Nat.testBit_lor, testBit_solvedFlag, Nat.shiftLeft_eq, Nat.one_mul, Nat.testBit_two_pow]

theorem has_without_self (m v : Nat) (hv : v - 1 < 32) :
    ValueMask.has (ValueMask.without m v) v = false := by
  rw [has_eq_testBit, testBit_without]
  simp [hv]

theorem has_without_mono (m w v : Nat) :
    ValueMask.has (ValueMask.without m w) v = true → ValueMask.has m v = true := by
  rw [has_eq_testBit, has_eq_testBit, testBit_without]
  intro h
  exact (Bool.and_eq_true_iff.mp h).1

theorem testBit_without_mono (m w k : Nat) :
    (ValueMask.without m w).testBit k = true → m.testBit k = true := by
  rw [testBit_without]
  intro h
  exact (Bool.and_eq_true_iff.mp h).1

theorem has_without_ne (m w v : Nat) (hne : v - 1 ≠ w - 1) (hv : v - 1 < 32) :
    ValueMask.has (ValueMask.without m w) v = ValueMask.has m v := by
  rw [has_eq_testBit, has_eq_testBit, testBit_without]
  simp [hne, hv]

/-- A successful mask write to a solved-value target: the mask written by
`set_solved` before its eliminations run. -/
theorem withOnly_solved_eq (m v : Nat) (hhas : ValueMask.has m v = true) :
    ValueMask.solved (ValueMask.withOnly m v) = solvedMaskOf v := by
  apply Nat.eq_of_testBit_eq
  intro k
  rw [has_eq_testBit] at hhas
  rw [testBit_solvedOp, testBit_withOnly, testBit_solvedMaskOf]
  rcases Decidable.em (31 = k) with rfl | h31
  · simp
  · rcases Decidable.em (v - 1 = k) with rfl | hvk
    · simp [hhas, h31]
    · simp [h31, hvk]

theorem valueBits_solvedMaskOf (v : Nat) (hv : v - 1 < 31) :
    ValueMask.valueBits (solvedMaskOf v) = 2 ^ (v - 1) := by
  apply Nat.eq_of_testBit_eq
  intro k
  rw [testBit_valueBits, testBit_solvedMaskOf, Nat.testBit_two_pow]
  rcases Decidable.em (v - 1 = k) with rfl | hvk
  · simp [hv, Nat.ne_of_gt (show v - 1 < 31 from hv)]
  · rcases Decidable.em (31 = k) with rfl | h31
    · simp [hvk]
    · simp [hvk, h31]

/-! ## Lemmas about the board primitives -/

theorem getD_set (l : List Nat) (i j m : Nat) :
    (l.set i m).getD j 0 = if i = j ∧ i < l.length then m else l.getD j 0 := by
  rw [List.getD_eq_getElem?_getD, List.getD_eq_getElem?_getD, List.getElem?_set]
  rcases Decidable.em (i = j) with rfl | hij
  · rcases Decidable.em (i < l.length) with h | h
    · simp [h]
    · rw [List.getElem?_eq_none (Nat.le_of_not_lt h)]
      simp [h]
  · simp [hij]

theorem cell_lt_length (b : Board) (cell : Nat) (h : b.cell cell ≠ 0) :
    cell < b.cells.board.length := by
  by_contra hlen
  exact h (List.getD_eq_default _ _ (Nat.le_of_not_lt hlen))

theorem has_ne_zero (m v : Nat) (h : ValueMask.has m v = true) : m ≠ 0 := by
  intro rfl0
  rw [rfl0, has_eq_testBit, Nat.zero_testBit] at h
  exact Bool.false_ne_true h

theorem cell_setCellMask (b : Board) (cell m c : Nat) :
    (b.setCellMask cell m).cell c =
      if cell = c ∧ cell < b.cells.board.length then m else b.cell c := by
  unfold Board.setCellMask Board.cell
  exact getD_set _ _ _ _

theorem setCellMask_data (b : Board) (cell m : Nat) :
    (b.setCellMask cell m).data = b.data := rfl

theorem setCellMask_solvedCount (b : Board) (cell m : Nat) :
    (b.setCellMask cell m).cells.solvedCount = b.cells.solvedCount := rfl

theorem setCellMask_length (b : Board) (cell m : Nat) :
    (b.setCellMask cell m).cells.board.length = b.cells.board.length := by
  unfold Board.setCellMask
  exact List.length_set ..

theorem clearValue_data (b : Board) (cell v : Nat) :
    (b.clearValue cell v).1.data = b.data := rfl

theorem clearValue_solvedCount (b : Board) (cell v : Nat) :
    (b.clearValue cell v).1.cells.solvedCount = b.cells.solvedCount := rfl

theorem clearValue_length (b : Board) (cell v : Nat) :
    (b.clearValue cell v).1.cells.board.length = b.cells.board.length := by
  unfold Board.clearValue
  exact setCellMask_length ..

theorem clearValue_cell (b : Board) (cell v c : Nat) :
    (b.clearValue cell v).1.cell c =
      if cell = c ∧ cell < b.cells.board.length then ValueMask.without (b.cell cell) v
      else b.cell c := by
  unfold Board.clearValue
  exact cell_setCellMask ..

theorem clearValue_mono (b : Board) (cell v c k : Nat) :
    ((b.clearValue cell v).1.cell c).testBit k = true → (b.cell c).testBit k = true := by
  rw [clearValue_cell]
  rcases Decidable.em (cell = c ∧ cell < b.cells.board.length) with h | h
  · rw [if_pos h]
    intro hb
    rw [← h.1]
    exact testBit_without_mono _ _ _ hb
  · rw [if_neg h]
    exact id

theorem clearValue_ok (b : Board) (cell v : Nat) :
    (b.clearValue cell v).2 = !(ValueMask.isEmpty (ValueMask.without (b.cell cell) v)) := rfl

theorem clearCandidate_eq (b : Board) (c : Nat) :
    b.clearCandidate c = b.clearValue (cellOfCand b.data.size c) (valOfCand b.data.size c) :=
  rfl

/-! ## Lemmas about the weak-link elimination loop of `set_solved` -/

theorem awl_data (b : Board) (L : List Nat) : (Board.applyWeakLinks b L).1.data = b.data := by
  induction L generalizing b with
  | nil => rfl
  | cons c rest ih =>
    unfold Board.applyWeakLinks
    rcases h : Board.clearCandidate b c with ⟨b1, ok⟩
    have hd : b1.data = b.data := by
      have := clearValue_data b (cellOfCand b.data.size c) (valOfCand b.data.size c)
      rw [clearCandidate_eq] at h
      rw [h] at this
      exact this
    cases ok
    · simpa using hd
    · simpa [ih b1] using hd

theorem awl_solvedCount (b : Board) (L : List Nat) :
    (Board.applyWeakLinks b L).1.cells.solvedCount = b.cells.solvedCount := by
  induction L generalizing b with
  | nil => rfl
  | cons c rest ih =>
    unfold Board.applyWeakLinks
    rcases h : Board.clearCandidate b c with ⟨b1, ok⟩
    have hd : b1.cells.solvedCount = b.cells.solvedCount := by
      have := clearValue_solvedCount b (cellOfCand b.data.size c) (valOfCand b.data.size c)
      rw [clearCandidate_eq] at h
      rw [h] at this
      exact this
    cases ok
    · simpa using hd
    · simpa [ih b1] using hd

theorem awl_mono (b : Board) (L : List Nat) (c k : Nat) :
    ((Board.applyWeakLinks b L).1.cell c).testBit k = true → (b.cell c).testBit k = true := by
  induction L generalizing b with
  | nil => exact id
  | cons cand rest ih =>
    unfold Board.applyWeakLinks
    rcases h : Board.clearCandidate b cand with ⟨b1, ok⟩
    have hmono : ∀ kk, (b1.cell c).testBit kk = true → (b.cell c).testBit kk = true := by
      intro kk
      have := clearValue_mono b (cellOfCand b.data.size cand) (valOfCand b.data.size cand) c kk
      rw [clearCandidate_eq] at h
      rw [h] at this
      exact this
    cases ok
    · intro hb
      exact hmono k hb
    · intro hb
      exact hmono k (ih b1 hb)

/-- Candidate membership as a fact about a cell mask test bit. -/
theorem hasCandidate_eq (b : Board) (cand : Nat) :
    b.hasCandidate cand =
      (b.cell (cellOfCand b.data.size cand)).testBit (valOfCand b.data.size cand - 1) := by
  unfold Board.hasCandidate
  exact has_eq_testBit ..

theorem awl_success_cleared (b : Board) (L : List Nat) (hsz : 0 < b.data.size)
    (hsz31 : b.data.size ≤ 31) :
    (Board.applyWeakLinks b L).2 = true →
      ∀ cand ∈ L, (Board.applyWeakLinks b L).1.hasCandidate cand = false := by
  induction L generalizing b with
  | nil => intro _ cand hc; cases hc
  | cons c0 rest ih =>
    intro hok cand hc
    unfold Board.applyWeakLinks at hok ⊢
    rcases h : Board.clearCandidate b c0 with ⟨b1, ok⟩
    rw [h] at hok
    cases ok with
    | false => simp at hok
    | true =>
      simp only at hok ⊢
      have hd1 : b1.data = b.data := by
        rw [clearCandidate_eq] at h
        have := clearValue_data b (cellOfCand b.data.size c0) (valOfCand b.data.size c0)
        rw [h] at this
        exact this
      have hsz1 : 0 < b1.data.size := by rw [hd1]; exact hsz
      have hsz311 : b1.data.size ≤ 31 := by rw [hd1]; exact hsz31
      have hhead : ∀ cd, b.clearCandidate cd = (b1, true) →
          (Board.applyWeakLinks b1 rest).1.hasCandidate cd = false := by
        intro cd hcd
        have hcleared : b1.hasCandidate cd = false := by
          rw [clearCandidate_eq] at hcd
          have hcell := clearValue_cell b (cellOfCand b.data.size cd)
            (valOfCand b.data.size cd) (cellOfCand b.data.size cd)
          rw [hcd] at hcell
          simp only at hcell
          rw [hasCandidate_eq, hd1]
          rcases Decidable.em (cellOfCand b.data.size cd < b.cells.board.length) with hl | hl
          · rw [hcell]
            rw [if_pos (by exact ⟨trivial, hl⟩), ← has_eq_testBit]
            apply has_without_self
            have : valOfCand b.data.size cd ≤ b.data.size := by
              unfold valOfCand
              have := Nat.mod_lt cd hsz
              omega
            omega
          · rw [hcell]
            rw [if_neg (by intro hcon; exact hl hcon.2), ← has_eq_testBit]
            have h0 : b.cell (cellOfCand b.data.size cd) = 0 :=
              List.getD_eq_default _ _ (Nat.le_of_not_lt hl)
            rw [h0]
            unfold ValueMask.has
            simp
        rw [hasCandidate_eq] at hcleared
        rw [hd1] at hcleared
        rw [hasCandidate_eq]
        have hdL := awl_data b1 rest
        rw [hdL, hd1]
        rcases hbit : ((Board.applyWeakLinks b1 rest).1.cell
            (cellOfCand b.data.size cd)).testBit (valOfCand b.data.size cd - 1) with _ | _
        · rfl
        · exfalso
          have hmono := awl_mono b1 rest (cellOfCand b.data.size cd)
            (valOfCand b.data.size cd - 1) hbit
          rw [hmono] at hcleared
          cases hcleared
      cases hc with
      | head => exact hhead c0 h
      | tail _ hmem => exact ih b1 hsz1 hsz311 hok cand hmem

theorem two_pow_le_of_testBit (m k : Nat) (h : m.testBit k = true) : 2 ^ k ≤ m := by
  by_contra hlt
  rw [Nat.testBit_lt_two_pow (Nat.lt_of_not_le hlt)] at h
  cases h

theorem solvedMaskOf_ne_zero (v : Nat) : solvedMaskOf v ≠ 0 := by
  intro h
  have := congrArg (fun n => n.testBit 31) h
  simp [testBit_solvedMaskOf] at this

theorem without_solvedMaskOf_ne (v w : Nat) (hne : w - 1 ≠ v - 1) (hw : w - 1 < 31)
    (_hv : v - 1 < 31) :
    ValueMask.without (solvedMaskOf v) w = solvedMaskOf v := by
  apply Nat.eq_of_testBit_eq
  intro k
  rw [testBit_without, testBit_solvedMaskOf]
  by_cases h31 : (31 : Nat) = k <;> by_cases hvk : v - 1 = k <;>
    by_cases hwk : k = w - 1 <;> by_cases h32 : k < 32 <;>
    simp [h31, hvk, hwk, h32] <;> omega

theorem without_solvedMaskOf_self (v w : Nat) (heq : w - 1 = v - 1) (_hv : v - 1 < 31) :
    ValueMask.isEmpty (ValueMask.without (solvedMaskOf v) w) = true := by
  rw [isEmpty_eq, valueBits_eq_zero_iff]
  intro k hk
  rw [testBit_without, testBit_solvedMaskOf, heq]
  by_cases h31 : (31 : Nat) = k <;> by_cases hvk : v - 1 = k <;>
    by_cases h32 : k < 32 <;>
    simp [h31, hvk, h32] <;> omega

theorem without_solvedMaskOf_notEmpty (v w : Nat) (hne : w - 1 ≠ v - 1) (hv : v - 1 < 31) :
    ValueMask.isEmpty (ValueMask.without (solvedMaskOf v) w) = false := by
  rcases h : ValueMask.isEmpty (ValueMask.without (solvedMaskOf v) w) with _ | _
  · rfl
  · exfalso
    rw [isEmpty_eq, valueBits_eq_zero_iff] at h
    have := h (v - 1) hv
    rw [testBit_without, testBit_solvedMaskOf] at this
    simp [hne, hv] at this
    omega

/-- Through the elimination loop, the committed cell keeps its solved mask as
long as no elimination targets the committed value itself; a successful loop
never does (clearing the committed value would empty the cell). -/
theorem awl_target_of_success (b : Board) (L : List Nat) (cell v : Nat)
    (hsz : 0 < b.data.size) (hsz31 : b.data.size ≤ 31) (hv : v - 1 < 31)
    (hcell : b.cell cell = solvedMaskOf v)
    (hok : (Board.applyWeakLinks b L).2 = true) :
    (Board.applyWeakLinks b L).1.cell cell = solvedMaskOf v := by
  induction L generalizing b with
  | nil => exact hcell
  | cons c0 rest ih =>
    unfold Board.applyWeakLinks at hok ⊢
    rcases h : Board.clearCandidate b c0 with ⟨b1, ok⟩
    rw [h] at hok
    have hlen : cell < b.cells.board.length :=
      cell_lt_length b cell (by rw [hcell]; exact solvedMaskOf_ne_zero v)
    rw [clearCandidate_eq] at h
    have hcell1 := clearValue_cell b (cellOfCand b.data.size c0) (valOfCand b.data.size c0) cell
    rw [h] at hcell1
    simp only at hcell1
    have hd1 : b1.data = b.data := by
      have := clearValue_data b (cellOfCand b.data.size c0) (valOfCand b.data.size c0)
      rw [h] at this
      exact this
    have hw31 : valOfCand b.data.size c0 - 1 < 31 := by
      unfold valOfCand
      have := Nat.mod_lt c0 hsz
      omega
    cases ok with
    | false => cases hok
    | true =>
      simp only at hok ⊢
      apply ih b1 (by rw [hd1]; exact hsz) (by rw [hd1]; exact hsz31) _ hok
      rcases Decidable.em (cellOfCand b.data.size c0 = cell) with hc | hc
      · -- elimination lands in the committed cell
        rcases Decidable.em (valOfCand b.data.size c0 - 1 = v - 1) with hv2 | hv2
        · -- it would clear the committed value: the clear must have failed
          exfalso
          have hok2 := clearValue_ok b (cellOfCand b.data.size c0) (valOfCand b.data.size c0)
          rw [h] at hok2
          simp only at hok2
          rw [hc, hcell, without_solvedMaskOf_self _ _ hv2 hv] at hok2
          cases hok2
        · rw [hcell1, if_pos ⟨hc, hc ▸ hlen⟩, hc, hcell]
          exact without_solvedMaskOf_ne v _ hv2 hw31 hv
      · rw [hcell1, if_neg (fun hcon => hc hcon.1)]
        exact hcell

/-- Variant for failing runs: when no elimination in the list targets the
committed candidate at all, the committed cell keeps its solved mask even if
the loop aborts early. -/
theorem awl_target_noself (b : Board) (L : List Nat) (cell v : Nat)
    (hsz : 0 < b.data.size) (hsz31 : b.data.size ≤ 31) (hv : v - 1 < 31)
    (hcell : b.cell cell = solvedMaskOf v)
    (hns : ∀ c ∈ L, ¬(cellOfCand b.data.size c = cell ∧ valOfCand b.data.size c - 1 = v - 1)) :
    (Board.applyWeakLinks b L).1.cell cell = solvedMaskOf v := by
  induction L generalizing b with
  | nil => exact hcell
  | cons c0 rest ih =>
    unfold Board.applyWeakLinks
    rcases h : Board.clearCandidate b c0 with ⟨b1, ok⟩
    have hlen : cell < b.cells.board.length :=
      cell_lt_length b cell (by rw [hcell]; exact solvedMaskOf_ne_zero v)
    rw [clearCandidate_eq] at h
    have hcell1 := clearValue_cell b (cellOfCand b.data.size c0) (valOfCand b.data.size c0) cell
    rw [h] at hcell1
    simp only at hcell1
    have hd1 : b1.data = b.data := by
      have := clearValue_data b (cellOfCand b.data.size c0) (valOfCand b.data.size c0)
      rw [h] at this
      exact this
    have hw31 : valOfCand b.data.size c0 - 1 < 31 := by
      unfold valOfCand
      have := Nat.mod_lt c0 hsz
      omega
    have hb1 : b1.cell cell = solvedMaskOf v := by
      rcases Decidable.em (cellOfCand b.data.size c0 = cell) with hc | hc
      · have hv2 : valOfCand b.data.size c0 - 1 ≠ v - 1 :=
          fun hcon => hns c0 (List.mem_cons_self ..) ⟨hc, hcon⟩
        rw [hcell1, if_pos ⟨hc, hc ▸ hlen⟩, hc, hcell]
        exact without_solvedMaskOf_ne v _ hv2 hw31 hv
      · rw [hcell1, if_neg (fun hcon => hc hcon.1)]
        exact hcell
    cases ok with
    | false => exact hb1
    | true =>
      simp only
      exact ih b1 (by rw [hd1]; exact hsz) (by rw [hd1]; exact hsz31) hb1
        (by rw [hd1]; exact fun c hc => hns c (List.mem_cons_of_mem _ hc))

/-! ## Lemmas about the enforce loop -/

theorem enforceAll_true_iff (b : Board) (cell v : Nat) (ks : List Constraint) :
    Board.enforceAll b cell v ks = true ↔
      ∀ k ∈ ks, k.enforceInvalid b.cells cell v = false := by
  induction ks with
  | nil => simp [Board.enforceAll]
  | cons k0 rest ih =>
    unfold Board.enforceAll
    rcases h : k0.enforceInvalid b.cells cell v with _ | _
    · rw [if_neg (show ¬(false = true) by simp)]
      rw [ih]
      constructor
      · intro hall kk hk
        cases hk with
        | head => exact h
        | tail _ hm => exact hall kk hm
      · intro hall kk hk
        exact hall kk (List.mem_cons_of_mem _ hk)
    · simp only [if_pos rfl]
      constructor
      · intro hcon; cases hcon
      · intro hall
        have := hall k0 (List.mem_cons_self ..)
        rw [h] at this
        cases this

/-- The enforce loop stops at the first invalid constraint: any tail beyond
it is never consulted and cannot change the outcome. -/
theorem enforceAll_stops (b : Board) (cell v : Nat) (pre : List Constraint) (k : Constraint)
    (post : List Constraint)
    (hpre : ∀ kc ∈ pre, kc.enforceInvalid b.cells cell v = false)
    (hk : k.enforceInvalid b.cells cell v = true) :
    Board.enforceAll b cell v (pre ++ k :: post) = false := by
  induction pre with
  | nil =>
    rw [List.nil_append]
    unfold Board.enforceAll
    rw [hk]
    simp
  | cons k0 rest ih =>
    rw [List.cons_append]
    unfold Board.enforceAll
    rw [hpre k0 (List.mem_cons_self ..)]
    simpa using ih (fun kc hkc => hpre kc (List.mem_cons_of_mem _ hkc))

/-! ## Membership in a bitset iteration -/

theorem mem_bitIndicesFrom (f : Nat) : ∀ (n i c : Nat),
    (c ∈ bitIndicesFrom f n i ↔ ∃ j, c = i + j ∧ j < f ∧ n.testBit j = true) := by
  induction f with
  | zero =>
    intro n i c
    simp [bitIndicesFrom]
  | succ f ih =>
    intro n i c
    unfold bitIndicesFrom
    rcases hz : n == 0 with _ | _
    · simp only [Bool.false_eq_true, if_false]
      rcases hodd : n % 2 == 1 with _ | _
      · simp only [Bool.false_eq_true, if_false]
        rw [ih (n / 2) (i + 1) c]
        constructor
        · rintro ⟨j, rfl, hj, hbit⟩
          exact ⟨j + 1, by omega, by omega, by rw [Nat.testBit_succ]; exact hbit⟩
        · rintro ⟨j, rfl, hj, hbit⟩
          match j, hj, hbit with
          | 0, hj, hbit => rw [Nat.testBit_zero] at hbit; simp at hbit; simp at hodd; omega
          | j + 1, hj, hbit =>
            rw [Nat.testBit_succ] at hbit
            exact ⟨j, by omega, by omega, hbit⟩
      · simp only [if_true]
        rw [List.mem_cons, ih (n / 2) (i + 1) c]
        constructor
        · rintro (rfl | ⟨j, rfl, hj, hbit⟩)
          · exact ⟨0, by omega, by omega, by rw [Nat.testBit_zero]; simpa using hodd⟩
          · exact ⟨j + 1, by omega, by omega, by rw [Nat.testBit_succ]; exact hbit⟩
        · rintro ⟨j, rfl, hj, hbit⟩
          match j, hj, hbit with
          | 0, hj, hbit => left; omega
          | j + 1, hj, hbit =>
            right
            rw [Nat.testBit_succ] at hbit
            exact ⟨j, by omega, by omega, hbit⟩
    · simp only [if_true]
      have : n = 0 := by simpa using hz
      subst this
      simp

/-! ## Specification of `set_solved` -/

theorem setSolved_not_has (b : Board) (cell v : Nat)
    (h : ValueMask.has (b.cell cell) v = false) : b.setSolved cell v = (b, false) := by
  unfold Board.setSolved
  rw [h]
  simp

theorem setSolved_already_solved (b : Board) (cell v : Nat)
    (h : ValueMask.isSolved (b.cell cell) = true) : b.setSolved cell v = (b, false) := by
  unfold Board.setSolved
  rcases hh : ValueMask.has (b.cell cell) v with _ | _ <;> simp [hh, h]

theorem setSolvedMark_data (b : Board) (cell v : Nat) :
    (b.setSolvedMark cell v).data = b.data := rfl

theorem setSolvedMark_solvedCount (b : Board) (cell v : Nat) :
    (b.setSolvedMark cell v).cells.solvedCount = b.cells.solvedCount + 1 := rfl

theorem setSolvedMark_cell (b : Board) (cell v c : Nat) :
    (b.setSolvedMark cell v).cell c =
      if cell = c ∧ cell < b.cells.board.length then
        ValueMask.solved (ValueMask.withOnly (b.cell cell) v)
      else b.cell c := by
  unfold Board.setSolvedMark Board.cell Board.setCellMask
  exact getD_set _ _ _ _

theorem setSolved_inner_of (b : Board) (cell v : Nat)
    (hhas : ValueMask.has (b.cell cell) v = true)
    (hns : ValueMask.isSolved (b.cell cell) = false) :
    b.setSolved cell v = b.setSolvedInner cell v := by
  unfold Board.setSolved
  rw [hhas, hns]
  simp

/-- A value can only be committed if its bit sits strictly below the solved
flag (derived from the mask being a `u32` and the cell being unsolved). -/
theorem committed_value_lt (b : Board) (cell v : Nat) (hm : b.cell cell < 2 ^ 32)
    (hhas : ValueMask.has (b.cell cell) v = true)
    (hns : ValueMask.isSolved (b.cell cell) = false) : v - 1 < 31 := by
  rw [has_eq_testBit] at hhas
  rw [isSolved_eq_testBit] at hns
  have hge := two_pow_le_of_testBit _ _ hhas
  have h32 : v - 1 < 32 := by
    by_contra hcon
    have : (2 : Nat) ^ 32 ≤ 2 ^ (v - 1) :=
      Nat.pow_le_pow_right (by omega) (by omega)
    omega
  rcases Nat.lt_or_ge (v - 1) 31 with h | h
  · exact h
  · exfalso
    have : v - 1 = 31 := by omega
    rw [this] at hhas
    rw [hhas] at hns
    cases hns

/-- Master specification of a successful `set_solved`: the preconditions
held, the cell mask is exactly the committed value with the solved flag, the
counter went up by one, every weakly-linked candidate is gone, and every
constraint was enforced without a violation. -/
theorem setSolved_success_spec (b : Board) (cell v : Nat)
    (hsz : 0 < b.data.size) (hsz31 : b.data.size ≤ 31) (hm : b.cell cell < 2 ^ 32)
    (hok : (b.setSolved cell v).2 = true) :
    ValueMask.has (b.cell cell) v = true ∧
    ValueMask.isSolved (b.cell cell) = false ∧
    (b.setSolved cell v).1.cell cell = solvedMaskOf v ∧
    (b.setSolved cell v).1.cells.solvedCount = b.cells.solvedCount + 1 ∧
    (b.setSolved cell v).1.data = b.data ∧
    (∀ c, (b.data.weakLinks (candOf b.data.size cell v)).testBit c = true →
      c < b.data.numCandidates → (b.setSolved cell v).1.hasCandidate c = false) ∧
    (∀ k ∈ b.data.constraints,
      k.enforceInvalid (b.setSolved cell v).1.cells cell v = false) := by
  rcases hhas : ValueMask.has (b.cell cell) v with _ | _
  · rw [setSolved_not_has b cell v hhas] at hok
    cases hok
  rcases hns : ValueMask.isSolved (b.cell cell) with _ | _
  case true =>
    rw [setSolved_already_solved b cell v hns] at hok
    cases hok
  have hv31 : v - 1 < 31 := committed_value_lt b cell v hm hhas hns
  have hred := setSolved_inner_of b cell v hhas hns
  rw [hred] at hok ⊢
  unfold Board.setSolvedInner at hok ⊢
  dsimp only at hok ⊢
  rcases hawl : Board.applyWeakLinks (b.setSolvedMark cell v)
      (bitIndicesFrom b.data.numCandidates
        (b.data.weakLinks (candOf b.data.size cell v)) 0) with ⟨b2, ok2⟩
  rw [hawl] at hok
  cases ok2 with
  | false => simp at hok
  | true =>
    simp only at hok ⊢
    have hlen : cell < b.cells.board.length := cell_lt_length b cell (has_ne_zero _ _ hhas)
    have hmark : (b.setSolvedMark cell v).cell cell = solvedMaskOf v := by
      rw [setSolvedMark_cell, if_pos (show cell = cell ∧ cell < b.cells.board.length from ⟨rfl, hlen⟩)]
      exact withOnly_solved_eq _ _ hhas
    have hd1 : (b.setSolvedMark cell v).data = b.data := rfl
    refine ⟨trivial, trivial, ?_, ?_, ?_, ?_, ?_⟩
    · have := awl_target_of_success (b.setSolvedMark cell v) _ cell v
        (by rw [hd1]; exact hsz) (by rw [hd1]; exact hsz31) hv31 hmark (by rw [hawl])
      rw [hawl] at this
      exact this
    · have := awl_solvedCount (b.setSolvedMark cell v)
        (bitIndicesFrom b.data.numCandidates
          (b.data.weakLinks (candOf b.data.size cell v)) 0)
      rw [hawl] at this
      rw [this, setSolvedMark_solvedCount]
    · have := awl_data (b.setSolvedMark cell v)
        (bitIndicesFrom b.data.numCandidates
          (b.data.weakLinks (candOf b.data.size cell v)) 0)
      rw [hawl] at this
      rw [this, hd1]
    · intro c hbit hc
      have hmem : c ∈ bitIndicesFrom b.data.numCandidates
          (b.data.weakLinks (candOf b.data.size cell v)) 0 := by
        rw [mem_bitIndicesFrom]
        exact ⟨c, by omega, hc, hbit⟩
      have := awl_success_cleared (b.setSolvedMark cell v) _
        (by rw [hd1]; exact hsz) (by rw [hd1]; exact hsz31) (by rw [hawl]) c hmem
      rw [hawl] at this
      exact this
    · intro k hk
      exact (enforceAll_true_iff b2 cell v b.data.constraints).mp hok k hk

/-- Candidate-bit monotonicity of `set_solved` (solved flag aside, the
operation only ever removes candidates, from every cell). -/
theorem setSolved_mono (b : Board) (cell v c k : Nat) (hk : k ≠ 31)
    (hbit : ((b.setSolved cell v).1.cell c).testBit k = true) :
    (b.cell c).testBit k = true := by
  rcases hhas : ValueMask.has (b.cell cell) v with _ | _
  · rw [setSolved_not_has b cell v hhas] at hbit
    exact hbit
  rcases hns : ValueMask.isSolved (b.cell cell) with _ | _
  case true =>
    rw [setSolved_already_solved b cell v hns] at hbit
    exact hbit
  rw [setSolved_inner_of b cell v hhas hns] at hbit
  unfold Board.setSolvedInner at hbit
  dsimp only at hbit
  rcases hawl : Board.applyWeakLinks (b.setSolvedMark cell v)
      (bitIndicesFrom b.data.numCandidates
        (b.data.weakLinks (candOf b.data.size cell v)) 0) with ⟨b2, ok2⟩
  rw [hawl] at hbit
  have hb2 : (b2.cell c).testBit k = true := by
    cases ok2 <;> simpa using hbit
  have hmark : ((b.setSolvedMark cell v).cell c).testBit k = true := by
    have := awl_mono (b.setSolvedMark cell v)
      (bitIndicesFrom b.data.numCandidates
        (b.data.weakLinks (candOf b.data.size cell v)) 0) c k
    rw [hawl] at this
    exact this hb2
  rw [setSolvedMark_cell] at hmark
  rcases Decidable.em (cell = c ∧ cell < b.cells.board.length) with h | h
  · rw [if_pos h] at hmark
    rw [testBit_solvedOp, testBit_withOnly] at hmark
    rcases Bool.or_eq_true_iff.mp hmark with h1 | h1
    · rw [← h.1]
      exact (Bool.and_eq_true_iff.mp h1).1
    · exfalso
      have : (31 : Nat) = k := by simpa using h1
      omega
  · rw [if_neg h] at hmark
    exact hmark

/-- C1.  For every board, cell, and value `v`: `set_solved(cell, v)` fails
when `v` is not in the cell's mask or the cell is already solved; and on
success the cell's mask is exactly the committed value with the solved flag,
the solved counter went up by one, every candidate weakly linked to
`(cell, v)` has been removed, and every registered constraint's `enforce`
was consulted (none reporting a violation).  The hypotheses say the board is
well-formed the way every board built by this library is: positive size at
most 31, a `u32` cell mask, and weak-link rows confined to the candidate
range. -/
theorem claim_C1 (b : Board) (cell v : Nat)
    (hsz : 0 < b.data.size) (hsz31 : b.data.size ≤ 31) (hm : b.cell cell < 2 ^ 32)
    (hrow : ∀ c, (b.data.weakLinks (candOf b.data.size cell v)).testBit c = true →
      c < b.data.numCandidates) :
    ((ValueMask.has (b.cell cell) v = false ∨ ValueMask.isSolved (b.cell cell) = true) →
      (b.setSolved cell v).2 = false) ∧
    ((b.setSolved cell v).2 = true →
      (b.setSolved cell v).1.cell cell = solvedMaskOf v ∧
      (b.setSolved cell v).1.cells.solvedCount = b.cells.solvedCount + 1 ∧
      (∀ c, (b.data.weakLinks (candOf b.data.size cell v)).testBit c = true →
        (b.setSolved cell v).1.hasCandidate c = false) ∧
      (∀ k ∈ b.data.constraints,
        k.enforceInvalid (b.setSolved cell v).1.cells cell v = false)) := by
  constructor
  · rintro (h | h)
    · rw [setSolved_not_has b cell v h]
    · rw [setSolved_already_solved b cell v h]
  · intro hok
    obtain ⟨_, _, h3, h4, _, h6, h7⟩ := setSolved_success_spec b cell v hsz hsz31 hm hok
    exact ⟨h3, h4, fun c hbit => h6 c hbit (hrow c hbit), h7⟩

/-- Witness for C1: on the empty 2×2 board, committing value 1 in cell 0
succeeds and produces the exact solved mask. -/
theorem claim_C1_witness :
    ((Board.new 2 [] []).setSolved 0 1).2 = true ∧
    ((Board.new 2 [] []).setSolved 0 1).1.cell 0 = solvedMaskOf 1 ∧
    ((Board.new 2 [] []).setSolved 0 1).1.cells.solvedCount =
      (Board.new 2 [] []).cells.solvedCount + 1 := by
  have hrow : ∀ c,
      ((Board.new 2 [] []).data.weakLinks
        (candOf (Board.new 2 [] []).data.size 0 1)).testBit c = true →
      c < (Board.new 2 [] []).data.numCandidates := by
    intro c hbit
    have hlt : (Board.new 2 [] []).data.weakLinks
        (candOf (Board.new 2 [] []).data.size 0 1) < 2 ^ 8 := by decide
    have hle := two_pow_le_of_testBit _ _ hbit
    have hnc : (Board.new 2 [] []).data.numCandidates = 8 := by decide
    rw [hnc]
    by_contra hc
    have : (2 : Nat) ^ 8 ≤ 2 ^ c := Nat.pow_le_pow_right (by omega) (by omega)
    omega
  have h := (claim_C1 (Board.new 2 [] []) 0 1 (by decide) (by decide) (by decide) hrow).2
    (by decide)
  exact ⟨by decide, h.1, h.2.1⟩

/-! ## Non-atomicity of `set_solved` on failure (constraint replacement) -/

/-- Replace the registered constraint list (everything else shared), to
express that a computation never consulted part of it. -/
def Board.withConstraints (b : Board) (cs : List Constraint) : Board :=
  { b with data := { b.data with constraints := cs } }

theorem clearValue_withConstraints (b : Board) (cs : List Constraint) (cell v : Nat) :
    (b.withConstraints cs).clearValue cell v =
      ((b.clearValue cell v).1.withConstraints cs, (b.clearValue cell v).2) := rfl

theorem clearCandidate_withConstraints (b : Board) (cs : List Constraint) (c : Nat) :
    (b.withConstraints cs).clearCandidate c =
      ((b.clearCandidate c).1.withConstraints cs, (b.clearCandidate c).2) := rfl

theorem awl_withConstraints (b : Board) (cs : List Constraint) (L : List Nat) :
    (Board.applyWeakLinks (b.withConstraints cs) L) =
      ((Board.applyWeakLinks b L).1.withConstraints cs, (Board.applyWeakLinks b L).2) := by
  induction L generalizing b with
  | nil => rfl
  | cons c rest ih =>
    unfold Board.applyWeakLinks
    rw [clearCandidate_withConstraints]
    rcases h : Board.clearCandidate b c with ⟨b1, ok⟩
    cases ok
    · simp
    · simpa using ih b1

theorem setSolvedMark_withConstraints (b : Board) (cs : List Constraint) (cell v : Nat) :
    (b.withConstraints cs).setSolvedMark cell v = (b.setSolvedMark cell v).withConstraints cs :=
  rfl

theorem withConstraints_size (b : Board) (cs : List Constraint) :
    (b.withConstraints cs).data.size = b.data.size := rfl

theorem withConstraints_numCandidates (b : Board) (cs : List Constraint) :
    (b.withConstraints cs).data.numCandidates = b.data.numCandidates := rfl

theorem withConstraints_weakLinks (b : Board) (cs : List Constraint) :
    (b.withConstraints cs).data.weakLinks = b.data.weakLinks := rfl

theorem withConstraints_cells (b : Board) (cs : List Constraint) :
    (b.withConstraints cs).cells = b.cells := rfl

/-- Master specification of a failing `set_solved` whose preconditions
passed: the cell stays marked solved with exactly the committed value, the
counter stays incremented, no candidate is ever restored, and the
constraints beyond the failure point never influence the outcome (on an
elimination-phase failure no constraint does). -/
theorem setSolved_fail_spec (b : Board) (cell v : Nat)
    (hsz : 0 < b.data.size) (hsz31 : b.data.size ≤ 31) (hm : b.cell cell < 2 ^ 32)
    (hv1 : 1 ≤ v)
    (hnoself : (b.data.weakLinks (candOf b.data.size cell v)).testBit
      (candOf b.data.size cell v) = false)
    (hhas : ValueMask.has (b.cell cell) v = true)
    (hns : ValueMask.isSolved (b.cell cell) = false)
    (_hfail : (b.setSolved cell v).2 = false) :
    (b.setSolved cell v).1.cell cell = solvedMaskOf v ∧
    (b.setSolved cell v).1.cells.solvedCount = b.cells.solvedCount + 1 ∧
    (∀ c k, k ≠ 31 → (((b.setSolved cell v).1.cell c).testBit k = true →
      (b.cell c).testBit k = true)) ∧
    ((Board.applyWeakLinks (b.setSolvedMark cell v)
        (bitIndicesFrom b.data.numCandidates
          (b.data.weakLinks (candOf b.data.size cell v)) 0)).2 = false →
      ∀ cs, ((b.withConstraints cs).setSolved cell v).1.cells = (b.setSolved cell v).1.cells ∧
        ((b.withConstraints cs).setSolved cell v).2 = false) ∧
    (∀ pre k post post', b.data.constraints = pre ++ k :: post →
      (∀ kc ∈ pre, kc.enforceInvalid (b.setSolved cell v).1.cells cell v = false) →
      k.enforceInvalid (b.setSolved cell v).1.cells cell v = true →
      ((b.withConstraints (pre ++ k :: post')).setSolved cell v).1.cells
          = (b.setSolved cell v).1.cells ∧
      ((b.withConstraints (pre ++ k :: post')).setSolved cell v).2 = false) := by
  have hv31 : v - 1 < 31 := committed_value_lt b cell v hm hhas hns
  have hlen : cell < b.cells.board.length := cell_lt_length b cell (has_ne_zero _ _ hhas)
  have hmark : (b.setSolvedMark cell v).cell cell = solvedMaskOf v := by
    rw [setSolvedMark_cell,
      if_pos (show cell = cell ∧ cell < b.cells.board.length from ⟨rfl, hlen⟩)]
    exact withOnly_solved_eq _ _ hhas
  have hd1 : (b.setSolvedMark cell v).data = b.data := rfl
  have hnoselfL : ∀ c ∈ bitIndicesFrom b.data.numCandidates
      (b.data.weakLinks (candOf b.data.size cell v)) 0,
      ¬(cellOfCand b.data.size c = cell ∧ valOfCand b.data.size c - 1 = v - 1) := by
    intro c hc hcon
    rw [mem_bitIndicesFrom] at hc
    obtain ⟨j, hcj, hj, hbit⟩ := hc
    have hcj2 : c = j := by omega
    subst hcj2
    have hcand : c = candOf b.data.size cell v := by
      unfold cellOfCand valOfCand at hcon
      unfold candOf
      obtain ⟨hdiv, hmod⟩ := hcon
      have hja := Nat.div_add_mod c b.data.size
      rw [hdiv] at hja
      have hmod2 : c % b.data.size = v - 1 := by omega
      rw [hmod2, Nat.mul_comm] at hja
      omega
    rw [hcand] at hbit
    rw [hbit] at hnoself
    cases hnoself
  -- the precondition checks pass, so the inner phase ran
  have hred := setSolved_inner_of b cell v hhas hns
  have htgt : (Board.applyWeakLinks (b.setSolvedMark cell v)
      (bitIndicesFrom b.data.numCandidates
        (b.data.weakLinks (candOf b.data.size cell v)) 0)).1.cell cell = solvedMaskOf v :=
    awl_target_noself (b.setSolvedMark cell v) _ cell v hsz hsz31 hv31 hmark hnoselfL
  rcases hawl : Board.applyWeakLinks (b.setSolvedMark cell v)
      (bitIndicesFrom b.data.numCandidates
        (b.data.weakLinks (candOf b.data.size cell v)) 0) with ⟨b2, ok2⟩
  rw [hawl] at htgt
  have hcount : b2.cells.solvedCount = b.cells.solvedCount + 1 := by
    have := awl_solvedCount (b.setSolvedMark cell v)
      (bitIndicesFrom b.data.numCandidates
        (b.data.weakLinks (candOf b.data.size cell v)) 0)
    rw [hawl] at this
    rw [this, setSolvedMark_solvedCount]
  have hfst : (b.setSolved cell v).1 = b2 := by
    rw [hred]
    unfold Board.setSolvedInner
    dsimp only
    rw [hawl]
    cases ok2 <;> rfl
  have hredc : ∀ cs, (b.withConstraints cs).setSolved cell v =
      ((b2.withConstraints cs),
        if ok2 then Board.enforceAll (b2.withConstraints cs) cell v cs else false) := by
    intro cs
    have h1 : (b.withConstraints cs).setSolved cell v =
        (b.withConstraints cs).setSolvedInner cell v :=
      setSolved_inner_of (b.withConstraints cs) cell v hhas hns
    rw [h1]
    unfold Board.setSolvedInner
    dsimp only
    rw [setSolvedMark_withConstraints]
    simp only [withConstraints_size, withConstraints_numCandidates, withConstraints_weakLinks]
    rw [awl_withConstraints (b.setSolvedMark cell v) cs
      (bitIndicesFrom b.data.numCandidates
        (b.data.weakLinks (candOf b.data.size cell v)) 0), hawl]
    cases ok2 <;> rfl
  refine ⟨by rw [hfst]; exact htgt, by rw [hfst]; exact hcount,
    (fun c k hk => setSolved_mono b cell v c k hk), ?_, ?_⟩
  · intro hawlfail cs
    simp only at hawlfail
    subst hawlfail
    rw [hredc cs, hfst]
    exact ⟨rfl, rfl⟩
  · intro pre k post post' hcs hpre hk
    rw [hredc (pre ++ k :: post'), hfst]
    cases ok2 with
    | false => exact ⟨rfl, rfl⟩
    | true =>
      refine ⟨rfl, ?_⟩
      simp only [if_true]
      apply enforceAll_stops
      · intro kc hkc
        have := hpre kc hkc
        rw [hfst] at this
        exact this
      · rw [hfst] at hk
        exact hk

/-- C9.  When `set_solved(cell, v)` passes its precondition checks but then
returns false — because a weak-link elimination emptied some cell or a
constraint's `enforce` reported invalid — the board is left partially
mutated: the cell stays marked solved with mask exactly `{v}`, the solved
counter stays incremented, applied eliminations are not undone (no candidate
is ever restored anywhere), and the constraints past the failing point are
never consulted: on an elimination-phase failure the whole constraint list
can be replaced without changing the outcome, and on an enforce-phase
failure everything after the first invalid constraint can.  `set_solved` is
not atomic on failure.  (The well-formedness hypotheses hold for every board
this library builds; `hnoself` says the committed candidate is not
self-linked, which `Board::new` guarantees.) -/
theorem claim_C9 (b : Board) (cell v : Nat)
    (hsz : 0 < b.data.size) (hsz31 : b.data.size ≤ 31) (hm : b.cell cell < 2 ^ 32)
    (hv1 : 1 ≤ v)
    (hnoself : (b.data.weakLinks (candOf b.data.size cell v)).testBit
      (candOf b.data.size cell v) = false)
    (hhas : ValueMask.has (b.cell cell) v = true)
    (hns : ValueMask.isSolved (b.cell cell) = false)
    (hfail : (b.setSolved cell v).2 = false) :
    (b.setSolved cell v).1.cell cell = solvedMaskOf v ∧
    (b.setSolved cell v).1.cells.solvedCount = b.cells.solvedCount + 1 ∧
    (∀ c k, k ≠ 31 → (((b.setSolved cell v).1.cell c).testBit k = true →
      (b.cell c).testBit k = true)) ∧
    ((Board.applyWeakLinks (b.setSolvedMark cell v)
        (bitIndicesFrom b.data.numCandidates
          (b.data.weakLinks (candOf b.data.size cell v)) 0)).2 = false →
      ∀ cs, ((b.withConstraints cs).setSolved cell v).1.cells = (b.setSolved cell v).1.cells ∧
        ((b.withConstraints cs).setSolved cell v).2 = false) ∧
    (∀ pre k post post', b.data.constraints = pre ++ k :: post →
      (∀ kc ∈ pre, kc.enforceInvalid (b.setSolved cell v).1.cells cell v = false) →
      k.enforceInvalid (b.setSolved cell v).1.cells cell v = true →
      ((b.withConstraints (pre ++ k :: post')).setSolved cell v).1.cells
          = (b.setSolved cell v).1.cells ∧
      ((b.withConstraints (pre ++ k :: post')).setSolved cell v).2 = false) :=
  setSolved_fail_spec b cell v hsz hsz31 hm hv1 hnoself hhas hns hfail

/-- A 2×2 board on which cell 1 has been reduced to the single candidate 1,
so that committing 1 in cell 0 passes its preconditions but fails when the
weak-link elimination empties cell 1. -/
def c9demo : Board := ((Board.new 2 [] []).clearValue 1 2).1

/-- Witness for C9: the failing commit leaves the partially mutated state. -/
theorem claim_C9_witness :
    (c9demo.setSolved 0 1).2 = false ∧
    (c9demo.setSolved 0 1).1.cell 0 = solvedMaskOf 1 ∧
    (c9demo.setSolved 0 1).1.cells.solvedCount = c9demo.cells.solvedCount + 1 := by
  have h := claim_C9 c9demo 0 1 (by decide) (by decide) (by decide) (by decide) (by decide)
    (by decide) (by decide) (by decide)
  exact ⟨by decide, h.1, h.2.1⟩

/-! ## Characterization of the built weak-link table -/

/-- `BoardData::has_weak_link`. -/
def hasWeakLink (b : Board) (c1 c2 : Nat) : Bool := (b.data.weakLinks c1).testBit c2

/-- Folding `add_weak_link` over a pair list. -/
def foldAdd (t : List Nat) (pairs : List (Nat × Nat)) : List Nat :=
  pairs.foldl (fun t p => addWeakLink t p.1 p.2) t

theorem addWeakLink_length (t : List Nat) (c1 c2 : Nat) :
    (addWeakLink t c1 c2).length = t.length := by
  unfold addWeakLink
  simp

theorem foldAdd_length (pairs : List (Nat × Nat)) : ∀ t : List Nat,
    (foldAdd t pairs).length = t.length := by
  induction pairs with
  | nil => intro t; rfl
  | cons p rest ih =>
    intro t
    unfold foldAdd
    rw [List.foldl_cons]
    have := ih (addWeakLink t p.1 p.2)
    unfold foldAdd at this
    rw [this, addWeakLink_length]

theorem tableGet_set_bit (t : List Nat) (i A B j : Nat) :
    (tableGet (t.set i (tableGet t i ||| (1 <<< j))) A).testBit B = true ↔
      (tableGet t A).testBit B = true ∨ (i = A ∧ j = B ∧ A < t.length) := by
  unfold tableGet
  rw [getD_set]
  rcases Decidable.em (i = A ∧ i < t.length) with h | h
  · rw [if_pos h]
    rw [Nat.testBit_lor, Nat.shiftLeft_eq, Nat.one_mul, Nat.testBit_two_pow]
    obtain ⟨rfl, hlen⟩ := h
    constructor
    · intro hb
      rcases Bool.or_eq_true_iff.mp hb with hb | hb
      · exact Or.inl hb
      · exact Or.inr ⟨rfl, by simpa using hb, hlen⟩
    · rintro (hb | ⟨-, rfl, -⟩)
      · rw [hb]; rfl
      · simp
  · rw [if_neg h]
    constructor
    · exact Or.inl
    · rintro (hb | ⟨rfl, rfl, hlen⟩)
      · exact hb
      · exact absurd ⟨rfl, hlen⟩ h

theorem addWeakLink_testBit (t : List Nat) (c1 c2 A B : Nat) :
    (tableGet (addWeakLink t c1 c2) A).testBit B = true ↔
      (tableGet t A).testBit B = true ∨
        (A < t.length ∧ ((c1 = A ∧ c2 = B) ∨ (c2 = A ∧ c1 = B))) := by
  unfold addWeakLink
  dsimp only
  rw [show tableGet (t.set c1 (tableGet t c1 ||| (1 <<< c2))) c2 ||| (1 <<< c1) =
      tableGet (t.set c1 (tableGet t c1 ||| (1 <<< c2))) c2 ||| (1 <<< c1) from rfl]
  rw [tableGet_set_bit]
  rw [List.length_set]
  rw [tableGet_set_bit]
  constructor
  · rintro ((hb | ⟨rfl, rfl, hlen⟩) | ⟨rfl, rfl, hlen⟩)
    · exact Or.inl hb
    · exact Or.inr ⟨hlen, Or.inl ⟨rfl, rfl⟩⟩
    · exact Or.inr ⟨hlen, Or.inr ⟨rfl, rfl⟩⟩
  · rintro (hb | ⟨hlen, (⟨rfl, rfl⟩ | ⟨rfl, rfl⟩)⟩)
    · exact Or.inl (Or.inl hb)
    · exact Or.inl (Or.inr ⟨rfl, rfl, hlen⟩)
    · exact Or.inr ⟨rfl, rfl, hlen⟩

theorem foldAdd_testBit (pairs : List (Nat × Nat)) : ∀ (t : List Nat) (A B : Nat),
    (tableGet (foldAdd t pairs) A).testBit B = true ↔
      (tableGet t A).testBit B = true ∨
        (A < t.length ∧ ∃ pq ∈ pairs,
          (pq.1 = A ∧ pq.2 = B) ∨ (pq.1 = B ∧ pq.2 = A)) := by
  induction pairs with
  | nil =>
    intro t A B
    simp [foldAdd]
  | cons p rest ih =>
    intro t A B
    unfold foldAdd
    rw [List.foldl_cons]
    have := ih (addWeakLink t p.1 p.2) A B
    unfold foldAdd at this
    rw [this, addWeakLink_testBit, addWeakLink_length]
    constructor
    · rintro ((hb | ⟨hlen, hp⟩) | ⟨hlen, pq, hpq, hor⟩)
      · exact Or.inl hb
      · exact Or.inr ⟨hlen, p, List.mem_cons_self .., (by tauto)⟩
      · exact Or.inr ⟨hlen, pq, List.mem_cons_of_mem _ hpq, hor⟩
    · rintro (hb | ⟨hlen, pq, hpq, hor⟩)
      · exact Or.inl (Or.inl hb)
      · cases hpq with
        | head => exact Or.inl (Or.inr ⟨hlen, by tauto⟩)
        | tail _ hm => exact Or.inr ⟨hlen, pq, hm, hor⟩

/-- The table part of processing the constraint pairs is a plain fold over
the pairs with distinct endpoints. -/
theorem addConstraintPairs_table (cpairs : List (Nat × Nat)) :
    ∀ (t elims : List Nat),
      (addConstraintPairs t elims cpairs).1 =
        foldAdd t (cpairs.filter (fun pq => pq.1 != pq.2)) := by
  induction cpairs with
  | nil => intro t elims; rfl
  | cons p rest ih =>
    intro t elims
    unfold addConstraintPairs
    rcases hp : p.1 != p.2 with _ | _
    · rw [if_neg (by simp_all)]
      rw [ih]
      have : (p :: rest).filter (fun pq => pq.1 != pq.2) =
          rest.filter (fun pq => pq.1 != pq.2) := by
        rw [List.filter_cons_of_neg (by simp_all)]
      rw [this]
    · rw [if_pos (by simp_all)]
      rw [ih]
      have : (p :: rest).filter (fun pq => pq.1 != pq.2) =
          p :: rest.filter (fun pq => pq.1 != pq.2) := by
        rw [List.filter_cons_of_pos (by simp_all)]
      rw [this]
      rfl

theorem tableGet_replicate (n A : Nat) : tableGet (List.replicate n 0) A = 0 := by
  unfold tableGet
  rcases Nat.lt_or_ge A n with h | h
  · rw [List.getD_eq_getElem?_getD, List.getElem?_replicate]
    rw [if_pos h]
    rfl
  · rw [List.getD_eq_default _ _ (by simpa using h)]

/-- Folding `add_weak_link` over in-range pairs preserves table symmetry. -/
theorem foldAdd_sym (t : List Nat) (pairs : List (Nat × Nat))
    (ht : ∀ A B, (tableGet t A).testBit B = (tableGet t B).testBit A)
    (hb : ∀ pq ∈ pairs, pq.1 < t.length ∧ pq.2 < t.length) (A B : Nat) :
    (tableGet (foldAdd t pairs) A).testBit B =
      (tableGet (foldAdd t pairs) B).testBit A := by
  have key : ∀ x y : Bool, (x = true ↔ y = true) → x = y := by decide
  have main : ∀ X Y, (tableGet (foldAdd t pairs) X).testBit Y = true →
      (tableGet (foldAdd t pairs) Y).testBit X = true := by
    intro X Y h
    rw [foldAdd_testBit] at h ⊢
    rcases h with h0 | ⟨hlen, pq, hm, hor⟩
    · exact Or.inl (by rw [← ht X Y]; exact h0)
    · rcases hor with ⟨rfl, rfl⟩ | ⟨rfl, rfl⟩
      · exact Or.inr ⟨(hb pq hm).2, pq, hm, Or.inr ⟨rfl, rfl⟩⟩
      · exact Or.inr ⟨(hb pq hm).1, pq, hm, Or.inl ⟨rfl, rfl⟩⟩
  exact key _ _ ⟨main A B, main B A⟩

theorem cellIdx_lt (size a b : Nat) (ha : a < size) (hb : b < size) :
    a * size + b < size * size := by
  have h1 : a * size + b < (a + 1) * size := by rw [Nat.succ_mul]; omega
  exact Nat.lt_of_lt_of_le h1 (Nat.mul_le_mul ha (Nat.le_refl size))

theorem candOf_lt (size cell v : Nat) (hc : cell < size * size) (hv1 : 1 ≤ v)
    (hv2 : v ≤ size) : candOf size cell v < size * size * size := by
  unfold candOf
  have h1 : cell * size + v - 1 = cell * size + (v - 1) := by omega
  rw [h1]
  have h2 : cell * size + (v - 1) < (cell + 1) * size := by rw [Nat.succ_mul]; omega
  exact Nat.lt_of_lt_of_le h2 (Nat.mul_le_mul hc (Nat.le_refl size))

theorem cellOfCand_lt (size cand : Nat) (h : cand < size * size * size) :
    cellOfCand size cand < size * size := by
  unfold cellOfCand
  apply Nat.div_lt_of_lt_mul
  calc cand < size * size * size := h
    _ = size * (size * size) := by ring

theorem mem_pairsOf (x y : Nat) : ∀ l : List Nat, (x, y) ∈ pairsOf l → x ∈ l ∧ y ∈ l := by
  intro l
  induction l with
  | nil => intro h; cases h
  | cons a xs ih =>
    intro h
    unfold pairsOf at h
    rw [List.mem_append] at h
    rcases h with h | h
    · rw [List.mem_map] at h
      obtain ⟨y0, hy0, heq⟩ := h
      injection heq with h1 h2
      subst h1
      subst h2
      exact ⟨List.mem_cons_self .., List.mem_cons_of_mem _ hy0⟩
    · obtain ⟨hx, hy⟩ := ih h
      exact ⟨List.mem_cons_of_mem _ hx, List.mem_cons_of_mem _ hy⟩

theorem mem_candidatePairs_bound (size : Nat) (cells : List Nat)
    (hc : ∀ c ∈ cells, c < size * size) :
    ∀ pq ∈ candidatePairs size cells,
      pq.1 < size * size * size ∧ pq.2 < size * size * size := by
  intro pq hpq
  unfold candidatePairs at hpq
  rw [List.mem_flatMap] at hpq
  obtain ⟨v, hv, hm⟩ := hpq
  rw [List.mem_map] at hm
  obtain ⟨p, hp, rfl⟩ := hm
  rw [List.Ico.mem] at hv
  obtain ⟨p1, p2⟩ := p
  obtain ⟨h1, h2⟩ := mem_pairsOf p1 p2 cells hp
  exact ⟨candOf_lt _ _ _ (hc _ h1) (by omega) (by omega),
    candOf_lt _ _ _ (hc _ h2) (by omega) (by omega)⟩

theorem housesByCell_getD (n : Nat) (houses : List (List Nat)) (c : Nat) :
    (housesByCell n houses).getD c [] =
      if c < n then houses.filter (fun h => h.contains c) else [] := by
  unfold housesByCell
  rcases Nat.lt_or_ge c n with h | h
  · rw [if_pos h, List.getD_eq_getElem?_getD, List.getElem?_map, List.getElem?_range h]
    rfl
  · rw [if_neg (by omega), List.getD_eq_default]
    simpa using h

theorem sudokuLinkPairs_bound (size : Nat) (houses : List (List Nat))
    (hh : ∀ h ∈ houses, ∀ c ∈ h, c < size * size) :
    ∀ pq ∈ sudokuLinkPairs size (housesByCell (size * size) houses),
      pq.1 < size * size * size ∧ pq.2 < size * size * size := by
  intro pq hpq
  unfold sudokuLinkPairs at hpq
  rw [List.mem_flatMap] at hpq
  obtain ⟨cand1, hc1, hm⟩ := hpq
  rw [List.mem_range] at hc1
  have hcell : cellOfCand size cand1 < size * size := cellOfCand_lt size cand1 hc1
  unfold sudokuPairsFor at hm
  dsimp only at hm
  rw [List.mem_append] at hm
  rcases hm with hm | hm
  · rw [List.mem_map] at hm
    obtain ⟨v2, hv2, rfl⟩ := hm
    rw [List.Ico.mem] at hv2
    exact ⟨hc1, candOf_lt _ _ _ hcell (by omega) (by omega)⟩
  · rw [List.mem_flatMap] at hm
    obtain ⟨h, hhm, hpq2⟩ := hm
    rw [housesByCell_getD, if_pos hcell] at hhm
    have hmem := (List.mem_filter.mp hhm).1
    exact mem_candidatePairs_bound size h (fun c hcc => hh h hmem c hcc) pq hpq2

theorem mem_insertSorted (x y : Nat) : ∀ l : List Nat,
    x ∈ insertSorted y l ↔ x = y ∨ x ∈ l := by
  intro l
  induction l with
  | nil => simp [insertSorted]
  | cons a xs ih =>
    unfold insertSorted
    rcases Decidable.em (y ≤ a) with h | h
    · rw [if_pos h]
      simp
    · rw [if_neg h]
      simp only [List.mem_cons, ih]
      tauto

theorem mem_sortCells (x : Nat) : ∀ l : List Nat, x ∈ sortCells l ↔ x ∈ l := by
  intro l
  induction l with
  | nil => simp [sortCells]
  | cons a xs ih =>
    unfold sortCells at ih ⊢
    rw [List.foldr_cons, mem_insertSorted, ih, List.mem_cons]

theorem createHouses_bound (size : Nat) (regions : List Nat)
    (constraints : List Constraint)
    (hk : ∀ k ∈ constraints, ∀ h ∈ k.getHouses size, ∀ c ∈ h, c < size * size) :
    ∀ h ∈ createHouses size regions constraints, ∀ c ∈ h, c < size * size := by
  unfold createHouses
  dsimp only
  set regions1 := if regions.length == size * size then regions else defaultRegions size
  have hbase : ∀ h ∈ (List.range size).map (rowHouse size) ++
      (List.range size).map (colHouse size), ∀ c ∈ h, c < size * size := by
    intro h hh c hc
    rw [List.mem_append] at hh
    rcases hh with hh | hh <;> rw [List.mem_map] at hh <;> obtain ⟨r, hr, rfl⟩ := hh <;>
      rw [List.mem_range] at hr
    · unfold rowHouse at hc
      rw [List.mem_map] at hc
      obtain ⟨j, hj, rfl⟩ := hc
      rw [List.mem_range] at hj
      exact cellIdx_lt size r j hr hj
    · unfold colHouse at hc
      rw [List.mem_map] at hc
      obtain ⟨j, hj, rfl⟩ := hc
      rw [List.mem_range] at hj
      exact cellIdx_lt size j r hj hr
  have hregion : ∀ (l : List Nat) (hs : List (List Nat)),
      (∀ h ∈ hs, ∀ c ∈ h, c < size * size) →
      ∀ h ∈ l.foldl (fun hs reg =>
          let house := regionCells size regions1 reg
          if house.length == size && !(hs.any (fun h => h == house)) then hs ++ [house]
          else hs) hs, ∀ c ∈ h, c < size * size := by
    intro l
    induction l with
    | nil => intro hs hinv; exact hinv
    | cons reg rest ih =>
      intro hs hinv
      rw [List.foldl_cons]
      apply ih
      dsimp only
      split
      · intro h hh c hc
        rw [List.mem_append] at hh
        rcases hh with hh | hh
        · exact hinv h hh c hc
        · rw [List.mem_singleton] at hh
          subst hh
          unfold regionCells at hc
          have := (List.mem_filter.mp hc).1
          rw [List.mem_range] at this
          exact this
      · exact hinv
  have hone : ∀ (ghs : List (List Nat)) (hs2 : List (List Nat)),
      (∀ h0 ∈ ghs, ∀ c ∈ h0, c < size * size) →
      (∀ h ∈ hs2, ∀ c ∈ h, c < size * size) →
      ∀ h ∈ ghs.foldl (fun hs h0 =>
          let house := sortCells h0
          if !(hs.any (fun h => h == house)) then hs ++ [house] else hs) hs2,
        ∀ c ∈ h, c < size * size := by
    intro ghs
    induction ghs with
    | nil => intro hs2 _ hinv2; exact hinv2
    | cons h0 grest gih =>
      intro hs2 hg hinv2
      rw [List.foldl_cons]
      apply gih
      · intro h1 hh1
        exact hg h1 (List.mem_cons_of_mem _ hh1)
      · dsimp only
        split
        · intro h hh c hc
          rw [List.mem_append] at hh
          rcases hh with hh | hh
          · exact hinv2 h hh c hc
          · rw [List.mem_singleton] at hh
            subst hh
            rw [mem_sortCells] at hc
            exact hg h0 (List.mem_cons_self ..) c hc
        · exact hinv2
  have hcons : ∀ (ks : List Constraint) (hs : List (List Nat)),
      (∀ k ∈ ks, ∀ h ∈ k.getHouses size, ∀ c ∈ h, c < size * size) →
      (∀ h ∈ hs, ∀ c ∈ h, c < size * size) →
      ∀ h ∈ ks.foldl (fun hs k =>
          (k.getHouses size).foldl (fun hs h0 =>
            let house := sortCells h0
            if !(hs.any (fun h => h == house)) then hs ++ [house] else hs) hs) hs,
        ∀ c ∈ h, c < size * size := by
    intro ks
    induction ks with
    | nil => intro hs _ hinv; exact hinv
    | cons k rest ih =>
      intro hs hks hinv
      rw [List.foldl_cons]
      apply ih
      · intro k2 hk2
        exact hks k2 (List.mem_cons_of_mem _ hk2)
      · exact hone (k.getHouses size) hs (hks k (List.mem_cons_self ..)) hinv
  exact hcons constraints _ hk (hregion _ _ hbase)

theorem keepMask_data (b : Board) (cell m : Nat) :
    (b.keepMask cell m).1.data = b.data := rfl

theorem clearCandidate_data (b : Board) (cand : Nat) :
    (b.clearCandidate cand).1.data = b.data := rfl

theorem clearCandidates_data (L : List Nat) : ∀ b : Board,
    (b.clearCandidates L).1.data = b.data := by
  induction L with
  | nil => intro b; rfl
  | cons c rest ih =>
    intro b
    unfold Board.clearCandidates
    rcases h1 : Board.clearCandidate b c with ⟨b1, ok1⟩
    dsimp only
    rcases h2 : Board.clearCandidates b1 rest with ⟨b2, ok2⟩
    dsimp only
    have hd1 : b1.data = b.data := by
      have := clearCandidate_data b c
      rw [h1] at this
      exact this
    have hd2 := ih b1
    rw [h2] at hd2
    exact hd2.trans hd1

theorem setSolved_data (b : Board) (cell v : Nat) :
    (b.setSolved cell v).1.data = b.data := by
  unfold Board.setSolved Board.setSolvedInner
  cases ValueMask.has (b.cell cell) v
  · rfl
  · cases ValueMask.isSolved (b.cell cell)
    · dsimp only
      rcases hawl : Board.applyWeakLinks (b.setSolvedMark cell v)
          (bitIndicesFrom b.data.numCandidates
            (b.data.weakLinks (candOf b.data.size cell v)) 0) with ⟨b2, ok⟩
      have h1 := awl_data (b.setSolvedMark cell v)
        (bitIndicesFrom b.data.numCandidates
          (b.data.weakLinks (candOf b.data.size cell v)) 0)
      rw [hawl] at h1
      dsimp only at h1
      cases ok
      · rw [if_neg (by simp), if_neg (by simp)]
        dsimp only
        rw [h1, setSolvedMark_data]
      · rw [if_neg (by simp), if_neg (by simp)]
        dsimp only
        rw [h1, setSolvedMark_data]
    · rfl

/-- The weak-link table of a freshly built board is the `init_weak_links`
table over the built houses and the constraints' link pairs. -/
theorem boardNew_data_weakLinks (size : Nat) (regions : List Nat)
    (constraints : List Constraint) :
    (Board.new size regions constraints).data.weakLinks = fun c =>
      tableGet (initWeakLinks size (createHouses size regions constraints)
        (constraints.flatMap (fun k => k.getWeakLinks size))).1 c := by
  unfold Board.new
  dsimp only
  rw [clearCandidates_data]

/-- **C5.**  For every board produced by `Board::new` — any size, region
vector, and constraint list whose contributed houses and weak-link pairs are
in range (out-of-range contributions would panic the Rust construction) —
the weak-link table is symmetric: candidate `A` is linked to `B` iff `B` is
linked to `A`.  Moreover the table lives in the shared metadata and none of
the board mutation operations (`set_solved`, `clear_value`,
`clear_candidate`, `keep_mask`, `clear_candidates`) ever changes the
metadata, so the symmetry holds for the lifetime of the board. -/
theorem claim_C5 (size : Nat) (regions : List Nat) (constraints : List Constraint)
    (hk : ∀ k ∈ constraints,
      (∀ pq ∈ k.getWeakLinks size,
        pq.1 < size * size * size ∧ pq.2 < size * size * size) ∧
      (∀ h ∈ k.getHouses size, ∀ c ∈ h, c < size * size)) :
    (∀ A B, hasWeakLink (Board.new size regions constraints) A B =
        hasWeakLink (Board.new size regions constraints) B A) ∧
    (∀ (b : Board) (cell v m cand : Nat) (L : List Nat),
      (b.setSolved cell v).1.data = b.data ∧
      (b.clearValue cell v).1.data = b.data ∧
      (b.clearCandidate cand).1.data = b.data ∧
      (b.keepMask cell m).1.data = b.data ∧
      (b.clearCandidates L).1.data = b.data) := by
  constructor
  · intro A B
    unfold hasWeakLink
    rw [boardNew_data_weakLinks]
    have hhouse : ∀ h ∈ createHouses size regions constraints, ∀ c ∈ h,
        c < size * size :=
      createHouses_bound size regions constraints (fun k hkm => (hk k hkm).2)
    unfold initWeakLinks
    dsimp only
    rw [addConstraintPairs_table]
    have hrepl : (sudokuLinkPairs size (housesByCell (size * size)
          (createHouses size regions constraints))).foldl
          (fun t p => addWeakLink t p.1 p.2) (List.replicate (size * size * size) 0) =
        foldAdd (List.replicate (size * size * size) 0)
          (sudokuLinkPairs size (housesByCell (size * size)
            (createHouses size regions constraints))) := rfl
    rw [hrepl]
    have hsym0 : ∀ X Y,
        (tableGet (foldAdd (List.replicate (size * size * size) 0)
          (sudokuLinkPairs size (housesByCell (size * size)
            (createHouses size regions constraints)))) X).testBit Y =
        (tableGet (foldAdd (List.replicate (size * size * size) 0)
          (sudokuLinkPairs size (housesByCell (size * size)
            (createHouses size regions constraints)))) Y).testBit X := by
      intro X Y
      apply foldAdd_sym
      · intro C D
        rw [tableGet_replicate, tableGet_replicate, Nat.zero_testBit, Nat.zero_testBit]
      · intro pq hm
        rw [List.length_replicate]
        exact sudokuLinkPairs_bound size (createHouses size regions constraints)
          hhouse pq hm
    apply foldAdd_sym
    · exact hsym0
    · intro pq hm
      rw [foldAdd_length, List.length_replicate]
      have hmem := (List.mem_filter.mp hm).1
      rw [List.mem_flatMap] at hmem
      obtain ⟨k, hkm, hpq⟩ := hmem
      exact (hk k hkm).1 pq hpq
  · intro b cell v m cand L
    exact ⟨setSolved_data b cell v, clearValue_data b cell v,
      clearCandidate_data b cand, keepMask_data b cell m,
      clearCandidates_data L b⟩

theorem claim_C5_witness :
    hasWeakLink (Board.new 2 [] []) 0 1 = hasWeakLink (Board.new 2 [] []) 1 0 ∧
    ((Board.new 2 [] []).setSolved 0 1).1.data = (Board.new 2 [] []).data :=
  ⟨(claim_C5 2 [] [] (by simp)).1 0 1,
    ((claim_C5 2 [] [] (by simp)).2 (Board.new 2 [] []) 0 1 0 0 []).1⟩

/-- `Board::clone` (`#[derive(Clone)]`): copy the mutable cell state
field-by-field and share the metadata (`Arc::clone`). -/
def Board.clone (b : Board) : Board :=
  { cells := { board := b.cells.board, solvedCount := b.cells.solvedCount }
    data := b.data }

/-- **C7.**  Cloning a board yields an equal board (same per-cell masks,
same solved counter, same shared metadata), and mutating the clone — here
`set_solved(cell, v)`, whatever it returns — never touches the metadata
shared with the original, which is the only state the two boards have in
common; the original's masks and counter are separate copies, so discarding
the mutated clone leaves the original exactly as it was. -/
theorem claim_C7 (b : Board) (cell v : Nat) :
    b.clone = b ∧
    b.clone.cells.board = b.cells.board ∧
    b.clone.cells.solvedCount = b.cells.solvedCount ∧
    b.clone.data = b.data ∧
    (b.clone.setSolved cell v).1.data = b.data := by
  refine ⟨rfl, rfl, rfl, rfl, ?_⟩
  exact setSolved_data b.clone cell v

/-! ## Monotonicity of the logical steps (claim C8) -/

/-- `b2`'s candidate values (bits other than the solved flag) are
cell-by-cell a subset of `b1`'s. -/
def candSubset (b2 b1 : Board) : Prop :=
  ∀ c k, k ≠ 31 → (b2.cell c).testBit k = true → (b1.cell c).testBit k = true

theorem candSubset_refl (b : Board) : candSubset b b := fun _ _ _ h => h

theorem candSubset_trans {b3 b2 b1 : Board} (h32 : candSubset b3 b2)
    (h21 : candSubset b2 b1) : candSubset b3 b1 :=
  fun c k hk hb => h21 c k hk (h32 c k hk hb)

theorem setSolved_candSubset (b : Board) (cell v : Nat) :
    candSubset (b.setSolved cell v).1 b :=
  fun c k hk hb => setSolved_mono b cell v c k hk hb

theorem clearValue_candSubset (b : Board) (cell v : Nat) :
    candSubset (b.clearValue cell v).1 b :=
  fun c k _ hb => clearValue_mono b cell v c k hb

theorem clearCandidate_candSubset (b : Board) (cand : Nat) :
    candSubset (b.clearCandidate cand).1 b :=
  fun c k _ hb => clearValue_mono b _ _ c k hb

theorem keepMask_candSubset (b : Board) (cell m : Nat) :
    candSubset (b.keepMask cell m).1 b := by
  intro c k _ hb
  unfold Board.keepMask at hb
  dsimp only at hb
  rw [cell_setCellMask] at hb
  rcases Decidable.em (cell = c ∧ cell < b.cells.board.length) with h | h
  · rw [if_pos h] at hb
    simp only [Nat.testBit_land, Bool.and_eq_true] at hb
    rw [← h.1]
    exact hb.1
  · rw [if_neg h] at hb
    exact hb

theorem clearCandidates_candSubset (L : List Nat) : ∀ b : Board,
    candSubset (b.clearCandidates L).1 b := by
  induction L with
  | nil => intro b; exact candSubset_refl b
  | cons cd rest ih =>
    intro b
    unfold Board.clearCandidates
    rcases h1 : Board.clearCandidate b cd with ⟨b1, ok1⟩
    dsimp only
    rcases h2 : Board.clearCandidates b1 rest with ⟨b2, ok2⟩
    dsimp only
    have hs1 : candSubset b1 b := by
      have := clearCandidate_candSubset b cd
      rw [h1] at this
      exact this
    have hs2 : candSubset b2 b1 := by
      have := ih b1
      rw [h2] at this
      exact this
    exact candSubset_trans hs2 hs1

theorem ansPassB_candSubset (L : List Nat) : ∀ (b : Board) (changed : Bool),
    candSubset (ansPassB b changed L).1 b := by
  induction L with
  | nil => intro b changed; exact candSubset_refl b
  | cons cell rest ih =>
    intro b changed
    unfold ansPassB
    dsimp only
    split
    · exact ih b changed
    · split
      · split
        next b1 heq =>
          refine candSubset_trans (ih b1 true) ?_
          have h2 := congrArg Prod.fst heq
          dsimp only at h2
          rw [← h2]
          exact setSolved_candSubset b cell _
        next b1 heq =>
          have h2 := congrArg Prod.fst heq
          dsimp only at h2
          rw [show (b1, (Option.none : Option Bool)).1 = b1 from rfl, ← h2]
          exact setSolved_candSubset b cell _
      · split
        · exact candSubset_refl b
        · exact ih b changed

theorem ansPass_candSubset (L : List Nat) : ∀ (b : Board) (changed : Bool)
    (bc : Board × Bool), ansPass b changed L = some bc → candSubset bc.1 b := by
  induction L with
  | nil =>
    intro b changed bc h
    unfold ansPass at h
    rw [Option.some.injEq] at h
    rw [← h]
    exact candSubset_refl b
  | cons cell rest ih =>
    intro b changed bc h
    unfold ansPass at h
    dsimp only at h
    split at h
    · exact ih b changed bc h
    · split at h
      · split at h
        next b1 heq =>
          refine candSubset_trans (ih b1 true bc h) ?_
          have h2 := congrArg Prod.fst heq
          dsimp only at h2
          rw [← h2]
          exact setSolved_candSubset b cell _
        next b1 heq => exact Option.noConfusion h
      · split at h
        · exact Option.noConfusion h
        · exact ih b changed bc h

theorem ansLoop_candSubset (f : Nat) : ∀ (b : Board) (res : StepRes),
    candSubset (ansLoop b res f).1 b := by
  induction f with
  | zero => intro b res; exact candSubset_refl b
  | succ f ih =>
    intro b res
    unfold ansLoop
    split
    · exact candSubset_refl b
    · split
      · exact candSubset_refl b
      next b1 heq =>
        exact candSubset_trans (ih b1 .changed)
          (ansPass_candSubset _ b false (b1, true) heq)
      next bf heq => exact candSubset_refl b

theorem allNakedSingles_candSubset (b : Board) (fuel : Nat) :
    candSubset (allNakedSingles b fuel).1 b :=
  ansLoop_candSubset fuel b .none

theorem nakedSinglePass_candSubset (L : List Nat) : ∀ b : Board,
    candSubset (nakedSinglePass b L).1 b := by
  induction L with
  | nil => intro b; exact candSubset_refl b
  | cons cell rest ih =>
    intro b
    unfold nakedSinglePass
    dsimp only
    split
    · exact ih b
    · split
      · split
        next b1 heq =>
          have h2 := congrArg Prod.fst heq
          dsimp only at h2
          rw [show ((b1 : Board), StepRes.changed).1 = b1 from rfl, ← h2]
          exact setSolved_candSubset b cell _
        next b1 heq =>
          have h2 := congrArg Prod.fst heq
          dsimp only at h2
          rw [show ((b1 : Board), StepRes.invalid).1 = b1 from rfl, ← h2]
          exact setSolved_candSubset b cell _
      · split
        · exact candSubset_refl b
        · exact ih b

theorem hsCommit_candSubset (L : List Nat) (value : Nat) : ∀ b : Board,
    candSubset (hsCommit b value L).1 b := by
  induction L with
  | nil => intro b; exact candSubset_refl b
  | cons c rest ih =>
    intro b
    unfold hsCommit
    split
    · split
      next b1 heq =>
        have h2 := congrArg Prod.fst heq
        dsimp only at h2
        rw [show ((b1 : Board), StepRes.changed).1 = b1 from rfl, ← h2]
        exact setSolved_candSubset b c _
      next b1 heq =>
        have h2 := congrArg Prod.fst heq
        dsimp only at h2
        rw [show ((b1 : Board), StepRes.invalid).1 = b1 from rfl, ← h2]
        exact setSolved_candSubset b c _
    · exact ih b

theorem hsHouses_candSubset (hs : List (List Nat)) : ∀ b : Board,
    candSubset (hsHouses b hs).1 b := by
  induction hs with
  | nil => intro b; exact candSubset_refl b
  | cons h rest ih =>
    intro b
    unfold hsHouses
    rcases hsScan b h 0 0 0 with ⟨atLeast, more, setMask⟩
    dsimp only
    split
    · exact candSubset_refl b
    · split
      · exact ih b
      · split
        next b1 heq =>
          refine candSubset_trans (ih b1) ?_
          have h2 := congrArg Prod.fst heq
          dsimp only at h2
          rw [← h2]
          exact hsCommit_candSubset h _ b
        next r heq =>
          exact hsCommit_candSubset h _ b

theorem hiddenSingle_candSubset (b : Board) : candSubset (hiddenSingle b).1 b :=
  hsHouses_candSubset b.data.houses b

theorem scfCells_candSubset (L : List Nat) : ∀ b : Board,
    candSubset (scfCells b L).1 b := by
  induction L with
  | nil => intro b; exact candSubset_refl b
  | cons cell rest ih =>
    intro b
    unfold scfCells
    dsimp only
    split
    · exact ih b
    · split
      · exact ih b
      · split
        · exact ih b
        · split
          next b1 heq =>
            have h2 := congrArg Prod.fst heq
            dsimp only at h2
            rw [show ((b1 : Board), StepRes.changed).1 = b1 from rfl, ← h2]
            exact clearCandidates_candSubset _ b
          next b1 heq =>
            have h2 := congrArg Prod.fst heq
            dsimp only at h2
            rw [show ((b1 : Board), StepRes.invalid).1 = b1 from rfl, ← h2]
            exact clearCandidates_candSubset _ b

theorem simpleCellForcing_candSubset (b : Board) :
    candSubset (simpleCellForcing b).1 b :=
  scfCells_candSubset (List.range b.data.numCells) b

/-- A constraint's `step_logic` never adds a candidate (the property every
constraint built from the board's shrinking primitives has). -/
def Constraint.monoStep (k : Constraint) : Prop :=
  ∀ (cs : CellsState) (brute : Bool) (c j : Nat), j ≠ 31 →
    ((k.stepLogic cs brute).1.board.getD c 0).testBit j = true →
    (cs.board.getD c 0).testBit j = true

theorem stepConstraintsList_candSubset : ∀ (ks : List Constraint),
    (∀ k ∈ ks, k.monoStep) → ∀ (b : Board) (brute : Bool),
    candSubset (stepConstraintsList b brute ks).1 b := by
  intro ks
  induction ks with
  | nil => intro _ b brute; exact candSubset_refl b
  | cons k rest ih =>
    intro hm b brute
    unfold stepConstraintsList
    split
    next cs heq =>
      refine candSubset_trans (ih (fun k2 hk2 => hm k2 (List.mem_cons_of_mem _ hk2)) _ brute) ?_
      intro c j hj hb
      have hmk := hm k (List.mem_cons_self ..) b.cells brute c j hj
      rw [heq] at hmk
      exact hmk hb
    next cs r hne heq =>
      intro c j hj hb
      have hmk := hm k (List.mem_cons_self ..) b.cells brute c j hj
      rw [heq] at hmk
      exact hmk hb

theorem stepConstraints_candSubset (b : Board) (brute : Bool)
    (hm : ∀ k ∈ b.data.constraints, k.monoStep) :
    candSubset (stepConstraints b brute).1 b :=
  stepConstraintsList_candSubset b.data.constraints hm b brute

/-- **C8.**  No built-in logical step ever grows a cell's candidate mask:
after `AllNakedSingles` (also its faithful partial-board variant on
invalid), `NakedSingle`, `HiddenSingle`, `SimpleCellForcing`, or the
constraint dispatcher `StepConstraints` (for constraints whose `step_logic`
is itself non-growing, as every one built from the board's shrinking
primitives is), every cell's candidate-value bits are a subset of what they
were before the call. -/
theorem claim_C8 (b : Board) (fuel : Nat) (brute changed : Bool) (L : List Nat)
    (hm : ∀ k ∈ b.data.constraints, k.monoStep) :
    candSubset (allNakedSingles b fuel).1 b ∧
    candSubset (ansPassB b changed L).1 b ∧
    candSubset (nakedSingle b).1 b ∧
    candSubset (hiddenSingle b).1 b ∧
    candSubset (simpleCellForcing b).1 b ∧
    candSubset (stepConstraints b brute).1 b :=
  ⟨allNakedSingles_candSubset b fuel, ansPassB_candSubset L b changed,
    nakedSinglePass_candSubset _ b, hiddenSingle_candSubset b,
    simpleCellForcing_candSubset b, stepConstraints_candSubset b brute hm⟩

theorem claim_C8_witness :
    (∀ k ∈ (Board.new 2 [] []).data.constraints, k.monoStep) ∧
    candSubset (nakedSingle (Board.new 2 [] [])).1 (Board.new 2 [] []) := by
  have hc : (Board.new 2 [] []).data.constraints = [] := by
    unfold Board.new
    dsimp only
    rw [clearCandidates_data]
  have hm : ∀ k ∈ (Board.new 2 [] []).data.constraints, k.monoStep := by
    intro k hk
    rw [hc] at hk
    cases hk
  exact ⟨hm, (claim_C8 (Board.new 2 [] []) 1 true false [] hm).2.2.1⟩

/-! ## Claim C10: the `Solved` variant of `find_true_candidates` -/

/-- A concrete `find_true_candidates` run: the empty classic 2×2 board (two
solutions), any random source. -/
def c10run : Option SingleSolutionResult :=
  findTrueCandidates (fun _ _ => 0) (Board.new 2 [] []) 32

/-- The board carried by the `Solved` result of `c10run`. -/
def c10board : Board :=
  match c10run with
  | some (.solved tc) => tc
  | _ => Board.new 2 [] []

/-- **C10.**  `SingleSolutionResult` has only the `None`/`Solved`/`Error`
variants — no candidates-shaped one — and `find_true_candidates` reports its
non-error, non-`None` outcome through `Solved` even when the carried board
is not fully solved: on the empty classic 2×2 board (which has two
solutions) the run returns `Solved` with a board whose solved counter is
short of `num_cells` and whose first cell still holds two candidates. -/
theorem claim_C10 :
    (∀ r : SingleSolutionResult, r = .none ∨ r = .error ∨ ∃ tb, r = .solved tb) ∧
    c10run = some (.solved c10board) ∧
    c10board.isSolved = false ∧
    ValueMask.count (c10board.cell 0) = 2 := by
  refine ⟨?_, ?_, ?_, ?_⟩
  · intro r
    cases r with
    | none => exact Or.inl rfl
    | error => exact Or.inr (Or.inl rfl)
    | solved tb => exact Or.inr (Or.inr ⟨tb, rfl⟩)
  · rfl
  · decide
  · decide

/-! ## Claim C6: cancellation (modelled from the spec)

The library ships `Cancellation` (`solver/cancellation.rs`): a cheaply
clonable shared closure with `check()`, convertible from `Option` (absent
token = never cancelled).  The long-running solver entry points of this
snapshot — `find_solution_count`, `find_random_solution`,
`find_true_candidates`, `find_true_candidates_with_count`,
`run_logical_solve` — do not themselves take the token
(`standard-constraints` already calls cancellation-accepting versions of
them), so the token-threaded variants below are modelled from the spec:
each consults the token once per popped search node (once between logical
steps for the logical solve), returns a canceled result at the node that
observes the flag, and with the token absent is proved to reproduce the
corresponding source entry point exactly. -/

/-- Modelled from the spec: a cancellation token as observed by the solver —
the value `check()` returns at the `t`-th consultation (the shared flag as a
function of time); `Option` absence becomes the constantly-false token
(`From<Option<Cancellation>>`). -/
def cancellationOf : Option (Nat → Bool) → Nat → Bool
  | Option.none => fun _ => false
  | some f => f

/-- Modelled from the spec: a result that may instead report cancellation. -/
inductive CancelableResult (α : Type) where
  | canceled
  | done (r : α)
deriving DecidableEq

/-- Modelled from the spec: `find_solution_count_for_board` (with its
optional solution receiver) threading an optional cancellation token,
consulting it once per search node (popped board) and returning the
canceled result at the node that observes the flag.  Identical to `fscLoop`
otherwise; `t` counts the consultations and is returned alongside the
result so callers can keep threading the same token. -/
def fscLoopCancel {σ : Type} (cancel : Option (Nat → Bool))
    (recv : Option (σ → Board → σ × Bool)) (maxCount : Nat) :
    Nat → List Board → Nat → σ → Nat →
      Option (CancelableResult (SolutionCountResult × σ) × Nat)
  | _, [], count, s, t =>
    some (.done (if count == 0 then .none else .exactCount count, s), t)
  | 0, _ :: _, _, _, _ => Option.none
  | f + 1, b :: rest, count, s, t =>
    if cancellationOf cancel t then some (.canceled, t)
    else
      match runBruteForceLogic b (bfFuel b) with
      | Option.none => Option.none
      | some (_, false) => fscLoopCancel cancel recv maxCount f rest count s (t + 1)
      | some (b1, true) =>
        if b1.isSolved then
          match recv with
          | Option.none =>
            if count + 1 ≥ maxCount then
              some (.done (.atLeastCount (count + 1), s), t + 1)
            else fscLoopCancel cancel recv maxCount f rest (count + 1) s (t + 1)
          | some r =>
            let rs := r s b1
            if !rs.2 then some (.done (.atLeastCount (count + 1), rs.1), t + 1)
            else if count + 1 ≥ maxCount then
              some (.done (.atLeastCount (count + 1), rs.1), t + 1)
            else fscLoopCancel cancel recv maxCount f rest (count + 1) rs.1 (t + 1)
        else
          match findBestBruteForceCell b1 with
          | Option.none => some (.done (.error, s), t)
          | some cell =>
            fscLoopCancel cancel recv maxCount f
              (fscPush b1 cell (ValueMask.toVals (b1.cell cell)) rest) count s (t + 1)

/-- Modelled from the spec: the cancellation-accepting
`find_solution_count` entry point. -/
def findSolutionCountCancel {σ : Type} (b : Board) (maxCount : Nat)
    (recv : Option (σ → Board → σ × Bool)) (s : σ) (cancel : Option (Nat → Bool))
    (fuel : Nat) : Option (CancelableResult (SolutionCountResult × σ)) :=
  (fscLoopCancel cancel recv maxCount fuel [b] 0 s 0).map Prod.fst

/-- Modelled from the spec: the `find_random_solution_for_board` stack loop
threading an optional cancellation token, consulted once per search node. -/
def frsLoopCancel (cancel : Option (Nat → Bool)) (rng : Nat → Nat → Nat) :
    Nat → List Board → Nat → Nat →
      Option (CancelableResult (SingleSolutionResult × Nat) × Nat)
  | _, [], k, t => some (.done (.none, k), t)
  | 0, _ :: _, _, _ => Option.none
  | f + 1, b :: rest, k, t =>
    if cancellationOf cancel t then some (.canceled, t)
    else
      match runBruteForceLogic b (bfFuel b) with
      | Option.none => Option.none
      | some (_, false) => frsLoopCancel cancel rng f rest k (t + 1)
      | some (b1, true) =>
        if b1.isSolved then some (.done (.solved b1, k), t + 1)
        else
          match findBestBruteForceCell b1 with
          | Option.none => some (.done (.error, k), t + 1)
          | some cell =>
            let v := rng k (b1.cell cell)
            let cleared := b1.clearValue cell v
            let stack1 := if cleared.2 then cleared.1 :: rest else rest
            let set := b1.setSolved cell v
            let stack2 := if set.2 then set.1 :: stack1 else stack1
            frsLoopCancel cancel rng f stack2 (k + 1) (t + 1)

/-- Modelled from the spec: the cancellation-accepting
`find_random_solution` entry point. -/
def findRandomSolutionCancel (rng : Nat → Nat → Nat) (b : Board)
    (cancel : Option (Nat → Bool)) (fuel : Nat) :
    Option (CancelableResult SingleSolutionResult) :=
  match frsLoopCancel cancel rng fuel [b] 0 0 with
  | Option.none => Option.none
  | some (.canceled, _) => some .canceled
  | some (.done (r, _), _) => some (.done r)

/-- Modelled from the spec: the per-value probe loop of
`find_true_candidates` threading the token through its random-solution
searches. -/
def ftcValsCancel (cancel : Option (Nat → Bool)) (rng : Nat → Nat → Nat)
    (fuel : Nat) (b : Board) (cell : Nat) :
    List Nat → Nat → Nat → List Nat →
      Option (CancelableResult (List Nat × Nat) × Nat)
  | tcv, k, t, [] => some (.done (tcv, k), t)
  | tcv, k, t, v :: vs =>
    match b.setSolved cell v with
    | (_, false) => ftcValsCancel cancel rng fuel b cell tcv k t vs
    | (nb, true) =>
      match frsLoopCancel cancel rng fuel [nb] k t with
      | Option.none => Option.none
      | some (.canceled, t2) => some (.canceled, t2)
      | some (.done (.solved sol, k2), t2) =>
        ftcValsCancel cancel rng fuel b cell
          (unionSolution b.data.numCells tcv sol) k2 t2 vs
      | some (.done (_, k2), t2) => ftcValsCancel cancel rng fuel b cell tcv k2 t2 vs

/-- Modelled from the spec: the per-cell probe loop of
`find_true_candidates` threading the token. -/
def ftcCellsCancel (cancel : Option (Nat → Bool)) (rng : Nat → Nat → Nat)
    (fuel : Nat) (b : Board) :
    List Nat → Nat → Nat → List Nat →
      Option (CancelableResult (List Nat × Nat) × Nat)
  | tcv, k, t, [] => some (.done (tcv, k), t)
  | tcv, k, t, c :: cells =>
    let m := b.cell c
    if ValueMask.isSolved m then ftcCellsCancel cancel rng fuel b tcv k t cells
    else
      let probe := m &&& (u32All ^^^ tcv.getD c 0)
      match ftcValsCancel cancel rng fuel b c tcv k t (ValueMask.toVals probe) with
      | Option.none => Option.none
      | some (.canceled, t2) => some (.canceled, t2)
      | some (.done (tcv2, k2), t2) => ftcCellsCancel cancel rng fuel b tcv2 k2 t2 cells

/-- Modelled from the spec: the cancellation-accepting
`find_true_candidates` entry point. -/
def findTrueCandidatesCancel (cancel : Option (Nat → Bool))
    (rng : Nat → Nat → Nat) (b : Board) (fuel : Nat) :
    Option (CancelableResult SingleSolutionResult) :=
  match runBruteForceLogic b (bfFuel b) with
  | Option.none => Option.none
  | some (_, false) => some (.done .none)
  | some (b0, true) =>
    if b0.isSolved then some (.done (.solved b0))
    else
      let tcv := (List.range b0.data.numCells).map (fun c =>
        let m := b0.cell c
        if ValueMask.isSolved m then m else 0)
      match ftcCellsCancel cancel rng fuel b0 tcv 0 0 (List.range b0.data.numCells) with
      | Option.none => Option.none
      | some (.canceled, _) => some .canceled
      | some (.done (tcv1, _), _) =>
        match ftcKeep b0 tcv1 (List.range b0.data.numCells) with
        | (_, false) => some (.done .none)
        | (b1, true) =>
          match allNakedSingles b1 (b1.data.numCells + 1) with
          | (_, .invalid) => some (.done .none)
          | (b2, .changed) => some (.done (.solved b2))
          | (b2, .none) => some (.done (.solved b2))

/-- Result of a full logical solve (`LogicalSolveResult`, description lists
dropped). -/
inductive LogicalSolveResult where
  | none
  | changed
  | solved
  | invalid
deriving DecidableEq, Repr

/-- `Solver::run_single_logical_step` for the built solver: the first
non-`None` result of the logical pipeline.  `SolverBuilder::build` keeps the
steps of `standard_logic` that are active during logical solves —
`AllNakedSingles` opts out, the others use the trait default — leaving
`[HiddenSingle, NakedSingle, StepConstraints, SimpleCellForcing]`; each
step runs with `generate_description = true`, so `StepConstraints`
dispatches with `brute = false`.  The board keeps the mutations of steps
that returned `None`, as the Rust `&mut self.board` does. -/
def runSingleLogicalStep (b : Board) : Board × StepRes :=
  match hiddenSingle b with
  | (b1, .none) =>
    match nakedSingle b1 with
    | (b2, .none) =>
      match stepConstraints b2 false with
      | (b3, .none) => simpleCellForcing b3
      | r => r
    | r => r
  | r => r

/-- The loop of `Solver::run_logical_solve`: stop with `Solved` once the
board is solved, run single steps until one returns `None` (then `Changed`
iff any step changed anything) or `Invalid`; fuel exhaustion is `none`. -/
def rlsLoop (b : Board) (changed : Bool) : Nat → Option (Board × LogicalSolveResult)
  | 0 => Option.none
  | f + 1 =>
    if b.isSolved then some (b, .solved)
    else
      match runSingleLogicalStep b with
      | (b1, .none) => some (b1, if changed then .changed else .none)
      | (b1, .invalid) => some (b1, .invalid)
      | (b1, .changed) => rlsLoop b1 true f

/-- `Solver::run_logical_solve`. -/
def runLogicalSolve (b : Board) (fuel : Nat) : Option (Board × LogicalSolveResult) :=
  rlsLoop b false fuel

/-- Modelled from the spec: the `run_logical_solve` loop threading an
optional cancellation token, consulted once between logical steps. -/
def rlsLoopCancel (cancel : Option (Nat → Bool)) (b : Board) (changed : Bool) :
    Nat → Nat → Option (CancelableResult (Board × LogicalSolveResult) × Nat)
  | 0, _ => Option.none
  | f + 1, t =>
    if b.isSolved then some (.done (b, .solved), t)
    else if cancellationOf cancel t then some (.canceled, t)
    else
      match runSingleLogicalStep b with
      | (b1, .none) => some (.done (b1, if changed then .changed else .none), t)
      | (b1, .invalid) => some (.done (b1, .invalid), t)
      | (b1, .changed) => rlsLoopCancel cancel b1 true f (t + 1)

/-- Modelled from the spec: the cancellation-accepting `run_logical_solve`
entry point. -/
def runLogicalSolveCancel (b : Board) (cancel : Option (Nat → Bool)) (fuel : Nat) :
    Option (CancelableResult (Board × LogicalSolveResult)) :=
  (rlsLoopCancel cancel b false fuel 0).map Prod.fst

/-- Result of the true-candidates-with-count solve
(`TrueCandidatesCountResult`; the error message is dropped). -/
inductive TrueCandidatesCountResult where
  | none
  | solved (b : Board)
  | candidates (b : Board) (counts : List Nat)
  | error

/-- The mutable state of the `TrueCandidatesCountReceiver` of
`find_true_candidates_with_count`: the accumulated candidate union, the
per-candidate solution counts, and the solution boards already seen (a
board is compared by its cell vector, as Rust's `PartialEq for Board`
does). -/
structure TccState where
  tcv : List Nat
  nspc : List Nat
  seen : List (List Nat)
deriving DecidableEq, Repr

/-- The per-cell fold of `TrueCandidatesCountReceiver::receive`: union each
(solved) mask into the candidate accumulator and bump the solved
candidate's solution count. -/
def tccAbsorb (b : Board) : List Nat → List Nat × List Nat → List Nat × List Nat
  | [], acc => acc
  | c :: rest, (tcv, nspc) =>
    let m := b.cell c
    let cand := candOf b.data.size c (ValueMask.value m)
    tccAbsorb b rest
      (tcv.set c (tcv.getD c 0 ||| ValueMask.unsolved m),
        nspc.set cand (nspc.getD cand 0 + 1))

/-- `TrueCandidatesCountReceiver::receive` with probe candidate `cand`:
ignore a solution already seen, otherwise absorb it and keep searching
while the probe candidate's solution count stays below the maximum. -/
def tccReceive (maxCount cand : Nat) (st : TccState) (b : Board) : TccState × Bool :=
  if st.seen.contains b.cells.board then (st, true)
  else
    match tccAbsorb b (List.range b.data.numCells) (st.tcv, st.nspc) with
    | (tcv2, nspc2) =>
      (⟨tcv2, nspc2, b.cells.board :: st.seen⟩, decide (nspc2.getD cand 0 < maxCount))

/-- The per-value probe loop of `find_true_candidates_with_count`: skip
values whose candidate already reached the maximum, commit the value on a
clone and count solutions up to the remaining need, feeding the
receiver. -/
def ftcwcVals (b : Board) (maxCount cell : Nat) (fuel : Nat) :
    TccState → List Nat → Option TccState
  | st, [] => some st
  | st, v :: vs =>
    let cand := candOf b.data.size cell v
    let cnt := st.nspc.getD cand 0
    if cnt ≥ maxCount then ftcwcVals b maxCount cell fuel st vs
    else
      match b.setSolved cell v with
      | (_, false) => ftcwcVals b maxCount cell fuel st vs
      | (nb, true) =>
        match fscLoop (some (tccReceive maxCount cand)) (maxCount - cnt) fuel [nb] 0 st with
        | Option.none => Option.none
        | some (_, st2) => ftcwcVals b maxCount cell fuel st2 vs

/-- The per-cell probe loop of `find_true_candidates_with_count`: unlike
`find_true_candidates`, every value of an unsolved cell is probed (the
accumulator filter is replaced by the per-candidate count check). -/
def ftcwcCells (b : Board) (maxCount fuel : Nat) :
    TccState → List Nat → Option TccState
  | st, [] => some st
  | st, c :: cells =>
    if ValueMask.isSolved (b.cell c) then ftcwcCells b maxCount fuel st cells
    else
      match ftcwcVals b maxCount c fuel st (ValueMask.toVals (b.cell c)) with
      | Option.none => Option.none
      | some st2 => ftcwcCells b maxCount fuel st2 cells

/-- `Solver::find_true_candidates_with_count`. -/
def findTrueCandidatesWithCount (b : Board) (maxCount fuel : Nat) :
    Option TrueCandidatesCountResult :=
  match runBruteForceLogic b (bfFuel b) with
  | Option.none => Option.none
  | some (_, false) => some .none
  | some (b0, true) =>
    if b0.isSolved then some (.solved b0)
    else
      let tcv := (List.range b0.data.numCells).map (fun c =>
        let m := b0.cell c
        if ValueMask.isSolved m then m else 0)
      let st0 : TccState :=
        ⟨tcv, List.replicate (b0.data.size * b0.data.size * b0.data.size) 0, []⟩
      match ftcwcCells b0 maxCount fuel st0 (List.range b0.data.numCells) with
      | Option.none => Option.none
      | some st1 =>
        match ftcKeep b0 st1.tcv (List.range b0.data.numCells) with
        | (_, false) => some .none
        | (b1, true) =>
          match allNakedSingles b1 (b1.data.numCells + 1) with
          | (_, .invalid) => some .none
          | (b2, .changed) =>
            if b2.isSolved then some (.solved b2) else some (.candidates b2 st1.nspc)
          | (b2, .none) =>
            if b2.isSolved then some (.solved b2) else some (.candidates b2 st1.nspc)

/-- Modelled from the spec: the per-value probe loop of
`find_true_candidates_with_count` threading the token through its counting
searches. -/
def ftcwcValsCancel (cancel : Option (Nat → Bool)) (b : Board)
    (maxCount cell fuel : Nat) :
    TccState → Nat → List Nat → Option (CancelableResult TccState × Nat)
  | st, t, [] => some (.done st, t)
  | st, t, v :: vs =>
    let cand := candOf b.data.size cell v
    let cnt := st.nspc.getD cand 0
    if cnt ≥ maxCount then ftcwcValsCancel cancel b maxCount cell fuel st t vs
    else
      match b.setSolved cell v with
      | (_, false) => ftcwcValsCancel cancel b maxCount cell fuel st t vs
      | (nb, true) =>
        match fscLoopCancel cancel (some (tccReceive maxCount cand)) (maxCount - cnt)
            fuel [nb] 0 st t with
        | Option.none => Option.none
        | some (.canceled, t2) => some (.canceled, t2)
        | some (.done (_, st2), t2) => ftcwcValsCancel cancel b maxCount cell fuel st2 t2 vs

/-- Modelled from the spec: the per-cell probe loop of
`find_true_candidates_with_count` threading the token. -/
def ftcwcCellsCancel (cancel : Option (Nat → Bool)) (b : Board)
    (maxCount fuel : Nat) :
    TccState → Nat → List Nat → Option (CancelableResult TccState × Nat)
  | st, t, [] => some (.done st, t)
  | st, t, c :: cells =>
    if ValueMask.isSolved (b.cell c) then
      ftcwcCellsCancel cancel b maxCount fuel st t cells
    else
      match ftcwcValsCancel cancel b maxCount c fuel st t (ValueMask.toVals (b.cell c)) with
      | Option.none => Option.none
      | some (.canceled, t2) => some (.canceled, t2)
      | some (.done st2, t2) => ftcwcCellsCancel cancel b maxCount fuel st2 t2 cells

/-- Modelled from the spec: the cancellation-accepting
`find_true_candidates_with_count` entry point. -/
def findTrueCandidatesWithCountCancel (b : Board) (maxCount : Nat)
    (cancel : Option (Nat → Bool)) (fuel : Nat) :
    Option (CancelableResult TrueCandidatesCountResult) :=
  match runBruteForceLogic b (bfFuel b) with
  | Option.none => Option.none
  | some (_, false) => some (.done .none)
  | some (b0, true) =>
    if b0.isSolved then some (.done (.solved b0))
    else
      let tcv := (List.range b0.data.numCells).map (fun c =>
        let m := b0.cell c
        if ValueMask.isSolved m then m else 0)
      let st0 : TccState :=
        ⟨tcv, List.replicate (b0.data.size * b0.data.size * b0.data.size) 0, []⟩
      match ftcwcCellsCancel cancel b0 maxCount fuel st0 0 (List.range b0.data.numCells) with
      | Option.none => Option.none
      | some (.canceled, _) => some .canceled
      | some (.done st1, _) =>
        match ftcKeep b0 st1.tcv (List.range b0.data.numCells) with
        | (_, false) => some (.done .none)
        | (b1, true) =>
          match allNakedSingles b1 (b1.data.numCells + 1) with
          | (_, .invalid) => some (.done .none)
          | (b2, .changed) =>
            if b2.isSolved then some (.done (.solved b2))
            else some (.done (.candidates b2 st1.nspc))
          | (b2, .none) =>
            if b2.isSolved then some (.done (.solved b2))
            else some (.done (.candidates b2 st1.nspc))

/-- The absent token changes nothing in the counting loop: the run is the
source loop's run, wrapped in `done` (the final consultation count
exists). -/
theorem fscLoopCancel_none {σ : Type} (recv : Option (σ → Board → σ × Bool))
    (maxCount : Nat) :
    ∀ (f : Nat) (stack : List Board) (count : Nat) (s : σ) (t : Nat),
    ∃ t2, fscLoopCancel Option.none recv maxCount f stack count s t =
      (fscLoop recv maxCount f stack count s).map
        (fun p => (CancelableResult.done p, t2)) := by
  intro f
  induction f with
  | zero =>
    intro stack count s t
    cases stack with
    | nil =>
      refine ⟨t, ?_⟩
      unfold fscLoopCancel fscLoop
      rcases Decidable.em (count == 0) with h | h <;> simp [h]
    | cons b0 rest0 => exact ⟨t, rfl⟩
  | succ f0 ih =>
    intro stack count s t
    cases stack with
    | nil =>
      refine ⟨t, ?_⟩
      unfold fscLoopCancel fscLoop
      rcases Decidable.em (count == 0) with h | h <;> simp [h]
    | cons b0 rest0 =>
      unfold fscLoopCancel fscLoop
      rw [show cancellationOf Option.none t = false from rfl]
      rw [if_neg (fun h => Bool.noConfusion h)]
      rcases hbf : runBruteForceLogic b0 (bfFuel b0) with _ | ⟨b1, ok⟩
      · exact ⟨t, rfl⟩
      · cases ok
        · exact ih rest0 count s (t + 1)
        · dsimp only
          rcases Decidable.em (b1.isSolved = true) with hs | hs
          · rw [if_pos hs, if_pos hs]
            rcases hrecv : recv with _ | r
            · rw [hrecv] at ih
              dsimp only
              rcases Decidable.em (count + 1 ≥ maxCount) with hm | hm
              · rw [if_pos hm, if_pos hm]
                exact ⟨t + 1, rfl⟩
              · rw [if_neg hm, if_neg hm]
                exact ih rest0 (count + 1) s (t + 1)
            · rw [hrecv] at ih
              dsimp only
              rcases hr : (r s b1).2 with _ | _
              · exact ⟨t + 1, rfl⟩
              · rcases Decidable.em (count + 1 ≥ maxCount) with hm | hm
                · rw [if_pos hm, if_pos hm]
                  exact ⟨t + 1, rfl⟩
                · rw [if_neg hm, if_neg hm]
                  exact ih rest0 (count + 1) (r s b1).1 (t + 1)
          · rw [if_neg hs, if_neg hs]
            rcases hbc : findBestBruteForceCell b1 with _ | ⟨cell⟩
            · exact ⟨t, rfl⟩
            · exact ih (fscPush b1 cell (ValueMask.toVals (b1.cell cell)) rest0)
                count s (t + 1)

/-- The absent token changes nothing in the random-solution loop. -/
theorem frsLoopCancel_none (rng : Nat → Nat → Nat) :
    ∀ (f : Nat) (stack : List Board) (k t : Nat),
    ∃ t2, frsLoopCancel Option.none rng f stack k t =
      (frsLoop rng f stack k).map (fun p => (CancelableResult.done p, t2)) := by
  intro f
  induction f with
  | zero =>
    intro stack k t
    cases stack with
    | nil => exact ⟨t, rfl⟩
    | cons b0 rest0 => exact ⟨t, rfl⟩
  | succ f0 ih =>
    intro stack k t
    cases stack with
    | nil => exact ⟨t, rfl⟩
    | cons b0 rest0 =>
      unfold frsLoopCancel frsLoop
      rw [show cancellationOf Option.none t = false from rfl]
      rw [if_neg (fun h => Bool.noConfusion h)]
      rcases hbf : runBruteForceLogic b0 (bfFuel b0) with _ | ⟨b1, ok⟩
      · exact ⟨t, rfl⟩
      · cases ok
        · exact ih rest0 k (t + 1)
        · dsimp only
          rcases Decidable.em (b1.isSolved = true) with hs | hs
          · rw [if_pos hs, if_pos hs]
            exact ⟨t + 1, rfl⟩
          · rw [if_neg hs, if_neg hs]
            rcases hbc : findBestBruteForceCell b1 with _ | ⟨cell⟩
            · exact ⟨t + 1, rfl⟩
            · exact ih _ (k + 1) (t + 1)

/-- The absent token changes nothing in the true-candidates value probes. -/
theorem ftcValsCancel_none (rng : Nat → Nat → Nat) (fuel : Nat) (b : Board)
    (cell : Nat) :
    ∀ (vs tcv : List Nat) (k t : Nat),
    ∃ t2, ftcValsCancel Option.none rng fuel b cell tcv k t vs =
      (ftcVals rng fuel b cell tcv k vs).map
        (fun r => (CancelableResult.done r, t2)) := by
  intro vs
  induction vs with
  | nil => intro tcv k t; exact ⟨t, rfl⟩
  | cons v vs ih =>
    intro tcv k t
    unfold ftcValsCancel ftcVals
    rcases hset : b.setSolved cell v with ⟨nb, flag⟩
    cases flag
    · exact ih tcv k t
    · dsimp only
      obtain ⟨t2, hfrs⟩ := frsLoopCancel_none rng fuel [nb] k t
      rw [hfrs]
      rcases hf : frsLoop rng fuel [nb] k with _ | ⟨res, k2⟩
      · exact ⟨t, rfl⟩
      · cases res with
        | solved sol => exact ih (unionSolution b.data.numCells tcv sol) k2 t2
        | none => exact ih tcv k2 t2
        | error => exact ih tcv k2 t2

/-- The absent token changes nothing in the true-candidates cell loop. -/
theorem ftcCellsCancel_none (rng : Nat → Nat → Nat) (fuel : Nat) (b : Board) :
    ∀ (cells tcv : List Nat) (k t : Nat),
    ∃ t2, ftcCellsCancel Option.none rng fuel b tcv k t cells =
      (ftcCells rng fuel b tcv k cells).map
        (fun r => (CancelableResult.done r, t2)) := by
  intro cells
  induction cells with
  | nil => intro tcv k t; exact ⟨t, rfl⟩
  | cons c cs ih =>
    intro tcv k t
    unfold ftcCellsCancel ftcCells
    rcases Decidable.em (ValueMask.isSolved (b.cell c) = true) with hs | hs
    · rw [if_pos hs, if_pos hs]
      exact ih tcv k t
    · rw [if_neg hs, if_neg hs]
      dsimp only
      obtain ⟨t2, hv⟩ := ftcValsCancel_none rng fuel b c
        (ValueMask.toVals (b.cell c &&& (u32All ^^^ tcv.getD c 0))) tcv k t
      rw [hv]
      rcases hvv : ftcVals rng fuel b c tcv k
          (ValueMask.toVals (b.cell c &&& (u32All ^^^ tcv.getD c 0))) with
        _ | ⟨tcv2, k2⟩
      · exact ⟨t, rfl⟩
      · exact ih tcv2 k2 t2

/-- The absent token changes nothing in `find_true_candidates`. -/
theorem findTrueCandidatesCancel_none (rng : Nat → Nat → Nat) (b : Board)
    (fuel : Nat) :
    findTrueCandidatesCancel Option.none rng b fuel =
      (findTrueCandidates rng b fuel).map CancelableResult.done := by
  unfold findTrueCandidatesCancel findTrueCandidates
  rcases hbf : runBruteForceLogic b (bfFuel b) with _ | ⟨b0, ok⟩
  · rfl
  · cases ok
    · rfl
    · dsimp only
      rcases Decidable.em (b0.isSolved = true) with hs | hs
      · rw [if_pos hs, if_pos hs]
        rfl
      · rw [if_neg hs, if_neg hs]
        obtain ⟨t2, hc⟩ := ftcCellsCancel_none rng fuel b0
          (List.range b0.data.numCells)
          ((List.range b0.data.numCells).map (fun c =>
            if ValueMask.isSolved (b0.cell c) = true then b0.cell c else 0)) 0 0
        rcases hcc : ftcCells rng fuel b0
            ((List.range b0.data.numCells).map (fun c =>
              if ValueMask.isSolved (b0.cell c) = true then b0.cell c else 0)) 0
            (List.range b0.data.numCells) with _ | ⟨tcv1, k1⟩
        · rw [hcc] at hc
          rw [hc]
          rfl
        · have hc2 : ftcCellsCancel Option.none rng fuel b0
              ((List.range b0.data.numCells).map (fun c =>
                if ValueMask.isSolved (b0.cell c) = true then b0.cell c else 0)) 0 0
              (List.range b0.data.numCells) =
              some (CancelableResult.done (tcv1, k1), t2) := by
            rw [hc, hcc]
            rfl
          rw [hc2]
          dsimp only
          rcases hk : ftcKeep b0 tcv1 (List.range b0.data.numCells) with ⟨b1, okk⟩
          cases okk
          · rfl
          · dsimp only
            rcases hans : allNakedSingles b1 (b1.data.numCells + 1) with ⟨b2, sr⟩
            cases sr <;> rfl

/-- The absent token changes nothing in the with-count value probes. -/
theorem ftcwcValsCancel_none (b : Board) (maxCount cell fuel : Nat) :
    ∀ (vs : List Nat) (st : TccState) (t : Nat),
    ∃ t2, ftcwcValsCancel Option.none b maxCount cell fuel st t vs =
      (ftcwcVals b maxCount cell fuel st vs).map
        (fun r => (CancelableResult.done r, t2)) := by
  intro vs
  induction vs with
  | nil => intro st t; exact ⟨t, rfl⟩
  | cons v vs ih =>
    intro st t
    unfold ftcwcValsCancel ftcwcVals
    dsimp only
    rcases Decidable.em (st.nspc.getD (candOf b.data.size cell v) 0 ≥ maxCount) with hge | hge
    · rw [if_pos hge, if_pos hge]
      exact ih st t
    · rw [if_neg hge, if_neg hge]
      rcases hset : b.setSolved cell v with ⟨nb, flag⟩
      cases flag
      · exact ih st t
      · dsimp only
        obtain ⟨t2, hf⟩ := fscLoopCancel_none
          (some (tccReceive maxCount (candOf b.data.size cell v)))
          (maxCount - st.nspc.getD (candOf b.data.size cell v) 0) fuel [nb] 0 st t
        rw [hf]
        rcases hfs : fscLoop (some (tccReceive maxCount (candOf b.data.size cell v)))
            (maxCount - st.nspc.getD (candOf b.data.size cell v) 0) fuel [nb] 0 st with
          _ | ⟨res, st2⟩
        · exact ⟨t, rfl⟩
        · exact ih st2 t2

/-- The absent token changes nothing in the with-count cell loop. -/
theorem ftcwcCellsCancel_none (b : Board) (maxCount fuel : Nat) :
    ∀ (cells : List Nat) (st : TccState) (t : Nat),
    ∃ t2, ftcwcCellsCancel Option.none b maxCount fuel st t cells =
      (ftcwcCells b maxCount fuel st cells).map
        (fun r => (CancelableResult.done r, t2)) := by
  intro cells
  induction cells with
  | nil => intro st t; exact ⟨t, rfl⟩
  | cons c cs ih =>
    intro st t
    unfold ftcwcCellsCancel ftcwcCells
    rcases Decidable.em (ValueMask.isSolved (b.cell c) = true) with hs | hs
    · rw [if_pos hs, if_pos hs]
      exact ih st t
    · rw [if_neg hs, if_neg hs]
      obtain ⟨t2, hv⟩ := ftcwcValsCancel_none b maxCount c fuel
        (ValueMask.toVals (b.cell c)) st t
      rw [hv]
      rcases hvv : ftcwcVals b maxCount c fuel st (ValueMask.toVals (b.cell c)) with
        _ | st2
      · exact ⟨t, rfl⟩
      · exact ih st2 t2

/-- The absent token changes nothing in `find_true_candidates_with_count`. -/
theorem findTrueCandidatesWithCountCancel_none (b : Board) (maxCount fuel : Nat) :
    findTrueCandidatesWithCountCancel b maxCount Option.none fuel =
      (findTrueCandidatesWithCount b maxCount fuel).map CancelableResult.done := by
  unfold findTrueCandidatesWithCountCancel findTrueCandidatesWithCount
  rcases hbf : runBruteForceLogic b (bfFuel b) with _ | ⟨b0, ok⟩
  · rfl
  · cases ok
    · rfl
    · dsimp only
      rcases Decidable.em (b0.isSolved = true) with hs | hs
      · rw [if_pos hs, if_pos hs]
        rfl
      · rw [if_neg hs, if_neg hs]
        obtain ⟨t2, hc⟩ := ftcwcCellsCancel_none b0 maxCount fuel
          (List.range b0.data.numCells)
          ⟨(List.range b0.data.numCells).map (fun c =>
            if ValueMask.isSolved (b0.cell c) = true then b0.cell c else 0),
            List.replicate (b0.data.size * b0.data.size * b0.data.size) 0, []⟩ 0
        rcases hcc : ftcwcCells b0 maxCount fuel
            ⟨(List.range b0.data.numCells).map (fun c =>
              if ValueMask.isSolved (b0.cell c) = true then b0.cell c else 0),
              List.replicate (b0.data.size * b0.data.size * b0.data.size) 0, []⟩
            (List.range b0.data.numCells) with _ | st1
        · rw [hcc] at hc
          rw [hc]
          rfl
        · have hc2 : ftcwcCellsCancel Option.none b0 maxCount fuel
              ⟨(List.range b0.data.numCells).map (fun c =>
                if ValueMask.isSolved (b0.cell c) = true then b0.cell c else 0),
                List.replicate (b0.data.size * b0.data.size * b0.data.size) 0, []⟩ 0
              (List.range b0.data.numCells) =
              some (CancelableResult.done st1, t2) := by
            rw [hc, hcc]
            rfl
          rw [hc2]
          dsimp only
          rcases hk : ftcKeep b0 st1.tcv (List.range b0.data.numCells) with ⟨b1, okk⟩
          cases okk
          · rfl
          · dsimp only
            rcases hans : allNakedSingles b1 (b1.data.numCells + 1) with ⟨b2, sr⟩
            cases sr
            · dsimp only
              rcases Decidable.em (b2.isSolved = true) with h2 | h2
              · rw [if_pos h2, if_pos h2]
                rfl
              · rw [if_neg h2, if_neg h2]
                rfl
            · dsimp only
              rcases Decidable.em (b2.isSolved = true) with h2 | h2
              · rw [if_pos h2, if_pos h2]
                rfl
              · rw [if_neg h2, if_neg h2]
                rfl
            · rfl

/-- The absent token changes nothing in the logical-solve loop. -/
theorem rlsLoopCancel_none :
    ∀ (f : Nat) (b : Board) (changed : Bool) (t : Nat),
    ∃ t2, rlsLoopCancel Option.none b changed f t =
      (rlsLoop b changed f).map (fun p => (CancelableResult.done p, t2)) := by
  intro f
  induction f with
  | zero => intro b changed t; exact ⟨t, rfl⟩
  | succ f0 ih =>
    intro b changed t
    unfold rlsLoopCancel rlsLoop
    rcases Decidable.em (b.isSolved = true) with hs | hs
    · rw [if_pos hs, if_pos hs]
      exact ⟨t, rfl⟩
    · rw [if_neg hs, if_neg hs]
      rw [show cancellationOf Option.none t = false from rfl]
      rw [if_neg (fun h => Bool.noConfusion h)]
      rcases hstep : runSingleLogicalStep b with ⟨b1, sr⟩
      cases sr
      · exact ⟨t, rfl⟩
      · exact ih b1 true (t + 1)
      · exact ⟨t, rfl⟩

/-- **C6.**  (Modelled from the spec.)  Every long-running entry point —
solution counting, random solve, true candidates without and with counts,
and the logical solve — accepts an optional cancellation token, consults it
between search nodes (between logical steps for the logical solve), and
honours it promptly: at every consultation point, a node that observes a
set flag makes the entry point return the canceled result immediately, with
no further search below or beside it; and an absent token — the
constantly-false one that `From<Option<Cancellation>>` produces — changes
nothing: each entry point computes exactly what the corresponding source
(token-free) code computes, wrapped in `done`. -/
theorem claim_C6 (tok : Nat → Bool) :
    (∀ (σ : Type) (recv : Option (σ → Board → σ × Bool)) (maxCount f count t : Nat)
        (b : Board) (rest : List Board) (s : σ), tok t = true →
      fscLoopCancel (some tok) recv maxCount (f + 1) (b :: rest) count s t =
        some (.canceled, t)) ∧
    (∀ (σ : Type) (recv : Option (σ → Board → σ × Bool)) (maxCount : Nat)
        (b : Board) (s : σ) (fuel : Nat),
      findSolutionCountCancel b maxCount recv s Option.none fuel =
        (findSolutionCount b maxCount recv s fuel).map CancelableResult.done) ∧
    (∀ (rng : Nat → Nat → Nat) (f : Nat) (b : Board) (rest : List Board) (k t : Nat),
      tok t = true →
      frsLoopCancel (some tok) rng (f + 1) (b :: rest) k t = some (.canceled, t)) ∧
    (∀ (rng : Nat → Nat → Nat) (b : Board) (fuel : Nat),
      findRandomSolutionCancel rng b Option.none fuel =
        (findRandomSolutionForBoard rng b fuel).map CancelableResult.done) ∧
    (∀ (rng : Nat → Nat → Nat) (fuel : Nat) (b : Board) (cell : Nat)
        (tcv : List Nat) (k t v : Nat) (vs : List Nat),
      tok t = true → (b.setSolved cell v).2 = true →
      ftcValsCancel (some tok) rng (fuel + 1) b cell tcv k t (v :: vs) =
        some (.canceled, t)) ∧
    (∀ (rng : Nat → Nat → Nat) (b : Board) (fuel : Nat),
      findTrueCandidatesCancel Option.none rng b fuel =
        (findTrueCandidates rng b fuel).map CancelableResult.done) ∧
    (∀ (b : Board) (maxCount cell fuel : Nat) (st : TccState) (t v : Nat)
        (vs : List Nat),
      tok t = true → st.nspc.getD (candOf b.data.size cell v) 0 < maxCount →
      (b.setSolved cell v).2 = true →
      ftcwcValsCancel (some tok) b maxCount cell (fuel + 1) st t (v :: vs) =
        some (.canceled, t)) ∧
    (∀ (b : Board) (maxCount fuel : Nat),
      findTrueCandidatesWithCountCancel b maxCount Option.none fuel =
        (findTrueCandidatesWithCount b maxCount fuel).map CancelableResult.done) ∧
    (∀ (b : Board) (changed : Bool) (f t : Nat), b.isSolved = false → tok t = true →
      rlsLoopCancel (some tok) b changed (f + 1) t = some (.canceled, t)) ∧
    (∀ (b : Board) (fuel : Nat),
      runLogicalSolveCancel b Option.none fuel =
        (runLogicalSolve b fuel).map CancelableResult.done) := by
  refine ⟨?_, ?_, ?_, ?_, ?_, ?_, ?_, ?_, ?_, ?_⟩
  · intro σ recv maxCount f count t b rest s hc
    unfold fscLoopCancel
    rw [show cancellationOf (some tok) t = tok t from rfl, hc]
    rfl
  · intro σ recv maxCount b s fuel
    unfold findSolutionCountCancel findSolutionCount
    obtain ⟨t2, h⟩ := fscLoopCancel_none recv maxCount fuel [b] 0 s 0
    rw [h]
    rcases hx : fscLoop recv maxCount fuel [b] 0 s with _ | p
    · rfl
    · rfl
  · intro rng f b rest k t hc
    unfold frsLoopCancel
    rw [show cancellationOf (some tok) t = tok t from rfl, hc]
    rfl
  · intro rng b fuel
    unfold findRandomSolutionCancel findRandomSolutionForBoard
    obtain ⟨t2, h⟩ := frsLoopCancel_none rng fuel [b] 0 0
    rw [h]
    rcases hx : frsLoop rng fuel [b] 0 with _ | ⟨r, k2⟩
    · rfl
    · rfl
  · intro rng fuel b cell tcv k t v vs hc hset
    unfold ftcValsCancel
    rcases hs : b.setSolved cell v with ⟨nb, flag⟩
    rw [hs] at hset
    cases flag
    · exact Bool.noConfusion hset
    · dsimp only
      have h1 : frsLoopCancel (some tok) rng (fuel + 1) [nb] k t =
          some (.canceled, t) := by
        unfold frsLoopCancel
        rw [show cancellationOf (some tok) t = tok t from rfl, hc]
        rfl
      rw [h1]
  · intro rng b fuel
    exact findTrueCandidatesCancel_none rng b fuel
  · intro b maxCount cell fuel st t v vs hc hlt hset
    unfold ftcwcValsCancel
    dsimp only
    rw [if_neg (Nat.not_le.mpr hlt)]
    rcases hs : b.setSolved cell v with ⟨nb, flag⟩
    rw [hs] at hset
    cases flag
    · exact Bool.noConfusion hset
    · dsimp only
      have h1 : fscLoopCancel (some tok)
          (some (tccReceive maxCount (candOf b.data.size cell v)))
          (maxCount - st.nspc.getD (candOf b.data.size cell v) 0)
          (fuel + 1) [nb] 0 st t = some (.canceled, t) := by
        unfold fscLoopCancel
        rw [show cancellationOf (some tok) t = tok t from rfl, hc]
        rfl
      rw [h1]
  · intro b maxCount fuel
    exact findTrueCandidatesWithCountCancel_none b maxCount fuel
  · intro b changed f t hsol hc
    unfold rlsLoopCancel
    rw [hsol]
    rw [if_neg (fun h => Bool.noConfusion h)]
    rw [show cancellationOf (some tok) t = tok t from rfl, hc]
    rfl
  · intro b fuel
    unfold runLogicalSolveCancel runLogicalSolve
    obtain ⟨t2, h⟩ := rlsLoopCancel_none fuel b false 0
    rw [h]
    rcases hx : rlsLoop b false fuel with _ | p
    · rfl
    · rfl

theorem claim_C6_witness :
    fscLoopCancel (σ := Unit) (some (fun _ => true)) Option.none 2 1
        [Board.new 2 [] []] 0 () 0 = some (.canceled, 0) ∧
    frsLoopCancel (some (fun _ => true)) (fun _ m => ValueMask.minVal m) 1
        [Board.new 2 [] []] 0 0 = some (.canceled, 0) ∧
    ftcValsCancel (some (fun _ => true)) (fun _ m => ValueMask.minVal m) 1
        (Board.new 2 [] []) 0 [] 0 0 [1] = some (.canceled, 0) ∧
    ftcwcValsCancel (some (fun _ => true)) (Board.new 2 [] []) 2 0 1
        (TccState.mk [0, 0, 0, 0] [0, 0, 0, 0, 0, 0, 0, 0] []) 0 [1] =
      some (.canceled, 0) ∧
    rlsLoopCancel (some (fun _ => true)) (Board.new 2 [] []) false 1 0 =
      some (.canceled, 0) := by
  refine ⟨?_, ?_, ?_, ?_, ?_⟩
  · exact (claim_C6 (fun _ => true)).1 Unit Option.none 2 0 0 0
      (Board.new 2 [] []) [] () rfl
  · exact (claim_C6 (fun _ => true)).2.2.1 (fun _ m => ValueMask.minVal m) 0
      (Board.new 2 [] []) [] 0 0 rfl
  · exact (claim_C6 (fun _ => true)).2.2.2.2.1 (fun _ m => ValueMask.minVal m) 0
      (Board.new 2 [] []) 0 [] 0 0 1 [] rfl (by decide)
  · exact (claim_C6 (fun _ => true)).2.2.2.2.2.2.1 (Board.new 2 [] []) 2 0 0
      (TccState.mk [0, 0, 0, 0] [0, 0, 0, 0, 0, 0, 0, 0] []) 0 1 [] rfl
      (by decide) (by decide)
  · exact (claim_C6 (fun _ => true)).2.2.2.2.2.2.2.2.1 (Board.new 2 [] []) false 0 0
      (by decide) rfl

/-! ## Classic weak-link characterization: candidate index arithmetic -/

theorem cellOfCand_candOf (size c v : Nat) (hv1 : 1 ≤ v) (hv2 : v ≤ size) :
    cellOfCand size (candOf size c v) = c := by
  unfold cellOfCand candOf
  have h1 : c * size + v - 1 = v - 1 + size * c := by rw [Nat.mul_comm]; omega
  rw [h1]
  rw [Nat.add_mul_div_left _ _ (by omega : 0 < size)]
  rw [Nat.div_eq_of_lt (by omega)]
  omega

theorem valOfCand_candOf (size c v : Nat) (hv1 : 1 ≤ v) (hv2 : v ≤ size) :
    valOfCand size (candOf size c v) = v := by
  unfold valOfCand candOf
  have h1 : c * size + v - 1 = v - 1 + size * c := by rw [Nat.mul_comm]; omega
  rw [h1]
  rw [Nat.add_mul_mod_self_left]
  rw [Nat.mod_eq_of_lt (by omega)]
  omega

theorem candOf_cellOfCand (size A : Nat) :
    candOf size (cellOfCand size A) (valOfCand size A) = A := by
  unfold candOf cellOfCand valOfCand
  have h1 := Nat.div_add_mod A size
  have h2 : A / size * size = size * (A / size) := Nat.mul_comm _ _
  omega

theorem valOfCand_ge_one (size A : Nat) : 1 ≤ valOfCand size A := by
  unfold valOfCand
  omega

theorem valOfCand_le_size (size A : Nat) (hs : 0 < size) : valOfCand size A ≤ size := by
  unfold valOfCand
  have := Nat.mod_lt A hs
  omega

theorem candOf_inj (size c1 v1 c2 v2 : Nat) (h1 : 1 ≤ v1) (h2 : v1 ≤ size)
    (h3 : 1 ≤ v2) (h4 : v2 ≤ size) (heq : candOf size c1 v1 = candOf size c2 v2) :
    c1 = c2 ∧ v1 = v2 := by
  have hc := congrArg (cellOfCand size) heq
  rw [cellOfCand_candOf size c1 v1 h1 h2, cellOfCand_candOf size c2 v2 h3 h4] at hc
  have hv := congrArg (valOfCand size) heq
  rw [valOfCand_candOf size c1 v1 h1 h2, valOfCand_candOf size c2 v2 h3 h4] at hv
  exact ⟨hc, hv⟩

/-- `pairsOf` on a strictly sorted list is exactly the ordered pairs. -/
theorem mem_pairsOf_sorted (x y : Nat) : ∀ l : List Nat, List.Sorted (· < ·) l →
    ((x, y) ∈ pairsOf l ↔ x ∈ l ∧ y ∈ l ∧ x < y) := by
  intro l
  induction l with
  | nil =>
    intro _
    simp [pairsOf]
  | cons a xs ih =>
    intro hsorted
    have hlt : ∀ z ∈ xs, a < z := fun z hz => (List.sorted_cons.mp hsorted).1 z hz
    have hxs := ih (List.sorted_cons.mp hsorted).2
    unfold pairsOf
    rw [List.mem_append]
    constructor
    · rintro (hm | hm)
      · rw [List.mem_map] at hm
        obtain ⟨y0, hy0, heq⟩ := hm
        injection heq with e1 e2
        subst e1
        subst e2
        exact ⟨List.mem_cons_self .., List.mem_cons_of_mem _ hy0, hlt _ hy0⟩
      · obtain ⟨hx, hy, hxy⟩ := hxs.mp hm
        exact ⟨List.mem_cons_of_mem _ hx, List.mem_cons_of_mem _ hy, hxy⟩
    · rintro ⟨hx, hy, hxy⟩
      rw [List.mem_cons] at hx hy
      rcases hx with rfl | hx
      · rcases hy with rfl | hy
        · omega
        · exact Or.inl (List.mem_map.mpr ⟨y, hy, rfl⟩)
      · rcases hy with rfl | hy
        · exact absurd (hlt x hx) (by omega)
        · exact Or.inr (hxs.mpr ⟨hx, hy, hxy⟩)

theorem rowHouse_facts (size r : Nat) (hr : r < size) :
    List.Sorted (· < ·) (rowHouse size r) ∧ (rowHouse size r).length = size ∧
      ∀ c ∈ rowHouse size r, c < size * size := by
  unfold rowHouse
  refine ⟨?_, by simp, ?_⟩
  · rw [List.Sorted, List.pairwise_map]
    exact (List.pairwise_lt_range size).imp (fun hab => by omega)
  · intro c hc
    rw [List.mem_map] at hc
    obtain ⟨j, hj, rfl⟩ := hc
    rw [List.mem_range] at hj
    exact cellIdx_lt size r j hr hj

theorem colHouse_facts (size c0 : Nat) (hc0 : c0 < size) :
    List.Sorted (· < ·) (colHouse size c0) ∧ (colHouse size c0).length = size ∧
      ∀ c ∈ colHouse size c0, c < size * size := by
  unfold colHouse
  refine ⟨?_, by simp, ?_⟩
  · rw [List.Sorted, List.pairwise_map]
    refine (List.pairwise_lt_range size).imp (fun hab => ?_)
    have hs : 0 < size := by omega
    exact Nat.add_lt_add_right (Nat.mul_lt_mul_of_lt_of_le hab (Nat.le_refl size) hs) c0
  · intro c hc
    rw [List.mem_map] at hc
    obtain ⟨j, hj, rfl⟩ := hc
    rw [List.mem_range] at hj
    exact cellIdx_lt size j c0 hj hc0

theorem regionCells_facts (size : Nat) (regions : List Nat) (reg : Nat) :
    List.Sorted (· < ·) (regionCells size regions reg) ∧
      ∀ c ∈ regionCells size regions reg, c < size * size := by
  unfold regionCells
  constructor
  · exact List.Pairwise.filter _ (List.pairwise_lt_range _)
  · intro c hc
    have := (List.mem_filter.mp hc).1
    rw [List.mem_range] at this
    exact this

/-- Every house of a constraint-free `create_houses` is strictly sorted, has
exactly `size` cells, and its cells are in range. -/
theorem createHouses_classic (size : Nat) (regions : List Nat) :
    ∀ h ∈ createHouses size regions [], List.Sorted (· < ·) h ∧
      h.length = size ∧ ∀ c ∈ h, c < size * size := by
  unfold createHouses
  rw [List.foldl_nil]
  dsimp only
  set regions1 := if regions.length == size * size then regions else defaultRegions size
  have hbase : ∀ h ∈ (List.range size).map (rowHouse size) ++
      (List.range size).map (colHouse size),
      List.Sorted (· < ·) h ∧ h.length = size ∧ ∀ c ∈ h, c < size * size := by
    intro h hh
    rw [List.mem_append] at hh
    rcases hh with hh | hh <;> rw [List.mem_map] at hh <;> obtain ⟨r, hr, rfl⟩ := hh <;>
      rw [List.mem_range] at hr
    · exact rowHouse_facts size r hr
    · exact colHouse_facts size r hr
  have hfold : ∀ (l : List Nat) (hs : List (List Nat)),
      (∀ h ∈ hs, List.Sorted (· < ·) h ∧ h.length = size ∧ ∀ c ∈ h, c < size * size) →
      ∀ h ∈ l.foldl (fun hs reg =>
          let house := regionCells size regions1 reg
          if house.length == size && !(hs.any (fun h => h == house)) then hs ++ [house]
          else hs) hs,
        List.Sorted (· < ·) h ∧ h.length = size ∧ ∀ c ∈ h, c < size * size := by
    intro l
    induction l with
    | nil => intro hs hinv; exact hinv
    | cons reg rest ih =>
      intro hs hinv
      rw [List.foldl_cons]
      apply ih
      dsimp only
      split
      next hcnd =>
        intro h hh
        rw [List.mem_append] at hh
        rcases hh with hh | hh
        · exact hinv h hh
        · rw [List.mem_singleton] at hh
          subst hh
          obtain ⟨hsort, hbd⟩ := regionCells_facts size regions1 reg
          rw [Bool.and_eq_true] at hcnd
          exact ⟨hsort, by simpa using hcnd.1, hbd⟩
      next => exact hinv
  exact hfold _ _ hbase

theorem mem_housesByCell (houses : List (List Nat)) (n c : Nat) (h : List Nat) :
    h ∈ (housesByCell n houses).getD c [] ↔ c < n ∧ h ∈ houses ∧ c ∈ h := by
  rw [housesByCell_getD]
  rcases Decidable.em (c < n) with hc | hc
  · rw [if_pos hc]
    rw [List.mem_filter]
    simp [hc]
  · rw [if_neg hc]
    simp [hc]

/-- Membership characterization of the sudoku link-pair list: a pair is
generated exactly for two candidates of the same cell in ascending value
order, or two candidates of the same value in two (ascending) cells sharing
a house. -/
theorem mem_sudokuLinkPairs_iff (size : Nat) (houses : List (List Nat))
    (hh : ∀ h ∈ houses, List.Sorted (· < ·) h ∧ ∀ c ∈ h, c < size * size)
    (p q : Nat) :
    ((p, q) ∈ sudokuLinkPairs size (housesByCell (size * size) houses)) ↔
      (p < size * size * size ∧ q < size * size * size ∧
        ((cellOfCand size p = cellOfCand size q ∧ valOfCand size p < valOfCand size q) ∨
         (valOfCand size p = valOfCand size q ∧ cellOfCand size p < cellOfCand size q ∧
           ∃ h ∈ houses, cellOfCand size p ∈ h ∧ cellOfCand size q ∈ h))) := by
  unfold sudokuLinkPairs
  rw [List.mem_flatMap]
  constructor
  · rintro ⟨cand1, hc1, hm⟩
    rw [List.mem_range] at hc1
    have hs : 0 < size := by
      rcases Nat.eq_zero_or_pos size with rfl | hs
      · simp at hc1
      · exact hs
    have hcell : cellOfCand size cand1 < size * size := cellOfCand_lt size cand1 hc1
    unfold sudokuPairsFor at hm
    dsimp only at hm
    rw [List.mem_append] at hm
    rcases hm with hm | hm
    · rw [List.mem_map] at hm
      obtain ⟨v2, hv2, heq⟩ := hm
      rw [List.Ico.mem] at hv2
      injection heq with e1 e2
      subst e1
      subst e2
      have hv2r : 1 ≤ v2 := by
        have := valOfCand_ge_one size cand1
        omega
      refine ⟨hc1, candOf_lt _ _ _ hcell hv2r (by omega), Or.inl ⟨?_, ?_⟩⟩
      · rw [cellOfCand_candOf size _ v2 hv2r (by omega)]
      · rw [valOfCand_candOf size _ v2 hv2r (by omega)]
        omega
    · rw [List.mem_flatMap] at hm
      obtain ⟨h, hhm, hpq⟩ := hm
      rw [mem_housesByCell] at hhm
      obtain ⟨-, hmem, hcin⟩ := hhm
      obtain ⟨hsort, hbd⟩ := hh h hmem
      unfold candidatePairs at hpq
      rw [List.mem_flatMap] at hpq
      obtain ⟨v, hv, hm2⟩ := hpq
      rw [List.Ico.mem] at hv
      rw [List.mem_map] at hm2
      obtain ⟨pr, hpr, heq⟩ := hm2
      obtain ⟨c1, c2⟩ := pr
      injection heq with e1 e2
      subst e1
      subst e2
      obtain ⟨hc1m, hc2m, hlt⟩ := (mem_pairsOf_sorted c1 c2 h hsort).mp hpr
      refine ⟨candOf_lt _ _ _ (hbd _ hc1m) (by omega) (by omega),
        candOf_lt _ _ _ (hbd _ hc2m) (by omega) (by omega), Or.inr ⟨?_, ?_, h, hmem, ?_, ?_⟩⟩
      · rw [valOfCand_candOf size _ v (by omega) (by omega),
          valOfCand_candOf size _ v (by omega) (by omega)]
      · rw [cellOfCand_candOf size _ v (by omega) (by omega),
          cellOfCand_candOf size _ v (by omega) (by omega)]
        exact hlt
      · rw [cellOfCand_candOf size _ v (by omega) (by omega)]
        exact hc1m
      · rw [cellOfCand_candOf size _ v (by omega) (by omega)]
        exact hc2m
  · rintro ⟨hp, hq, hcase⟩
    have hs : 0 < size := by
      rcases Nat.eq_zero_or_pos size with rfl | hs
      · simp at hp
      · exact hs
    have hn3 : size * size * size = size * size * size := rfl
    refine ⟨p, List.mem_range.mpr hp, ?_⟩
    unfold sudokuPairsFor
    dsimp only
    rw [List.mem_append]
    rcases hcase with ⟨hcell, hval⟩ | ⟨hval, hcell, h, hmem, hc1, hc2⟩
    · left
      rw [List.mem_map]
      refine ⟨valOfCand size q, ?_, ?_⟩
      · rw [List.Ico.mem]
        exact ⟨by omega, by have := valOfCand_le_size size q hs; omega⟩
      · rw [hcell]
        rw [candOf_cellOfCand size q]
    · right
      rw [List.mem_flatMap]
      refine ⟨h, ?_, ?_⟩
      · rw [mem_housesByCell]
        exact ⟨(hh h hmem).2 _ hc1, hmem, hc1⟩
      · unfold candidatePairs
        rw [List.mem_flatMap]
        refine ⟨valOfCand size p, ?_, ?_⟩
        · rw [List.Ico.mem]
          exact ⟨valOfCand_ge_one size p, by have := valOfCand_le_size size p hs; omega⟩
        · rw [List.mem_map]
          refine ⟨(cellOfCand size p, cellOfCand size q), ?_, ?_⟩
          · exact (mem_pairsOf_sorted _ _ h (hh h hmem).1).mpr ⟨hc1, hc2, hcell⟩
          · dsimp only
            rw [candOf_cellOfCand size p, hval, candOf_cellOfCand size q]

/-- Characterization of the constraint-free built table: candidates are
linked exactly when distinct and sharing a cell, or sharing a value in a
shared house. -/
theorem classicTable_testBit (size : Nat) (houses : List (List Nat))
    (hh : ∀ h ∈ houses, List.Sorted (· < ·) h ∧ ∀ c ∈ h, c < size * size)
    (A B : Nat) :
    (tableGet (initWeakLinks size houses []).1 A).testBit B = true ↔
      (A < size * size * size ∧ B < size * size * size ∧ A ≠ B ∧
        (cellOfCand size A = cellOfCand size B ∨
          (valOfCand size A = valOfCand size B ∧
            ∃ h ∈ houses, cellOfCand size A ∈ h ∧ cellOfCand size B ∈ h))) := by
  unfold initWeakLinks
  dsimp only
  rw [show ∀ t : List Nat, (addConstraintPairs t [] []).1 = t from fun t => rfl]
  rw [show (sudokuLinkPairs size (housesByCell (size * size) houses)).foldl
      (fun t p => addWeakLink t p.1 p.2) (List.replicate (size * size * size) 0) =
    foldAdd (List.replicate (size * size * size) 0)
      (sudokuLinkPairs size (housesByCell (size * size) houses)) from rfl]
  rw [foldAdd_testBit]
  rw [tableGet_replicate]
  rw [List.length_replicate]
  constructor
  · rintro (h0 | ⟨hA, pq, hm, hor⟩)
    · rw [Nat.zero_testBit] at h0
      cases h0
    · obtain ⟨x, y⟩ := pq
      dsimp only at hor
      rw [mem_sudokuLinkPairs_iff size houses hh] at hm
      obtain ⟨hx, hy, hcase⟩ := hm
      rcases hor with ⟨e1, e2⟩ | ⟨e1, e2⟩
      · subst e1
        subst e2
        rcases hcase with ⟨hc, hv⟩ | ⟨hv, hc, h, hmem, h1, h2⟩
        · exact ⟨hx, hy, fun he => by rw [he] at hv; omega, Or.inl hc⟩
        · exact ⟨hx, hy, fun he => by rw [he] at hc; omega, Or.inr ⟨hv, h, hmem, h1, h2⟩⟩
      · subst e1
        subst e2
        rcases hcase with ⟨hc, hv⟩ | ⟨hv, hc, h, hmem, h1, h2⟩
        · exact ⟨hy, hx, fun he => by rw [he] at hv; omega, Or.inl hc.symm⟩
        · exact ⟨hy, hx, fun he => by rw [he] at hc; omega,
            Or.inr ⟨hv.symm, h, hmem, h2, h1⟩⟩
  · rintro ⟨hA, hB, hne, hcase⟩
    refine Or.inr ⟨hA, ?_⟩
    have hs : 0 < size := by
      rcases Nat.eq_zero_or_pos size with rfl | hs
      · simp at hA
      · exact hs
    rcases hcase with hc | ⟨hv, h, hmem, h1, h2⟩
    · have hvne : valOfCand size A ≠ valOfCand size B := by
        intro hv
        apply hne
        have e1 := candOf_cellOfCand size A
        have e2 := candOf_cellOfCand size B
        rw [← e1, ← e2, hc, hv]
      rcases Nat.lt_or_ge (valOfCand size A) (valOfCand size B) with hlt | hge
      · exact ⟨(A, B), (mem_sudokuLinkPairs_iff size houses hh A B).mpr
          ⟨hA, hB, Or.inl ⟨hc, hlt⟩⟩, Or.inl ⟨rfl, rfl⟩⟩
      · exact ⟨(B, A), (mem_sudokuLinkPairs_iff size houses hh B A).mpr
          ⟨hB, hA, Or.inl ⟨hc.symm, by omega⟩⟩, Or.inr ⟨rfl, rfl⟩⟩
    · have hcne : cellOfCand size A ≠ cellOfCand size B := by
        intro hc
        apply hne
        have e1 := candOf_cellOfCand size A
        have e2 := candOf_cellOfCand size B
        rw [← e1, ← e2, hc, hv]
      rcases Nat.lt_or_ge (cellOfCand size A) (cellOfCand size B) with hlt | hge
      · exact ⟨(A, B), (mem_sudokuLinkPairs_iff size houses hh A B).mpr
          ⟨hA, hB, Or.inr ⟨hv, hlt, h, hmem, h1, h2⟩⟩, Or.inl ⟨rfl, rfl⟩⟩
      · exact ⟨(B, A), (mem_sudokuLinkPairs_iff size houses hh B A).mpr
          ⟨hB, hA, Or.inr ⟨hv.symm, by omega, h, hmem, h2, h1⟩⟩, Or.inr ⟨rfl, rfl⟩⟩

theorem boardNew_data_houses (size : Nat) (regions : List Nat)
    (constraints : List Constraint) :
    (Board.new size regions constraints).data.houses =
      createHouses size regions constraints := by
  unfold Board.new
  dsimp only
  rw [clearCandidates_data]

theorem boardNew_data_size (size : Nat) (regions : List Nat)
    (constraints : List Constraint) :
    (Board.new size regions constraints).data.size = size := by
  unfold Board.new
  dsimp only
  rw [clearCandidates_data]

theorem boardNew_data_numCells (size : Nat) (regions : List Nat)
    (constraints : List Constraint) :
    (Board.new size regions constraints).data.numCells = size * size := by
  unfold Board.new
  dsimp only
  rw [clearCandidates_data]

theorem boardNew_data_numCandidates (size : Nat) (regions : List Nat)
    (constraints : List Constraint) :
    (Board.new size regions constraints).data.numCandidates =
      size * (size * size) := by
  unfold Board.new
  dsimp only
  rw [clearCandidates_data]

theorem boardNew_data_constraints (size : Nat) (regions : List Nat)
    (constraints : List Constraint) :
    (Board.new size regions constraints).data.constraints = constraints := by
  unfold Board.new
  dsimp only
  rw [clearCandidates_data]

/-- The classic (constraint-free) board's weak links, characterized. -/
theorem classic_hasWeakLink (size : Nat) (regions : List Nat) (A B : Nat) :
    hasWeakLink (Board.new size regions []) A B = true ↔
      (A < size * size * size ∧ B < size * size * size ∧ A ≠ B ∧
        (cellOfCand size A = cellOfCand size B ∨
          (valOfCand size A = valOfCand size B ∧
            ∃ h ∈ createHouses size regions [],
              cellOfCand size A ∈ h ∧ cellOfCand size B ∈ h))) := by
  unfold hasWeakLink
  rw [boardNew_data_weakLinks]
  rw [show ([] : List Constraint).flatMap (fun k => k.getWeakLinks size) = [] from rfl]
  exact classicTable_testBit size (createHouses size regions [])
    (fun h hm => ⟨(createHouses_classic size regions h hm).1,
      (createHouses_classic size regions h hm).2.2⟩) A B

/-! ## Solution semantics for classic boards -/

/-- Every cell still holds its assigned value as a candidate. -/
def admits (b : Board) (A : Nat → Nat) : Prop :=
  ∀ c, c < b.data.numCells → ValueMask.has (b.cell c) (A c) = true

/-- No two assigned cells hold weakly linked candidates. -/
def linkConsistent (d : BoardData) (A : Nat → Nat) : Prop :=
  ∀ c1 c2, c1 < d.numCells → c2 < d.numCells → c1 ≠ c2 →
    (d.weakLinks (candOf d.size c1 (A c1))).testBit (candOf d.size c2 (A c2)) = false

/-- Assigned values lie in `1..=size`. -/
def valsInRange (d : BoardData) (A : Nat → Nat) : Prop :=
  ∀ c, c < d.numCells → 1 ≤ A c ∧ A c ≤ d.size

/-- `A` is a (complete) solution of the puzzle state `b`. -/
def isSolution (b : Board) (A : Nat → Nat) : Prop :=
  valsInRange b.data A ∧ linkConsistent b.data A ∧ admits b A

theorem notEmpty_of_bit (m k : Nat) (hk : k < 31) (hbit : m.testBit k = true) :
    ValueMask.isEmpty m = false := by
  rcases h : ValueMask.isEmpty m with _ | _
  · rfl
  · exfalso
    have h0 := (isEmpty_eq m).mp h
    have ht := testBit_valueBits m k
    rw [h0, Nat.zero_testBit, hbit] at ht
    simp [hk] at ht

/-- `clear_value` and solutions: the result admits exactly the solutions of
the原 board that do not put `v` in the cleared cell. -/
theorem isSolution_clearValue (b : Board) (cell v : Nat) (A : Nat → Nat)
    (hlen : b.cells.board.length = b.data.numCells)
    (hs31 : b.data.size ≤ 31) (hv : 1 ≤ v) (hv31 : v ≤ 31) :
    isSolution (b.clearValue cell v).1 A ↔
      isSolution b A ∧ (cell < b.data.numCells → A cell ≠ v) := by
  have hdata := clearValue_data b cell v
  have hcellc := fun c => clearValue_cell b cell v c
  constructor
  · rintro ⟨hr, hl, ha⟩
    rw [hdata] at hr hl
    have hadm : admits b A := by
      intro c hc
      have := ha c (by rw [hdata]; exact hc)
      rw [hcellc c] at this
      rcases Decidable.em (cell = c ∧ cell < b.cells.board.length) with h | h
      · rw [if_pos h] at this
        rw [← h.1] at this ⊢
        rw [has_eq_testBit] at this ⊢
        exact testBit_without_mono _ _ _ this
      · rw [if_neg h] at this
        exact this
    refine ⟨⟨hr, hl, hadm⟩, ?_⟩
    intro hc heq
    have := ha cell (by rw [hdata]; exact hc)
    rw [hcellc cell] at this
    rw [if_pos ⟨rfl, by omega⟩] at this
    rw [heq] at this
    rw [has_without_self (b.cell cell) v (by omega)] at this
    cases this
  · rintro ⟨⟨hr, hl, ha⟩, hne⟩
    refine ⟨by rw [hdata]; exact hr, by rw [hdata]; exact hl, ?_⟩
    intro c hc
    rw [hdata] at hc
    rw [hcellc c]
    rcases Decidable.em (cell = c ∧ cell < b.cells.board.length) with h | h
    · rw [if_pos h]
      rw [← h.1]
      have hAcell := hr cell (by omega)
      have hAne : A cell ≠ v := hne (by omega)
      rw [has_without_ne (b.cell cell) v (A cell) (by omega) (by omega)]
      exact ha cell (by omega)
    · rw [if_neg h]
      exact ha c hc

/-- When every elimination in the list lands beside the assignment (in
range, different value than assigned), the weak-link loop succeeds and the
assignment stays admitted. -/
theorem awl_admits (L : List Nat) : ∀ (b : Board) (A : Nat → Nat),
    b.cells.board.length = b.data.numCells → b.data.size ≤ 31 →
    admits b A → valsInRange b.data A →
    (∀ cand ∈ L, cellOfCand b.data.size cand < b.data.numCells ∧
      valOfCand b.data.size cand ≠ A (cellOfCand b.data.size cand)) →
    (Board.applyWeakLinks b L).2 = true ∧
      admits (Board.applyWeakLinks b L).1 A := by
  induction L with
  | nil =>
    intro b A _ _ ha _ _
    exact ⟨rfl, ha⟩
  | cons cand rest ih =>
    intro b A hlen hs31 ha hr hL
    obtain ⟨hcellb, hvne⟩ := hL cand (List.mem_cons_self ..)
    unfold Board.applyWeakLinks
    rw [clearCandidate_eq]
    set c2 := cellOfCand b.data.size cand with hc2
    set v2 := valOfCand b.data.size cand with hv2
    have hv2r : 1 ≤ v2 := valOfCand_ge_one ..
    have hA2 := hr c2 hcellb
    have hstill : ValueMask.has ((b.clearValue c2 v2).1.cell c2) (A c2) = true := by
      rw [clearValue_cell]
      rw [if_pos ⟨rfl, by omega⟩]
      rw [has_without_ne _ _ _ (by omega) (by omega)]
      exact ha c2 hcellb
    have hok2 : (b.clearValue c2 v2).2 = true := by
      rw [clearValue_ok]
      have hbit : (ValueMask.without (b.cell c2) v2).testBit (A c2 - 1) = true := by
        have := hstill
        rw [clearValue_cell, if_pos ⟨rfl, by omega⟩, has_eq_testBit] at this
        exact this
      rw [notEmpty_of_bit _ _ (by omega) hbit]
      rfl
    rcases hcv : b.clearValue c2 v2 with ⟨b1, ok⟩
    rw [hcv] at hok2 hstill
    subst hok2
    dsimp only
    apply ih b1 A
    · have := clearValue_length b c2 v2
      rw [hcv] at this
      dsimp only at this
      rw [this]
      have := clearValue_data b c2 v2
      rw [hcv] at this
      rw [this]
      exact hlen
    · have := clearValue_data b c2 v2
      rw [hcv] at this
      rw [this]
      exact hs31
    · intro c hc
      have hd1 : b1.data = b.data := by
        have := clearValue_data b c2 v2
        rw [hcv] at this
        exact this
      rw [hd1] at hc
      rcases Decidable.em (c = c2) with rfl | hne
      · exact hstill
      · have := clearValue_cell b c2 v2 c
        rw [hcv] at this
        dsimp only at this
        rw [this, if_neg (fun hcon => hne hcon.1.symm)]
        exact ha c hc
    · have hd1 : b1.data = b.data := by
        have := clearValue_data b c2 v2
        rw [hcv] at this
        exact this
      rw [hd1]
      exact hr
    · have hd1 : b1.data = b.data := by
        have := clearValue_data b c2 v2
        rw [hcv] at this
        exact this
      rw [hd1]
      exact fun cd hcd => hL cd (List.mem_cons_of_mem _ hcd)

theorem setSolvedMark_length (b : Board) (cell v : Nat) :
    (b.setSolvedMark cell v).cells.board.length = b.cells.board.length := by
  unfold Board.setSolvedMark
  dsimp only
  exact List.length_set ..

/-- Rewriting the board's links through the classic characterization. -/
theorem weakLinks_char_of_hdata (size : Nat) (regions : List Nat) (b : Board)
    (hdata : b.data = (Board.new size regions []).data) (X Y : Nat) :
    (b.data.weakLinks X).testBit Y = true ↔
      (X < size * size * size ∧ Y < size * size * size ∧ X ≠ Y ∧
        (cellOfCand size X = cellOfCand size Y ∨
          (valOfCand size X = valOfCand size Y ∧
            ∃ h ∈ createHouses size regions [],
              cellOfCand size X ∈ h ∧ cellOfCand size Y ∈ h))) := by
  rw [hdata]
  exact classic_hasWeakLink size regions X Y

/-- On a classic board, committing a solution's own value always succeeds
and keeps the solution admitted. -/
theorem setSolved_of_solution (size : Nat) (regions : List Nat) (b : Board)
    (hdata : b.data = (Board.new size regions []).data)
    (hlen : b.cells.board.length = size * size)
    (hs31 : size ≤ 31)
    (A : Nat → Nat) (hsol : isSolution b A)
    (cell : Nat) (hcell : cell < size * size)
    (hns : ValueMask.isSolved (b.cell cell) = false) :
    (b.setSolved cell (A cell)).2 = true ∧
      isSolution (b.setSolved cell (A cell)).1 A := by
  obtain ⟨hr, hl, ha⟩ := hsol
  have hnc : b.data.numCells = size * size := by rw [hdata, boardNew_data_numCells]
  have hsz : b.data.size = size := by rw [hdata, boardNew_data_size]
  have hkons : b.data.constraints = [] := by rw [hdata, boardNew_data_constraints]
  have hhas : ValueMask.has (b.cell cell) (A cell) = true := ha cell (by omega)
  have hrc : 1 ≤ A cell ∧ A cell ≤ size := by have := hr cell (by omega); rw [hsz] at this; exact this
  rw [setSolved_inner_of b cell (A cell) hhas hns]
  unfold Board.setSolvedInner
  dsimp only
  have hd1 : (b.setSolvedMark cell (A cell)).data = b.data := rfl
  have hlen1 : (b.setSolvedMark cell (A cell)).cells.board.length = size * size := by
    rw [setSolvedMark_length]
    exact hlen
  have ha1 : admits (b.setSolvedMark cell (A cell)) A := by
    intro c hc
    rw [show (b.setSolvedMark cell (A cell)).data = b.data from rfl] at hc
    rw [setSolvedMark_cell]
    rcases Decidable.em (cell = c ∧ cell < b.cells.board.length) with h | h
    · rw [if_pos h]
      rw [← h.1]
      rw [has_eq_testBit, testBit_solvedOp, testBit_withOnly]
      rw [has_eq_testBit] at hhas
      rw [hhas]
      simp
    · rw [if_neg h]
      exact ha c hc
  have hLcond : ∀ cand ∈ bitIndicesFrom b.data.numCandidates
      (b.data.weakLinks (candOf b.data.size cell (A cell))) 0,
      cellOfCand (b.setSolvedMark cell (A cell)).data.size cand <
        (b.setSolvedMark cell (A cell)).data.numCells ∧
      valOfCand (b.setSolvedMark cell (A cell)).data.size cand ≠
        A (cellOfCand (b.setSolvedMark cell (A cell)).data.size cand) := by
    intro cand hmem
    rw [mem_bitIndicesFrom] at hmem
    obtain ⟨j, hcj, hj, hbit⟩ := hmem
    have hcj0 : cand = j := by omega
    subst hcj0
    rw [hsz] at hbit
    have hchar := (weakLinks_char_of_hdata size regions b hdata
      (candOf size cell (A cell)) cand).mp hbit
    obtain ⟨hX, hY, hne, -⟩ := hchar
    rw [hd1, hsz, hnc]
    have hc2 : cellOfCand size cand < size * size := cellOfCand_lt size cand hY
    refine ⟨hc2, ?_⟩
    intro hveq
    have hcand : cand = candOf size (cellOfCand size cand) (A (cellOfCand size cand)) := by
      rw [← hveq]
      rw [candOf_cellOfCand]
    rcases Decidable.em (cellOfCand size cand = cell) with hsame | hdiff
    · apply hne
      rw [hcand, hsame]
    · have := hl cell (cellOfCand size cand) (by omega) (by omega)
        (fun he => hdiff he.symm)
      rw [hsz] at this
      rw [← hcand] at this
      rw [hbit] at this
      cases this
  obtain ⟨hok, ha2⟩ := awl_admits _ (b.setSolvedMark cell (A cell)) A
    (by rw [hlen1, hd1, hnc]) (by rw [hd1, hsz]; exact hs31) ha1
    (by rw [hd1]; exact hr) hLcond
  rcases hawl : Board.applyWeakLinks (b.setSolvedMark cell (A cell))
      (bitIndicesFrom b.data.numCandidates
        (b.data.weakLinks (candOf b.data.size cell (A cell))) 0) with ⟨b2, ok⟩
  rw [hawl] at hok ha2
  dsimp only at hok
  subst hok
  dsimp only
  have hd2 : b2.data = b.data := by
    have := awl_data (b.setSolvedMark cell (A cell))
      (bitIndicesFrom b.data.numCandidates
        (b.data.weakLinks (candOf b.data.size cell (A cell))) 0)
    rw [hawl] at this
    exact this
  rw [hkons]
  refine ⟨rfl, by rw [hd2]; exact hr, by rw [hd2]; exact hl, ?_⟩
  intro c hc
  exact ha2 c hc

/-- Conversely: a solution of a successfully committed board is a solution
of the original board taking the committed value there. -/
theorem isSolution_setSolved_rev (b : Board) (cell v : Nat) (A : Nat → Nat)
    (hsz : 0 < b.data.size) (hs31 : b.data.size ≤ 31) (hm : b.cell cell < 2 ^ 32)
    (hv : 1 ≤ v)
    (hok : (b.setSolved cell v).2 = true)
    (hcell : cell < b.data.numCells)
    (hsol : isSolution (b.setSolved cell v).1 A) :
    isSolution b A ∧ A cell = v := by
  obtain ⟨hr, hl, ha⟩ := hsol
  have hdat := setSolved_data b cell v
  rw [hdat] at hr hl
  have hab : admits b A := by
    intro c hc
    have := ha c (by rw [hdat]; exact hc)
    rw [has_eq_testBit] at this ⊢
    have hAc := hr c hc
    exact setSolved_mono b cell v c _ (by omega) this
  refine ⟨⟨hr, hl, hab⟩, ?_⟩
  have hspec := setSolved_success_spec b cell v hsz hs31 hm hok
  have hmask := hspec.2.2.1
  have hadm := ha cell (by rw [hdat]; exact hcell)
  rw [has_eq_testBit, hmask, testBit_solvedMaskOf] at hadm
  have hAc := hr cell hcell
  rcases Bool.or_eq_true_iff.mp hadm with h31 | hval
  · exfalso
    have : 31 = A cell - 1 := by simpa using h31
    omega
  · have : v - 1 = A cell - 1 := by simpa using hval
    omega

/-! ## The reachable-state invariant of the classic search -/

/-- A well-formed classic board state: classic metadata, full cell vector,
masks within `1..=size` (plus the flag), solved cells holding exactly their
committed value, committed candidates' weak links all eliminated, and a
truthful solved counter.  All boards the brute-force search manipulates
satisfy it. -/
def GoodB (size : Nat) (regions : List Nat) (b : Board) : Prop :=
  b.data = (Board.new size regions []).data ∧
  b.cells.board.length = size * size ∧
  (∀ c, c < size * size → ∀ k, (b.cell c).testBit k = true → k = 31 ∨ k < size) ∧
  (∀ c, c < size * size → ValueMask.isSolved (b.cell c) = true →
    ∃ v, 1 ≤ v ∧ v ≤ size ∧ b.cell c = solvedMaskOf v) ∧
  (∀ c, c < size * size → ∀ v, 1 ≤ v → v ≤ size → b.cell c = solvedMaskOf v →
    ∀ B, (b.data.weakLinks (candOf size c v)).testBit B = true →
      ValueMask.has (b.cell (cellOfCand size B)) (valOfCand size B) = false) ∧
  b.cells.solvedCount =
    ((List.range (size * size)).filter (fun c => ValueMask.isSolved (b.cell c))).length ∧
  0 < size ∧ size ≤ 31

theorem isSolved_eq_false_of_bit31 (m : Nat) (h : m.testBit 31 = false) :
    ValueMask.isSolved m = false := by
  rw [isSolved_eq_testBit, h]

theorem solvedMaskOf_isSolved (v : Nat) : ValueMask.isSolved (solvedMaskOf v) = true := by
  rw [isSolved_eq_testBit, testBit_solvedMaskOf]
  simp

theorem fromAllValues_testBit (size k : Nat) :
    (ValueMask.fromAllValues size).testBit k = decide (k < size) := by
  unfold ValueMask.fromAllValues
  exact Nat.testBit_two_pow_sub_one ..

theorem GoodB_boardNew (size : Nat) (regions : List Nat) (hs : 0 < size)
    (hs31 : size ≤ 31) : GoodB size regions (Board.new size regions []) := by
  have hcells : ∀ c, (Board.new size regions []).cell c =
      if c < size * size then ValueMask.fromAllValues size else 0 := by
    intro c
    unfold Board.new
    dsimp only
    rw [show (initWeakLinks size (createHouses size regions [])
      (([] : List Constraint).flatMap (fun k => k.getWeakLinks size))).2 = [] from rfl]
    show (List.replicate (size * size) (ValueMask.fromAllValues size)).getD c 0 = _
    rcases Decidable.em (c < size * size) with h | h
    · rw [if_pos h, List.getD_eq_getElem?_getD, List.getElem?_replicate, if_pos h]
      rfl
    · rw [if_neg h, List.getD_eq_default _ _ (by simpa using h)]
  have hlen : (Board.new size regions []).cells.board.length = size * size := by
    unfold Board.new
    dsimp only
    show (List.replicate (size * size) (ValueMask.fromAllValues size)).length = _
    exact List.length_replicate ..
  have hflag : ∀ c, c < size * size →
      ValueMask.isSolved ((Board.new size regions []).cell c) = false := by
    intro c hc
    rw [hcells c, if_pos hc]
    apply isSolved_eq_false_of_bit31
    rw [fromAllValues_testBit]
    have : ¬ (31 < size) := by omega
    simp [this]
  refine ⟨rfl, hlen, ?_, ?_, ?_, ?_, hs, hs31⟩
  · intro c hc k hk
    rw [hcells c, if_pos hc, fromAllValues_testBit] at hk
    right
    simpa using hk
  · intro c hc hsolved
    rw [hflag c hc] at hsolved
    cases hsolved
  · intro c hc v hv1 hv2 hmask
    exfalso
    have := hflag c hc
    rw [hmask, solvedMaskOf_isSolved] at this
    cases this
  · have hcount : (Board.new size regions []).cells.solvedCount = 0 := by
      unfold Board.new
      dsimp only
      rfl
    rw [hcount]
    have : (List.range (size * size)).filter
        (fun c => ValueMask.isSolved ((Board.new size regions []).cell c)) = [] := by
      rw [List.filter_eq_nil_iff]
      intro c hc
      rw [List.mem_range] at hc
      rw [hflag c hc]
      simp
    rw [this]
    rfl

theorem awl_length (b : Board) (L : List Nat) :
    (Board.applyWeakLinks b L).1.cells.board.length = b.cells.board.length := by
  induction L generalizing b with
  | nil => rfl
  | cons c rest ih =>
    unfold Board.applyWeakLinks
    rcases h : Board.clearCandidate b c with ⟨b1, ok⟩
    have hl : b1.cells.board.length = b.cells.board.length := by
      rw [clearCandidate_eq] at h
      have := clearValue_length b (cellOfCand b.data.size c) (valOfCand b.data.size c)
      rw [h] at this
      exact this
    cases ok
    · simpa using hl
    · dsimp only
      rw [ih b1]
      exact hl

theorem testBit31_without (m v : Nat) (hv : v ≤ 31) (hv1 : 1 ≤ v) :
    (ValueMask.without m v).testBit 31 = m.testBit 31 := by
  rw [testBit_without]
  have h1 : ¬(31 = v - 1) := by omega
  simp [h1]

theorem clearValue_bit31 (b : Board) (cell v c : Nat) (hv : v ≤ 31) (hv1 : 1 ≤ v) :
    ((b.clearValue cell v).1.cell c).testBit 31 = (b.cell c).testBit 31 := by
  rw [clearValue_cell]
  rcases Decidable.em (cell = c ∧ cell < b.cells.board.length) with h | h
  · rw [if_pos h, ← h.1]
    exact testBit31_without _ _ hv hv1
  · rw [if_neg h]

theorem awl_bit31 (L : List Nat) : ∀ b : Board, 0 < b.data.size → b.data.size ≤ 31 →
    ∀ c, ((Board.applyWeakLinks b L).1.cell c).testBit 31 = (b.cell c).testBit 31 := by
  induction L with
  | nil => intro b _ _ c; rfl
  | cons cand rest ih =>
    intro b hsz hs31 c
    unfold Board.applyWeakLinks
    rcases h : Board.clearCandidate b cand with ⟨b1, ok⟩
    have hv2 : valOfCand b.data.size cand ≤ 31 := by
      have := valOfCand_le_size b.data.size cand hsz
      omega
    have hb1 : (b1.cell c).testBit 31 = (b.cell c).testBit 31 := by
      rw [clearCandidate_eq] at h
      have := clearValue_bit31 b (cellOfCand b.data.size cand)
        (valOfCand b.data.size cand) c hv2 (valOfCand_ge_one ..)
      rw [h] at this
      exact this
    have hd1 : b1.data = b.data := by
      rw [clearCandidate_eq] at h
      have := clearValue_data b (cellOfCand b.data.size cand) (valOfCand b.data.size cand)
      rw [h] at this
      exact this
    cases ok
    · simpa using hb1
    · rw [← hb1]
      exact ih b1 (by rw [hd1]; exact hsz) (by rw [hd1]; exact hs31) c

theorem setSolved_length (b : Board) (cell v : Nat) :
    (b.setSolved cell v).1.cells.board.length = b.cells.board.length := by
  unfold Board.setSolved Board.setSolvedInner
  cases ValueMask.has (b.cell cell) v
  · rfl
  · cases ValueMask.isSolved (b.cell cell)
    · dsimp only
      rcases hawl : Board.applyWeakLinks (b.setSolvedMark cell v)
          (bitIndicesFrom b.data.numCandidates
            (b.data.weakLinks (candOf b.data.size cell v)) 0) with ⟨b2, ok⟩
      have h1 := awl_length (b.setSolvedMark cell v)
        (bitIndicesFrom b.data.numCandidates
          (b.data.weakLinks (candOf b.data.size cell v)) 0)
      rw [hawl] at h1
      dsimp only at h1
      rw [setSolvedMark_length] at h1
      cases ok
      · rw [if_neg (by simp), if_neg (by simp)]
        exact h1
      · rw [if_neg (by simp), if_neg (by simp)]
        exact h1
    · rfl

/-- Away from the committed cell, `set_solved` only removes bits. -/
theorem setSolved_bit31_other (b : Board) (cell v c : Nat) (hsz : 0 < b.data.size)
    (hs31 : b.data.size ≤ 31) (hne : cell ≠ c) :
    ((b.setSolved cell v).1.cell c).testBit 31 = (b.cell c).testBit 31 := by
  unfold Board.setSolved Board.setSolvedInner
  cases ValueMask.has (b.cell cell) v
  · rfl
  · cases ValueMask.isSolved (b.cell cell)
    · dsimp only
      rcases hawl : Board.applyWeakLinks (b.setSolvedMark cell v)
          (bitIndicesFrom b.data.numCandidates
            (b.data.weakLinks (candOf b.data.size cell v)) 0) with ⟨b2, ok⟩
      have h1 := awl_bit31 (bitIndicesFrom b.data.numCandidates
          (b.data.weakLinks (candOf b.data.size cell v)) 0)
        (b.setSolvedMark cell v) hsz hs31 c
      rw [hawl] at h1
      dsimp only at h1
      rw [setSolvedMark_cell, if_neg (fun hcon => hne hcon.1)] at h1
      cases ok
      · rw [if_neg (by simp), if_neg (by simp)]
        exact h1
      · rw [if_neg (by simp), if_neg (by simp)]
        exact h1
    · rfl

theorem setSolved_cell_other_mono (b : Board) (cell v c k : Nat) (hne : cell ≠ c)
    (hbit : ((b.setSolved cell v).1.cell c).testBit k = true) :
    (b.cell c).testBit k = true := by
  revert hbit
  unfold Board.setSolved Board.setSolvedInner
  cases ValueMask.has (b.cell cell) v
  · exact id
  · cases ValueMask.isSolved (b.cell cell)
    · dsimp only
      rcases hawl : Board.applyWeakLinks (b.setSolvedMark cell v)
          (bitIndicesFrom b.data.numCandidates
            (b.data.weakLinks (candOf b.data.size cell v)) 0) with ⟨b2, ok⟩
      have h1 := awl_mono (b.setSolvedMark cell v)
        (bitIndicesFrom b.data.numCandidates
          (b.data.weakLinks (candOf b.data.size cell v)) 0) c k
      rw [hawl] at h1
      dsimp only at h1
      rw [setSolvedMark_cell, if_neg (fun hcon => hne hcon.1)] at h1
      cases ok
      · rw [if_neg (by simp), if_neg (by simp)]
        exact h1
      · rw [if_neg (by simp), if_neg (by simp)]
        exact h1
    · exact id

theorem countP_update (p q : Nat → Bool) (i : Nat) : ∀ n : Nat, i < n →
    p i = false → q i = true → (∀ j, j ≠ i → p j = q j) →
    (List.range n).countP q = (List.range n).countP p + 1 := by
  intro n
  induction n with
  | zero => omega
  | succ m ih =>
    intro hi hpi hqi hagree
    rw [List.range_succ, List.countP_append, List.countP_append]
    rcases Decidable.em (i = m) with rfl | hne
    · have heq : (List.range i).countP p = (List.range i).countP q := by
        apply List.countP_congr
        intro j hj
        rw [List.mem_range] at hj
        rw [hagree j (by omega)]
      have h1 : List.countP q [i] = 1 := by simp [List.countP_cons, hqi]
      have h0 : List.countP p [i] = 0 := by simp [List.countP_cons, hpi]
      rw [← heq, h1, h0]
    · rw [ih (by omega) hpi hqi hagree]
      have heq : List.countP q [m] = List.countP p [m] := by
        simp only [List.countP_cons, List.countP_nil]
        rw [hagree m (fun h => hne h.symm)]
      omega

theorem exists_testBit_of_ne_zero (n : Nat) (h : n ≠ 0) : ∃ k, n.testBit k = true := by
  by_contra hall
  push_neg at hall
  apply h
  apply Nat.eq_of_testBit_eq
  intro k
  rw [Nat.zero_testBit]
  exact Bool.eq_false_iff.mpr (hall k)

theorem mask_lt_u32 (m : Nat) (h : ∀ k, m.testBit k = true → k < 32) : m < 2 ^ 32 := by
  have hand : m &&& u32All = m := by
    apply Nat.eq_of_testBit_eq
    intro k
    rw [Nat.testBit_land, testBit_u32All]
    rcases hb : m.testBit k with _ | _
    · simp
    · simp [h k hb]
  calc m = m &&& u32All := hand.symm
    _ ≤ u32All := Nat.and_le_right
    _ < 2 ^ 32 := by unfold u32All; omega

/-- A successful weak-link pass never empties a cell that had candidates. -/
theorem awl_nonempty (L : List Nat) : ∀ b : Board,
    (Board.applyWeakLinks b L).2 = true → ∀ c,
    ValueMask.isEmpty (b.cell c) = false →
    ValueMask.isEmpty ((Board.applyWeakLinks b L).1.cell c) = false := by
  induction L with
  | nil => intro b _ c hc; exact hc
  | cons cand rest ih =>
    intro b hok c hc
    unfold Board.applyWeakLinks at hok ⊢
    rcases h : Board.clearCandidate b cand with ⟨b1, ok⟩
    rw [h] at hok
    cases ok
    · cases hok
    · dsimp only at hok ⊢
      apply ih b1 hok
      rw [clearCandidate_eq] at h
      have hok1 : (b.clearValue (cellOfCand b.data.size cand)
          (valOfCand b.data.size cand)).2 = true := by rw [h]
      have hcell := clearValue_cell b (cellOfCand b.data.size cand)
        (valOfCand b.data.size cand) c
      rw [h] at hcell
      dsimp only at hcell
      rw [clearValue_ok] at hok1
      rcases Decidable.em (cellOfCand b.data.size cand = c ∧
          cellOfCand b.data.size cand < b.cells.board.length) with hcc | hcc
      · rw [hcell, if_pos hcc]
        rcases he : ValueMask.isEmpty (ValueMask.without
            (b.cell (cellOfCand b.data.size cand)) (valOfCand b.data.size cand)) with _ | _
        · rfl
        · rw [he] at hok1
          cases hok1
      · rw [hcell, if_neg hcc]
        exact hc

/-- A successful `set_solved` of an in-range value never empties a cell
that had candidates. -/
theorem setSolved_nonempty (b : Board) (cell v c : Nat)
    (hv1 : 1 ≤ v) (hv31 : v ≤ 31)
    (hok : (b.setSolved cell v).2 = true)
    (hc : ValueMask.isEmpty (b.cell c) = false) :
    ValueMask.isEmpty ((b.setSolved cell v).1.cell c) = false := by
  rcases hhas : ValueMask.has (b.cell cell) v with _ | _
  · rw [setSolved_not_has b cell v hhas] at hok
    cases hok
  rcases hns : ValueMask.isSolved (b.cell cell) with _ | _
  case true =>
    rw [setSolved_already_solved b cell v hns] at hok
    cases hok
  rw [setSolved_inner_of b cell v hhas hns] at hok ⊢
  unfold Board.setSolvedInner at hok ⊢
  dsimp only at hok ⊢
  rcases hawl : Board.applyWeakLinks (b.setSolvedMark cell v)
      (bitIndicesFrom b.data.numCandidates
        (b.data.weakLinks (candOf b.data.size cell v)) 0) with ⟨b2, ok⟩
  rw [hawl] at hok
  have hmark : ValueMask.isEmpty ((b.setSolvedMark cell v).cell c) = false := by
    rw [setSolvedMark_cell]
    rcases Decidable.em (cell = c ∧ cell < b.cells.board.length) with hcc | hcc
    · rw [if_pos hcc]
      have hbit : (ValueMask.solved (ValueMask.withOnly (b.cell cell) v)).testBit (v - 1) =
          true := by
        rw [testBit_solvedOp, testBit_withOnly]
        rw [has_eq_testBit] at hhas
        simp [hhas]
      exact notEmpty_of_bit _ _ (by omega) hbit
    · rw [if_neg hcc]
      exact hc
  cases ok
  · cases hok
  · dsimp only
    have := awl_nonempty (bitIndicesFrom b.data.numCandidates
        (b.data.weakLinks (candOf b.data.size cell v)) 0)
      (b.setSolvedMark cell v) (by rw [hawl]) c hmark
    rw [hawl] at this
    exact this

theorem eq_solvedMaskOf_of (m w : Nat) (_hw1 : 1 ≤ w) (_hw31 : w ≤ 31)
    (hsub : ∀ k, m.testBit k = true → (solvedMaskOf w).testBit k = true)
    (h31 : m.testBit 31 = true) (hne : ValueMask.isEmpty m = false) :
    m = solvedMaskOf w := by
  have hvb : ValueMask.valueBits m ≠ 0 := by
    intro hz
    rw [(isEmpty_eq m).mpr hz] at hne
    cases hne
  obtain ⟨k, hk⟩ := exists_testBit_of_ne_zero _ hvb
  have hkk := testBit_valueBits m k
  rw [hk] at hkk
  have hmk : m.testBit k = true ∧ k < 31 := by
    have h2 := hkk.symm
    rw [Bool.and_eq_true] at h2
    exact ⟨h2.1, of_decide_eq_true h2.2⟩
  have hkw : k = w - 1 := by
    have := hsub k hmk.1
    rw [testBit_solvedMaskOf] at this
    rcases Bool.or_eq_true_iff.mp this with h1 | h2
    · exfalso
      have : 31 = k := by simpa using h1
      omega
    · have : w - 1 = k := by simpa using h2
      omega
  apply Nat.eq_of_testBit_eq
  intro j
  rw [testBit_solvedMaskOf]
  rcases Decidable.em (31 = j) with rfl | h31j
  · rw [h31]
    simp
  · rcases Decidable.em (w - 1 = j) with rfl | hwj
    · rw [← hkw, hmk.1]
      simp
    · rw [decide_eq_false h31j, decide_eq_false hwj]
      rcases hb : m.testBit j with _ | _
      · rfl
      · exfalso
        have := hsub j hb
        rw [testBit_solvedMaskOf] at this
        rcases Bool.or_eq_true_iff.mp this with h1 | h2
        · exact h31j (by simpa using h1)
        · exact hwj (by simpa using h2)

/-- `GoodB` is preserved by clearing an in-range value from an unsolved
cell. -/
theorem GoodB_clearValue (size : Nat) (regions : List Nat) (b : Board)
    (cell v : Nat) (hg : GoodB size regions b) (hv1 : 1 ≤ v) (hv31 : v ≤ 31)
    (hns : ValueMask.isSolved (b.cell cell) = false) :
    GoodB size regions (b.clearValue cell v).1 := by
  obtain ⟨hdata, hlen, hrange, hshape, hpeers, hcount, hs, hs31⟩ := hg
  have hflag : ∀ c, ValueMask.isSolved ((b.clearValue cell v).1.cell c) =
      ValueMask.isSolved (b.cell c) := by
    intro c
    rw [isSolved_eq_testBit, isSolved_eq_testBit, clearValue_bit31 b cell v c hv31 hv1]
  have hmaskne : ∀ c, cell ≠ c → (b.clearValue cell v).1.cell c = b.cell c := by
    intro c hne
    rw [clearValue_cell, if_neg (fun hcon => hne hcon.1)]
  refine ⟨(clearValue_data b cell v).trans hdata, by rw [clearValue_length]; exact hlen,
    ?_, ?_, ?_, ?_, hs, hs31⟩
  · intro c hc k hk
    exact hrange c hc k (clearValue_mono b cell v c k hk)
  · intro c hc hsol
    rw [hflag c] at hsol
    rcases Decidable.em (cell = c) with rfl | hne
    · rw [hns] at hsol
      cases hsol
    · rw [hmaskne c hne]
      exact hshape c hc hsol
  · intro c hc v' hv'1 hv'2 hmask B hbit
    have hsolc : ValueMask.isSolved ((b.clearValue cell v).1.cell c) = true := by
      rw [hmask, solvedMaskOf_isSolved]
    have hnec : cell ≠ c := by
      intro hcc
      rw [hflag c, ← hcc, hns] at hsolc
      cases hsolc
    rw [hmaskne c hnec] at hmask
    rw [clearValue_data] at hbit
    have hold := hpeers c hc v' hv'1 hv'2 hmask B hbit
    rcases hb : ValueMask.has ((b.clearValue cell v).1.cell (cellOfCand size B))
        (valOfCand size B) with _ | _
    · rfl
    · exfalso
      rw [has_eq_testBit] at hb hold
      rw [clearValue_mono b cell v _ _ hb] at hold
      cases hold
  · rw [clearValue_solvedCount, hcount]
    congr 1
    apply List.filter_congr
    intro c _
    rw [hflag c]

/-- `GoodB` is preserved by a successful `set_solved` of an in-range value
in an in-range cell. -/
theorem GoodB_setSolved (size : Nat) (regions : List Nat) (b : Board)
    (cell v : Nat) (hg : GoodB size regions b) (hv1 : 1 ≤ v) (hv2 : v ≤ size)
    (hcell : cell < size * size) (hok : (b.setSolved cell v).2 = true) :
    GoodB size regions (b.setSolved cell v).1 := by
  obtain ⟨hdata, hlen, hrange, hshape, hpeers, hcount, hs, hs31⟩ := hg
  have hszeq : b.data.size = size := by rw [hdata, boardNew_data_size]
  have hncand : b.data.numCandidates = size * (size * size) := by
    rw [hdata, boardNew_data_numCandidates]
  have hm : b.cell cell < 2 ^ 32 := by
    apply mask_lt_u32
    intro k hk
    have := hrange cell hcell k hk
    omega
  have hspec := setSolved_success_spec b cell v (by omega) (by omega) hm hok
  have hmaskcell : (b.setSolved cell v).1.cell cell = solvedMaskOf v := hspec.2.2.1
  have hflagne : ∀ c, cell ≠ c →
      ValueMask.isSolved ((b.setSolved cell v).1.cell c) =
        ValueMask.isSolved (b.cell c) := by
    intro c hne
    rw [isSolved_eq_testBit, isSolved_eq_testBit,
      setSolved_bit31_other b cell v c (by omega) (by omega) hne]
  have hnsold : ValueMask.isSolved (b.cell cell) = false := hspec.2.1
  have hshape2 : ∀ c, c < size * size →
      ValueMask.isSolved ((b.setSolved cell v).1.cell c) = true →
      ∃ w, 1 ≤ w ∧ w ≤ size ∧ (b.setSolved cell v).1.cell c = solvedMaskOf w := by
    intro c hc hsol
    rcases Decidable.em (cell = c) with rfl | hne
    · exact ⟨v, hv1, hv2, hmaskcell⟩
    · rw [hflagne c hne] at hsol
      obtain ⟨w, hw1, hw2, hwmask⟩ := hshape c hc hsol
      refine ⟨w, hw1, hw2, ?_⟩
      apply eq_solvedMaskOf_of _ _ hw1 (by omega)
      · intro k hk
        rw [← hwmask]
        exact setSolved_cell_other_mono b cell v c k hne hk
      · rw [setSolved_bit31_other b cell v c (by omega) (by omega) hne]
        rw [hwmask, testBit_solvedMaskOf]
        simp
      · apply setSolved_nonempty b cell v c hv1 (by omega) hok
        apply notEmpty_of_bit _ (w - 1) (by omega)
        rw [hwmask, testBit_solvedMaskOf]
        simp
  refine ⟨(setSolved_data b cell v).trans hdata, by rw [setSolved_length]; exact hlen,
    ?_, hshape2, ?_, ?_, hs, hs31⟩
  · intro c hc k hk
    rcases Decidable.em (cell = c) with rfl | hne
    · rw [hmaskcell, testBit_solvedMaskOf] at hk
      rcases Bool.or_eq_true_iff.mp hk with h1 | h2
      · left
        have : 31 = k := by simpa using h1
        omega
      · right
        have : v - 1 = k := by simpa using h2
        omega
    · exact hrange c hc k (setSolved_cell_other_mono b cell v c k hne hk)
  · intro c hc v' hv'1 hv'2 hmask B hbit
    rw [setSolved_data] at hbit
    rcases Decidable.em (cell = c) with rfl | hne
    · have hveq : v' = v := by
        rw [hmaskcell] at hmask
        have := congrArg (fun n => n.testBit (v' - 1)) hmask.symm
        dsimp only at this
        rw [testBit_solvedMaskOf, testBit_solvedMaskOf] at this
        have h1 : (decide (31 = v' - 1) || decide (v' - 1 = v' - 1)) = true := by simp
        rw [h1] at this
        rcases Bool.or_eq_true_iff.mp this.symm with ha | hb
        · exfalso
          have : 31 = v' - 1 := by simpa using ha
          omega
        · have : v - 1 = v' - 1 := by simpa using hb
          omega
      subst hveq
      have hBlt : B < b.data.numCandidates := by
        have := (weakLinks_char_of_hdata size regions b hdata
          (candOf size cell v') B).mp (by rw [← hszeq] at hbit ⊢; exact hbit)
        rw [hncand]
        have h2 : size * (size * size) = size * size * size := by ring
        omega
      have := hspec.2.2.2.2.2.1 B (by rw [hszeq]; exact hbit) hBlt
      rw [hasCandidate_eq] at this
      rw [setSolved_data, hszeq] at this
      rw [has_eq_testBit]
      exact this
    · obtain ⟨w, hw1, hw2, hwmask⟩ := hshape c hc (by
        have hsolc : ValueMask.isSolved ((b.setSolved cell v).1.cell c) = true := by
          rw [hmask, solvedMaskOf_isSolved]
        rw [hflagne c hne] at hsolc
        exact hsolc)
      have hveq : v' = w := by
        have hmeq : (b.setSolved cell v).1.cell c = solvedMaskOf w := by
          apply eq_solvedMaskOf_of _ _ hw1 (by omega)
          · intro k hk
            rw [← hwmask]
            exact setSolved_cell_other_mono b cell v c k hne hk
          · rw [setSolved_bit31_other b cell v c (by omega) (by omega) hne]
            rw [hwmask, testBit_solvedMaskOf]
            simp
          · apply setSolved_nonempty b cell v c hv1 (by omega) hok
            apply notEmpty_of_bit _ (w - 1) (by omega)
            rw [hwmask, testBit_solvedMaskOf]
            simp
        rw [hmask] at hmeq
        have := congrArg (fun n => n.testBit (v' - 1)) hmeq
        dsimp only at this
        rw [testBit_solvedMaskOf, testBit_solvedMaskOf] at this
        have h1 : (decide (31 = v' - 1) || decide (v' - 1 = v' - 1)) = true := by simp
        rw [h1] at this
        rcases Bool.or_eq_true_iff.mp this.symm with ha | hb
        · exfalso
          have : 31 = v' - 1 := by simpa using ha
          omega
        · have : w - 1 = v' - 1 := by simpa using hb
          omega
      subst hveq
      have hold := hpeers c hc v' hw1 hw2 hwmask B hbit
      rcases Decidable.em (cellOfCand size B = cell) with hbc | hbc
      · -- the linked candidate sits in the newly committed cell
        rw [hbc, hmaskcell, has_eq_testBit, testBit_solvedMaskOf]
        have hvB1 : 1 ≤ valOfCand size B := valOfCand_ge_one ..
        have hvB2 : valOfCand size B ≤ size := valOfCand_le_size size B hs
        have hvBneqv : valOfCand size B ≠ v := by
          intro heq
          have hhasold := hspec.1
          rw [← heq] at hhasold
          rw [← hbc] at hhasold
          rw [hold] at hhasold
          cases hhasold
        have h31 : ¬(31 = valOfCand size B - 1) := by omega
        have hvv : ¬(v - 1 = valOfCand size B - 1) := by omega
        rw [decide_eq_false h31, decide_eq_false hvv]
        rfl
      · rcases hb : ValueMask.has ((b.setSolved cell v).1.cell (cellOfCand size B))
            (valOfCand size B) with _ | _
        · rfl
        · exfalso
          rw [has_eq_testBit] at hb hold
          rw [setSolved_cell_other_mono b cell v _ _ (fun hcc => hbc hcc.symm) hb]
            at hold
          cases hold
  · rw [hspec.2.2.2.1, hcount]
    rw [← List.countP_eq_length_filter, ← List.countP_eq_length_filter]
    refine (countP_update _ _ cell _ hcell hnsold ?_ ?_).symm
    · rw [isSolved_eq_testBit, hmaskcell, testBit_solvedMaskOf]
      simp
    · intro j hj
      exact (hflagne j (fun hcc => hj hcc.symm)).symm

/-! ## Mask arithmetic: single bits, trailing zeros, iteration -/

theorem and_pred_bits (n : Nat) (hand : n &&& (n - 1) = 0) :
    ∀ j j', n.testBit j = true → n.testBit j' = true → j = j' := by
  induction n using Nat.strong_induction_on with
  | _ n ih =>
    intro j j' hj hj'
    rcases Nat.eq_zero_or_pos n with rfl | hn
    · rw [Nat.zero_testBit] at hj
      cases hj
    rcases Nat.even_or_odd n with he | ho
    · -- even
      obtain ⟨m, hm⟩ := he
      have hm2 : n = 2 * m := by omega
      have hmpos : 0 < m := by omega
      have hbit : ∀ k, n.testBit (k + 1) = m.testBit k := by
        intro k
        rw [Nat.testBit_succ]
        congr 1
        omega
      have hbit1 : ∀ k, (n - 1).testBit (k + 1) = (m - 1).testBit k := by
        intro k
        rw [Nat.testBit_succ]
        congr 1
        omega
      have hand2 : m &&& (m - 1) = 0 := by
        apply Nat.eq_of_testBit_eq
        intro k
        rw [Nat.zero_testBit]
        have := congrArg (fun x => x.testBit (k + 1)) hand
        dsimp only at this
        rw [Nat.testBit_land, hbit, hbit1, Nat.zero_testBit] at this
        rw [Nat.testBit_land]
        exact this
      have hb0 : n.testBit 0 = false := by
        rw [Nat.testBit_zero]
        simp
        omega
      have hjpos : 0 < j := by
        rcases Nat.eq_zero_or_pos j with rfl | h
        · rw [hb0] at hj; cases hj
        · exact h
      have hj'pos : 0 < j' := by
        rcases Nat.eq_zero_or_pos j' with rfl | h
        · rw [hb0] at hj'; cases hj'
        · exact h
      have e1 : n.testBit (j - 1 + 1) = true := by rw [show j - 1 + 1 = j by omega]; exact hj
      have e2 : n.testBit (j' - 1 + 1) = true := by
        rw [show j' - 1 + 1 = j' by omega]; exact hj'
      rw [hbit] at e1 e2
      have := ih m (by omega) hand2 (j - 1) (j' - 1) e1 e2
      omega
    · -- odd: only bit 0 can be set
      obtain ⟨m, hm⟩ := ho
      have honly : ∀ k, n.testBit (k + 1) = true → False := by
        intro k hk
        have hpred : (n - 1).testBit (k + 1) = n.testBit (k + 1) := by
          rw [Nat.testBit_succ, Nat.testBit_succ]
          congr 1
          omega
        have := congrArg (fun x => x.testBit (k + 1)) hand
        dsimp only at this
        rw [Nat.testBit_land, hpred, hk, Nat.zero_testBit] at this
        simp at this
      have hz : ∀ k, n.testBit k = true → k = 0 := by
        intro k hk
        rcases k with _ | k2
        · rfl
        · exact absurd hk (fun h => honly k2 h)
      rw [hz j hj, hz j' hj']

theorem isSingle_spec (m : Nat) (h : ValueMask.isSingle m = true) :
    ValueMask.valueBits m ≠ 0 ∧
      ∀ j j', (ValueMask.valueBits m).testBit j = true →
        (ValueMask.valueBits m).testBit j' = true → j = j' := by
  unfold ValueMask.isSingle at h
  rw [Bool.and_eq_true] at h
  refine ⟨by simpa using h.1, ?_⟩
  exact and_pred_bits _ (by simpa using h.2)

theorem tzAux_spec : ∀ (f n k : Nat), k < f → n.testBit k = true →
    (∀ j, j < k → n.testBit j = false) → tzAux f n = k := by
  intro f
  induction f with
  | zero => omega
  | succ f ih =>
    intro n k hk hbit hlow
    unfold tzAux
    rcases hpar : n % 2 == 1 with _ | _
    · rw [if_neg (by simp_all)]
      have hk0 : k ≠ 0 := by
        intro rfl0
        subst rfl0
        rw [Nat.testBit_zero] at hbit
        simp at hbit
        simp at hpar
        omega
      have := ih (n / 2) (k - 1) (by omega) (by
          have := hbit
          rw [show k = k - 1 + 1 by omega, Nat.testBit_succ] at this
          exact this)
        (by
          intro j hj
          have := hlow (j + 1) (by omega)
          rw [Nat.testBit_succ] at this
          exact this)
      omega
    · rw [if_pos (by simp_all)]
      rcases Nat.eq_zero_or_pos k with rfl | hkp
      · rfl
      · exfalso
        have := hlow 0 hkp
        rw [Nat.testBit_zero] at this
        simp at this
        simp at hpar
        omega

theorem value_of_single_has (m w : Nat) (hs : ValueMask.isSingle m = true)
    (hw1 : 1 ≤ w) (hw31 : w ≤ 31) (hhas : ValueMask.has m w = true) :
    ValueMask.value m = w := by
  obtain ⟨-, huniq⟩ := isSingle_spec m hs
  have hvb : (ValueMask.valueBits m).testBit (w - 1) = true := by
    rw [testBit_valueBits]
    rw [has_eq_testBit] at hhas
    simp [hhas]
    omega
  unfold ValueMask.value
  rw [tzAux_spec 32 _ (w - 1) (by omega) hvb ?_]
  · omega
  · intro j hj
    rcases hb : (ValueMask.valueBits m).testBit j with _ | _
    · rfl
    · exact absurd (huniq j (w - 1) hb hvb) (by omega)

theorem tzAux_bit : ∀ (f n : Nat), n ≠ 0 → n < 2 ^ f →
    n.testBit (tzAux f n) = true ∧ ∀ j, j < tzAux f n → n.testBit j = false := by
  intro f
  induction f with
  | zero => intro n hn hlt; omega
  | succ f ih =>
    intro n hn hlt
    unfold tzAux
    rcases hpar : n % 2 == 1 with _ | _
    · rw [if_neg (by simp_all)]
      have half : n / 2 ≠ 0 := by
        simp at hpar
        omega
      have hhalf2 : n / 2 < 2 ^ f := by
        rw [Nat.pow_succ] at hlt
        omega
      obtain ⟨h1, h2⟩ := ih (n / 2) half hhalf2
      constructor
      · rw [Nat.testBit_succ]
        exact h1
      · intro j hj
        rcases j with _ | j2
        · rw [Nat.testBit_zero]
          simp at hpar ⊢
          omega
        · rw [Nat.testBit_succ]
          exact h2 j2 (by omega)
    · rw [if_pos (by simp_all)]
      constructor
      · rw [Nat.testBit_zero]
        simp at hpar ⊢
        omega
      · omega

/-- `min` really is the smallest candidate of a non-empty mask. -/
theorem minVal_spec (m : Nat) (hne : ValueMask.isEmpty m = false) :
    ValueMask.has m (ValueMask.minVal m) = true ∧
      ValueMask.minVal m ≤ 31 ∧ 1 ≤ ValueMask.minVal m ∧
      ∀ w, 1 ≤ w → w ≤ 31 → ValueMask.has m w = true → ValueMask.minVal m ≤ w := by
  have hvb : ValueMask.valueBits m ≠ 0 := by
    intro hz
    rw [(isEmpty_eq m).mpr hz] at hne
    cases hne
  have hlt : ValueMask.valueBits m < 2 ^ 32 := by
    apply mask_lt_u32
    intro k hk
    have := testBit_valueBits m k
    rw [hk] at this
    have h2 := this.symm
    rw [Bool.and_eq_true] at h2
    have := of_decide_eq_true h2.2
    omega
  obtain ⟨h1, h2⟩ := tzAux_bit 32 (ValueMask.valueBits m) hvb hlt
  have htz31 : tzAux 32 (ValueMask.valueBits m) < 31 := by
    have := testBit_valueBits m (tzAux 32 (ValueMask.valueBits m))
    rw [h1] at this
    have h3 := this.symm
    rw [Bool.and_eq_true] at h3
    have := of_decide_eq_true h3.2
    omega
  have hbits : ∀ k, (ValueMask.valueBits m).testBit k = true → m.testBit k = true := by
    intro k hk
    have := testBit_valueBits m k
    rw [hk] at this
    have h2 := this.symm
    rw [Bool.and_eq_true] at h2
    exact h2.1
  unfold ValueMask.minVal
  refine ⟨?_, by omega, by omega, ?_⟩
  · rw [has_eq_testBit]
    rw [show tzAux 32 (ValueMask.valueBits m) + 1 - 1 = tzAux 32 (ValueMask.valueBits m)
      by omega]
    exact hbits _ h1
  · intro w hw1 hw31 hhas
    by_contra hcon
    have hwlt : w - 1 < tzAux 32 (ValueMask.valueBits m) := by omega
    have := h2 (w - 1) hwlt
    rw [testBit_valueBits] at this
    rw [has_eq_testBit] at hhas
    rw [hhas] at this
    simp at this
    omega

theorem mem_toVals (m v : Nat) :
    v ∈ ValueMask.toVals m ↔
      1 ≤ v ∧ v - 1 < 32 ∧ (ValueMask.valueBits m).testBit (v - 1) = true := by
  unfold ValueMask.toVals
  rw [mem_bitIndicesFrom]
  constructor
  · rintro ⟨j, rfl, hj, hbit⟩
    exact ⟨by omega, by omega, by rw [show 1 + j - 1 = j by omega]; exact hbit⟩
  · rintro ⟨h1, h2, hbit⟩
    exact ⟨v - 1, by omega, by omega, hbit⟩

/-! ## Step-level solution preservation -/

theorem GoodB_numCells (size : Nat) (regions : List Nat) (b : Board)
    (hg : GoodB size regions b) : b.data.numCells = size * size := by
  rw [hg.1, boardNew_data_numCells]

theorem GoodB_size (size : Nat) (regions : List Nat) (b : Board)
    (hg : GoodB size regions b) : b.data.size = size := by
  rw [hg.1, boardNew_data_size]

theorem noSolution_of_empty (size : Nat) (regions : List Nat) (b : Board) (c : Nat)
    (hg : GoodB size regions b) (hc : c < size * size)
    (hemp : ValueMask.isEmpty (b.cell c) = true) : ∀ A, ¬ isSolution b A := by
  intro A hA
  obtain ⟨hr, -, ha⟩ := hA
  have hnc := GoodB_numCells size regions b hg
  have hsz := GoodB_size size regions b hg
  have hhas := ha c (by omega)
  have hAc := hr c (by omega)
  rw [hsz] at hAc
  have hs31 := hg.2.2.2.2.2.2.2
  have hvb : (ValueMask.valueBits (b.cell c)).testBit (A c - 1) = true := by
    rw [testBit_valueBits]
    rw [has_eq_testBit] at hhas
    simp [hhas]
    omega
  have h0 := (isEmpty_eq _).mp hemp
  rw [h0, Nat.zero_testBit] at hvb
  cases hvb

theorem single_forced (size : Nat) (regions : List Nat) (b : Board) (c : Nat)
    (hg : GoodB size regions b) (hc : c < size * size)
    (hsingle : ValueMask.isSingle (b.cell c) = true) :
    (1 ≤ ValueMask.value (b.cell c) ∧ ValueMask.value (b.cell c) ≤ size) ∧
      ∀ A, isSolution b A → A c = ValueMask.value (b.cell c) := by
  have hnc := GoodB_numCells size regions b hg
  have hsz := GoodB_size size regions b hg
  have hs31 := hg.2.2.2.2.2.2.2
  have hrange := hg.2.2.1
  obtain ⟨hne, huniq⟩ := isSingle_spec _ hsingle
  obtain ⟨k, hk⟩ := exists_testBit_of_ne_zero _ hne
  have hk31 : k < 31 ∧ (b.cell c).testBit k = true := by
    have := testBit_valueBits (b.cell c) k
    rw [hk] at this
    have h2 := this.symm
    rw [Bool.and_eq_true] at h2
    exact ⟨of_decide_eq_true h2.2, h2.1⟩
  have hksize : k < size := by
    have := hrange c hc k hk31.2
    omega
  have hval : ValueMask.value (b.cell c) = k + 1 := by
    unfold ValueMask.value
    rw [tzAux_spec 32 _ k (by omega) hk ?_]
    intro j hj
    rcases hb : (ValueMask.valueBits (b.cell c)).testBit j with _ | _
    · rfl
    · exact absurd (huniq j k hb hk) (by omega)
  constructor
  · omega
  · intro A hA
    obtain ⟨hr, -, ha⟩ := hA
    have hAc := hr c (by omega)
    rw [hsz] at hAc
    exact (value_of_single_has (b.cell c) (A c) hsingle (by omega) (by omega)
      (ha c (by omega))).symm

theorem commit_success (size : Nat) (regions : List Nat) (b : Board) (cell v : Nat)
    (b' : Board) (hg : GoodB size regions b) (hcell : cell < size * size)
    (hv1 : 1 ≤ v) (hv2 : v ≤ size)
    (hforced : ∀ A, isSolution b A → A cell = v)
    (heq : b.setSolved cell v = (b', true)) :
    GoodB size regions b' ∧ (∀ A, isSolution b' A ↔ isSolution b A) ∧
      b'.cells.solvedCount = b.cells.solvedCount + 1 := by
  have hok : (b.setSolved cell v).2 = true := by rw [heq]
  have hnc := GoodB_numCells size regions b hg
  have hsz := GoodB_size size regions b hg
  have hs := hg.2.2.2.2.2.2.1
  have hs31 := hg.2.2.2.2.2.2.2
  have hm : b.cell cell < 2 ^ 32 := by
    apply mask_lt_u32
    intro k hk
    have := hg.2.2.1 cell hcell k hk
    omega
  have hGood := GoodB_setSolved size regions b cell v hg hv1 hv2 hcell hok
  rw [heq] at hGood
  have hcount := (setSolved_success_spec b cell v (by omega) (by omega) hm hok).2.2.2.1
  rw [heq] at hcount
  refine ⟨hGood, ?_, hcount⟩
  intro A
  constructor
  · intro hA
    have := isSolution_setSolved_rev b cell v A (by omega) (by omega) hm hv1 hok
      (by omega) (by rw [heq]; exact hA)
    exact this.1
  · intro hA
    have hAv := hforced A hA
    have hns : ValueMask.isSolved (b.cell cell) = false :=
      (setSolved_success_spec b cell v (by omega) (by omega) hm hok).2.1
    have := (setSolved_of_solution size regions b hg.1 hg.2.1 hs31 A hA cell hcell hns).2
    rw [hAv] at this
    rw [heq] at this
    exact this

theorem commit_fail (size : Nat) (regions : List Nat) (b : Board) (cell v : Nat)
    (b' : Board) (hg : GoodB size regions b) (hcell : cell < size * size)
    (hns : ValueMask.isSolved (b.cell cell) = false)
    (hforced : ∀ A, isSolution b A → A cell = v)
    (heq : b.setSolved cell v = (b', false)) : ∀ A, ¬ isSolution b A := by
  intro A hA
  have hs31 := hg.2.2.2.2.2.2.2
  have hAv := hforced A hA
  have := (setSolved_of_solution size regions b hg.1 hg.2.1 hs31 A hA cell hcell hns).1
  rw [hAv, heq] at this
  cases this

theorem ansPass_none (size : Nat) (regions : List Nat) : ∀ (L : List Nat) (b : Board)
    (changed : Bool), GoodB size regions b → (∀ c ∈ L, c < size * size) →
    ansPass b changed L = Option.none → ∀ A, ¬ isSolution b A := by
  intro L
  induction L with
  | nil =>
    intro b changed _ _ h
    unfold ansPass at h
    cases h
  | cons cell rest ih =>
    intro b changed hg hbd h
    have hcell := hbd cell (List.mem_cons_self ..)
    unfold ansPass at h
    dsimp only at h
    split at h
    · exact ih b changed hg (fun c hc => hbd c (List.mem_cons_of_mem _ hc)) h
    · split at h
      next hsingle =>
        obtain ⟨⟨hv1, hv2⟩, hforced⟩ := single_forced size regions b cell hg hcell hsingle
        split at h
        next b1 heq =>
          have hcs := commit_success size regions b cell _ b1 hg hcell hv1 hv2 hforced heq
          intro A hA
          exact absurd ((hcs.2.1 A).mpr hA)
            (fun hA1 => by
              have := ih b1 true hcs.1 (fun c hc => hbd c (List.mem_cons_of_mem _ hc)) h A
              exact this hA1)
        next b1 heq =>
          next hns hsing2 =>
            exact commit_fail size regions b cell _ b1 hg hcell (by simpa using hns)
              hforced heq
      next =>
        split at h
        next hemp =>
          exact noSolution_of_empty size regions b cell hg hcell (by simpa using hemp)
        next =>
          exact ih b changed hg (fun c hc => hbd c (List.mem_cons_of_mem _ hc)) h

theorem ansPass_spec (size : Nat) (regions : List Nat) : ∀ (L : List Nat) (b : Board)
    (changed : Bool) (b' : Board) (ch : Bool),
    GoodB size regions b → (∀ c ∈ L, c < size * size) →
    ansPass b changed L = some (b', ch) →
    GoodB size regions b' ∧
    (∀ A, isSolution b' A ↔ isSolution b A) ∧
    b.cells.solvedCount ≤ b'.cells.solvedCount ∧
    (changed = true → ch = true) ∧
    (ch = false → b' = b ∧ ∀ c ∈ L, ValueMask.isSolved (b.cell c) = true ∨
      (ValueMask.isSingle (b.cell c) = false ∧ ValueMask.isEmpty (b.cell c) = false)) ∧
    (ch = true → changed = false → b.cells.solvedCount < b'.cells.solvedCount) := by
  intro L
  induction L with
  | nil =>
    intro b changed b' ch hg _ h
    unfold ansPass at h
    rw [Option.some.injEq] at h
    injection h with h1 h2
    subst h1
    subst h2
    refine ⟨hg, fun A => Iff.rfl, Nat.le_refl _, fun h => h, ?_, ?_⟩
    · intro _
      exact ⟨rfl, fun c hc => absurd hc (List.not_mem_nil c)⟩
    · intro h1 h2
      rw [h2] at h1
      cases h1
  | cons cell rest ih =>
    intro b changed b' ch hg hbd h
    have hcell := hbd cell (List.mem_cons_self ..)
    have hbd' : ∀ c ∈ rest, c < size * size := fun c hc => hbd c (List.mem_cons_of_mem _ hc)
    unfold ansPass at h
    dsimp only at h
    split at h
    next hsolved =>
      obtain ⟨h1, h2, h3, h4, h5, h6⟩ := ih b changed b' ch hg hbd' h
      refine ⟨h1, h2, h3, h4, ?_, h6⟩
      intro hch
      obtain ⟨hb, hcells⟩ := h5 hch
      refine ⟨hb, ?_⟩
      intro c hc
      rcases List.mem_cons.mp hc with rfl | hc2
      · exact Or.inl hsolved
      · exact hcells c hc2
    · split at h
      next hsingle =>
        obtain ⟨⟨hv1, hv2⟩, hforced⟩ := single_forced size regions b cell hg hcell hsingle
        split at h
        next b1 heq =>
          obtain ⟨hgb1, hsoleq, hcount⟩ :=
            commit_success size regions b cell _ b1 hg hcell hv1 hv2 hforced heq
          obtain ⟨h1, h2, h3, h4, h5, h6⟩ := ih b1 true b' ch hgb1 hbd' h
          have hchtrue : ch = true := h4 rfl
          refine ⟨h1, fun A => (h2 A).trans (hsoleq A), by omega, fun _ => hchtrue,
            ?_, ?_⟩
          · intro hch
            rw [hch] at hchtrue
            cases hchtrue
          · intro _ _
            omega
        next b1 heq => cases h
      next =>
        split at h
        next => cases h
        next hsing2 hemp =>
          obtain ⟨h1, h2, h3, h4, h5, h6⟩ := ih b changed b' ch hg hbd' h
          refine ⟨h1, h2, h3, h4, ?_, h6⟩
          intro hch
          obtain ⟨hb, hcells⟩ := h5 hch
          refine ⟨hb, ?_⟩
          intro c hc
          rcases List.mem_cons.mp hc with rfl | hc2
          · right
            constructor
            · simpa using hsing2
            · simpa using hemp
          · exact hcells c hc2

/-- The fixpoint fact `AllNakedSingles` guarantees on a `None` result:
every cell is committed or keeps at least two candidates. -/
def ansFix (size : Nat) (b : Board) : Prop :=
  ∀ c, c < size * size → ValueMask.isSolved (b.cell c) = true ∨
    (ValueMask.isSingle (b.cell c) = false ∧ ValueMask.isEmpty (b.cell c) = false)

theorem ansLoop_spec (size : Nat) (regions : List Nat) : ∀ (f : Nat) (b : Board)
    (res : StepRes), GoodB size regions b → res ≠ .invalid →
    GoodB size regions (ansLoop b res f).1 ∧
    (∀ A, isSolution (ansLoop b res f).1 A ↔ isSolution b A) ∧
    b.cells.solvedCount ≤ (ansLoop b res f).1.cells.solvedCount ∧
    ((ansLoop b res f).2 = .invalid → ∀ A, ¬ isSolution b A) ∧
    ((ansLoop b res f).2 = .none → res = .none) ∧
    ((ansLoop b res f).2 = .none → 0 < f →
      ((ansLoop b res f).1.isSolved = true ∨ ansFix size (ansLoop b res f).1)) ∧
    ((ansLoop b res f).2 = .changed →
      (res = .changed ∨ b.cells.solvedCount < (ansLoop b res f).1.cells.solvedCount)) := by
  intro f
  induction f with
  | zero =>
    intro b res hg hres
    refine ⟨hg, fun A => Iff.rfl, Nat.le_refl _, ?_, ?_, ?_, ?_⟩
    · intro h
      exact absurd h hres
    · intro h
      exact h
    · intro _ h
      omega
    · intro h
      exact Or.inl h
  | succ f ih =>
    intro b res hg hres
    unfold ansLoop
    split
    next hsolved =>
      refine ⟨hg, fun A => Iff.rfl, Nat.le_refl _, ?_, ?_, ?_, ?_⟩
      · intro h
        exact absurd h hres
      · intro h
        exact h
      · intro _ _
        exact Or.inl hsolved
      · intro h
        exact Or.inl h
    next hnotsolved =>
      have hbd : ∀ c ∈ List.range b.data.numCells, c < size * size := by
        intro c hc
        rw [List.mem_range, GoodB_numCells size regions b hg] at hc
        exact hc
      split
      next hpasseq =>
        refine ⟨hg, fun A => Iff.rfl, Nat.le_refl _, ?_, ?_, ?_, ?_⟩
        · intro _
          exact ansPass_none size regions _ b false hg hbd hpasseq
        · intro h
          cases h
        · intro h
          cases h
        · intro h
          cases h
      next b2 hpasseq =>
        obtain ⟨hg2, hsol2, hm2, -, -, hstrict⟩ :=
          ansPass_spec size regions _ b false b2 true hg hbd hpasseq
        obtain ⟨G, S, M, I, N1, N2, C1⟩ := ih b2 .changed hg2 (by intro h; cases h)
        refine ⟨G, fun A => (S A).trans (hsol2 A), by omega, ?_, ?_, ?_, ?_⟩
        · intro h A hA
          exact I h A ((hsol2 A).mpr hA)
        · intro h
          have := N1 h
          cases this
        · intro h
          have := N1 h
          cases this
        · intro _
          right
          have := hstrict rfl rfl
          omega
      next b2 hpasseq =>
        obtain ⟨-, -, -, -, hfalse, -⟩ :=
          ansPass_spec size regions _ b false b2 false hg hbd hpasseq
        obtain ⟨hb2, hcells⟩ := hfalse rfl
        refine ⟨hg, fun A => Iff.rfl, Nat.le_refl _, ?_, ?_, ?_, ?_⟩
        · intro h
          exact absurd h hres
        · intro h
          exact h
        · intro _ _
          right
          intro c hc
          exact hcells c (by rw [List.mem_range, GoodB_numCells size regions b hg]; exact hc)
        · intro h
          exact Or.inl h

theorem allNakedSingles_spec (size : Nat) (regions : List Nat) (b : Board) (f : Nat)
    (hg : GoodB size regions b) :
    GoodB size regions (allNakedSingles b f).1 ∧
    (∀ A, isSolution (allNakedSingles b f).1 A ↔ isSolution b A) ∧
    b.cells.solvedCount ≤ (allNakedSingles b f).1.cells.solvedCount ∧
    ((allNakedSingles b f).2 = .invalid → ∀ A, ¬ isSolution b A) ∧
    ((allNakedSingles b f).2 = .none → 0 < f →
      ((allNakedSingles b f).1.isSolved = true ∨ ansFix size (allNakedSingles b f).1)) ∧
    ((allNakedSingles b f).2 = .changed →
      b.cells.solvedCount < (allNakedSingles b f).1.cells.solvedCount) := by
  obtain ⟨G, S, M, I, N1, N2, C1⟩ := ansLoop_spec size regions f b .none hg
    (by intro h; cases h)
  refine ⟨G, S, M, I, N2, ?_⟩
  intro h
  rcases C1 h with h2 | h2
  · cases h2
  · exact h2

/-! ## The hidden-single house scan -/

theorem hsScan_cons (b : Board) (c : Nat) (rest : List Nat) (aL more sM : Nat) :
    hsScan b (c :: rest) aL more sM =
      if ValueMask.isSolved (b.cell c) = true then hsScan b rest aL more (sM ||| b.cell c)
      else hsScan b rest (aL ||| b.cell c) (more ||| (aL &&& b.cell c)) sM := rfl

theorem hsScan_aL_mono (b : Board) : ∀ (L : List Nat) (aL more sM k : Nat),
    aL.testBit k = true → (hsScan b L aL more sM).1.testBit k = true := by
  intro L
  induction L with
  | nil => intro aL more sM k h; exact h
  | cons c rest ih =>
    intro aL more sM k h
    unfold hsScan
    dsimp only
    split
    · exact ih _ _ _ _ h
    · exact ih _ _ _ _ (by rw [Nat.testBit_lor, h]; rfl)

theorem hsScan_more_mono (b : Board) : ∀ (L : List Nat) (aL more sM k : Nat),
    more.testBit k = true → (hsScan b L aL more sM).2.1.testBit k = true := by
  intro L
  induction L with
  | nil => intro aL more sM k h; exact h
  | cons c rest ih =>
    intro aL more sM k h
    unfold hsScan
    dsimp only
    split
    · exact ih _ _ _ _ h
    · exact ih _ _ _ _ (by rw [Nat.testBit_lor, h]; rfl)

theorem hsScan_aL_of_mem (b : Board) : ∀ (L : List Nat) (aL more sM c k : Nat),
    c ∈ L → ValueMask.isSolved (b.cell c) = false → (b.cell c).testBit k = true →
    (hsScan b L aL more sM).1.testBit k = true := by
  intro L
  induction L with
  | nil => intro aL more sM c k hc; cases hc
  | cons c0 rest ih =>
    intro aL more sM c k hc hns hbit
    rw [hsScan_cons]
    rcases List.mem_cons.mp hc with rfl | hc2
    · rw [if_neg (by rw [hns]; simp)]
      apply hsScan_aL_mono
      rw [Nat.testBit_lor, hbit]
      simp
    · split
      · exact ih _ _ _ _ _ hc2 hns hbit
      · exact ih _ _ _ _ _ hc2 hns hbit

theorem hsScan_sM_of_mem (b : Board) : ∀ (L : List Nat) (aL more sM c k : Nat),
    c ∈ L → ValueMask.isSolved (b.cell c) = true → (b.cell c).testBit k = true →
    (hsScan b L aL more sM).2.2.testBit k = true := by
  intro L
  induction L with
  | nil => intro aL more sM c k hc; cases hc
  | cons c0 rest ih =>
    intro aL more sM c k hc hsol hbit
    rw [hsScan_cons]
    rcases List.mem_cons.mp hc with rfl | hc2
    · rw [if_pos hsol]
      have hsM_mono : ∀ (L2 : List Nat) (aL2 more2 sM2 k2 : Nat), sM2.testBit k2 = true →
          (hsScan b L2 aL2 more2 sM2).2.2.testBit k2 = true := by
        intro L2
        induction L2 with
        | nil => intro _ _ _ _ h; exact h
        | cons d drest dih =>
          intro aL2 more2 sM2 k2 h
          unfold hsScan
          dsimp only
          split
          · exact dih _ _ _ _ (by rw [Nat.testBit_lor, h]; rfl)
          · exact dih _ _ _ _ h
      apply hsM_mono
      rw [Nat.testBit_lor, hbit]
      simp
    · split
      · exact ih _ _ _ _ _ hc2 hsol hbit
      · exact ih _ _ _ _ _ hc2 hsol hbit

theorem hsScan_aL_source (b : Board) : ∀ (L : List Nat) (aL more sM k : Nat),
    (hsScan b L aL more sM).1.testBit k = true →
    aL.testBit k = true ∨ ∃ c ∈ L, ValueMask.isSolved (b.cell c) = false ∧
      (b.cell c).testBit k = true := by
  intro L
  induction L with
  | nil => intro aL more sM k h; exact Or.inl h
  | cons c0 rest ih =>
    intro aL more sM k h
    rw [hsScan_cons] at h
    split at h
    · rcases ih _ _ _ _ h with h2 | ⟨c, hc, h3⟩
      · exact Or.inl h2
      · exact Or.inr ⟨c, List.mem_cons_of_mem _ hc, h3⟩
    next hns =>
      rcases ih _ _ _ _ h with h2 | ⟨c, hc, h3⟩
      · rw [Nat.testBit_lor] at h2
        rcases Bool.or_eq_true_iff.mp h2 with h4 | h4
        · exact Or.inl h4
        · exact Or.inr ⟨c0, List.mem_cons_self .., by simpa using hns, h4⟩
      · exact Or.inr ⟨c, List.mem_cons_of_mem _ hc, h3⟩

theorem hsScan_sM_source (b : Board) : ∀ (L : List Nat) (aL more sM k : Nat),
    (hsScan b L aL more sM).2.2.testBit k = true →
    sM.testBit k = true ∨ ∃ c ∈ L, ValueMask.isSolved (b.cell c) = true ∧
      (b.cell c).testBit k = true := by
  intro L
  induction L with
  | nil => intro aL more sM k h; exact Or.inl h
  | cons c0 rest ih =>
    intro aL more sM k h
    rw [hsScan_cons] at h
    split at h
    next hsol =>
      rcases ih _ _ _ _ h with h2 | ⟨c, hc, h3⟩
      · rw [Nat.testBit_lor] at h2
        rcases Bool.or_eq_true_iff.mp h2 with h4 | h4
        · exact Or.inl h4
        · exact Or.inr ⟨c0, List.mem_cons_self .., hsol, h4⟩
      · exact Or.inr ⟨c, List.mem_cons_of_mem _ hc, h3⟩
    · rcases ih _ _ _ _ h with h2 | ⟨c, hc, h3⟩
      · exact Or.inl h2
      · exact Or.inr ⟨c, List.mem_cons_of_mem _ hc, h3⟩

theorem hsScan_more_of_aL (b : Board) : ∀ (L : List Nat) (aL more sM c k : Nat),
    aL.testBit k = true → c ∈ L → ValueMask.isSolved (b.cell c) = false →
    (b.cell c).testBit k = true →
    (hsScan b L aL more sM).2.1.testBit k = true := by
  intro L
  induction L with
  | nil => intro aL more sM c k _ hc; cases hc
  | cons c0 rest ih =>
    intro aL more sM c k haL hc hns hbit
    rw [hsScan_cons]
    rcases List.mem_cons.mp hc with rfl | hc2
    · rw [if_neg (by rw [hns]; simp)]
      apply hsScan_more_mono
      rw [Nat.testBit_lor, Nat.testBit_land, haL, hbit]
      simp
    · split
      · exact ih _ _ _ _ _ haL hc2 hns hbit
      · apply ih _ _ _ _ _ _ hc2 hns hbit
        rw [Nat.testBit_lor, haL]
        rfl

theorem hsScan_unique (b : Board) : ∀ (L : List Nat) (aL more sM k : Nat),
    (hsScan b L aL more sM).2.1.testBit k = false →
    ∀ c1 c2, c1 ∈ L → c2 ∈ L → ValueMask.isSolved (b.cell c1) = false →
      ValueMask.isSolved (b.cell c2) = false → (b.cell c1).testBit k = true →
      (b.cell c2).testBit k = true → c1 = c2 := by
  intro L
  induction L with
  | nil => intro aL more sM k _ c1 c2 hc1; cases hc1
  | cons c0 rest ih =>
    intro aL more sM k hmore c1 c2 hc1 hc2 hns1 hns2 hb1 hb2
    rw [hsScan_cons] at hmore
    rcases hsol0 : ValueMask.isSolved (b.cell c0) with _ | _
    · rw [hsol0] at hmore
      rw [if_neg (by simp)] at hmore
      rcases List.mem_cons.mp hc1 with rfl | hm1 <;> rcases List.mem_cons.mp hc2 with e | hm2
      · exact e.symm
      · exfalso
        have := hsScan_more_of_aL b rest (aL ||| b.cell c1) (more ||| (aL &&& b.cell c1))
          sM c2 k (by rw [Nat.testBit_lor, hb1]; simp) hm2 hns2 hb2
        rw [this] at hmore
        cases hmore
      · exfalso
        subst e
        have := hsScan_more_of_aL b rest (aL ||| b.cell c2) (more ||| (aL &&& b.cell c2))
          sM c1 k (by rw [Nat.testBit_lor, hb2]; simp) hm1 hns1 hb1
        rw [this] at hmore
        cases hmore
      · exact ih _ _ _ _ hmore c1 c2 hm1 hm2 hns1 hns2 hb1 hb2
    · rw [hsol0] at hmore
      rw [if_pos rfl] at hmore
      rcases List.mem_cons.mp hc1 with rfl | hm1
      · rw [hns1] at hsol0
        cases hsol0
      · rcases List.mem_cons.mp hc2 with rfl | hm2
        · rw [hns2] at hsol0
          cases hsol0
        · exact ih _ _ _ _ hmore c1 c2 hm1 hm2 hns1 hns2 hb1 hb2

theorem boardNew_data_allValuesMask (size : Nat) (regions : List Nat)
    (constraints : List Constraint) :
    (Board.new size regions constraints).data.allValuesMask =
      ValueMask.fromAllValues size := by
  unfold Board.new
  dsimp only
  rw [clearCandidates_data]

theorem GoodB_house_facts (size : Nat) (regions : List Nat) (b : Board)
    (h : List Nat) (hg : GoodB size regions b) (hh : h ∈ b.data.houses) :
    List.Sorted (· < ·) h ∧ h.length = size ∧ ∀ c ∈ h, c < size * size := by
  rw [hg.1, boardNew_data_houses] at hh
  exact createHouses_classic size regions h hh

/-- A solution is injective on every house. -/
theorem sol_inj_on_house (size : Nat) (regions : List Nat) (b : Board)
    (h : List Nat) (hg : GoodB size regions b) (hh : h ∈ b.data.houses)
    (A : Nat → Nat) (hA : isSolution b A) :
    ∀ c1 ∈ h, ∀ c2 ∈ h, c1 ≠ c2 → A c1 ≠ A c2 := by
  intro c1 hc1 c2 hc2 hne heq
  obtain ⟨-, -, hbd⟩ := GoodB_house_facts size regions b h hg hh
  have hnc := GoodB_numCells size regions b hg
  have hsz := GoodB_size size regions b hg
  have hc1b := hbd c1 hc1
  have hc2b := hbd c2 hc2
  obtain ⟨hr, hl, -⟩ := hA
  have hA1 := hr c1 (by omega)
  have hA2 := hr c2 (by omega)
  rw [hsz] at hA1 hA2
  have hlink := hl c1 c2 (by omega) (by omega) hne
  rw [hsz] at hlink
  have hmem : h ∈ createHouses size regions [] := by
    rw [hg.1, boardNew_data_houses] at hh
    exact hh
  have hchar : (b.data.weakLinks (candOf size c1 (A c1))).testBit
      (candOf size c2 (A c2)) = true := by
    rw [weakLinks_char_of_hdata size regions b hg.1]
    refine ⟨candOf_lt _ _ _ hc1b (by omega) (by omega),
      candOf_lt _ _ _ hc2b (by omega) (by omega), ?_, Or.inr ⟨?_, h, hmem, ?_, ?_⟩⟩
    · intro he
      exact hne (candOf_inj size c1 (A c1) c2 (A c2) (by omega) (by omega) (by omega)
        (by omega) he).1
    · rw [valOfCand_candOf size c1 (A c1) (by omega) (by omega),
        valOfCand_candOf size c2 (A c2) (by omega) (by omega), heq]
    · rw [cellOfCand_candOf size c1 (A c1) (by omega) (by omega)]
      exact hc1
    · rw [cellOfCand_candOf size c2 (A c2) (by omega) (by omega)]
      exact hc2
  rw [hlink] at hchar
  cases hchar

/-- A solution hits every value in every house (pigeonhole). -/
theorem sol_surj_on_house (size : Nat) (regions : List Nat) (b : Board)
    (h : List Nat) (hg : GoodB size regions b) (hh : h ∈ b.data.houses)
    (A : Nat → Nat) (hA : isSolution b A) (v : Nat) (hv1 : 1 ≤ v) (hv2 : v ≤ size) :
    ∃ c ∈ h, A c = v := by
  obtain ⟨hsort, hlen, hbd⟩ := GoodB_house_facts size regions b h hg hh
  have hnc := GoodB_numCells size regions b hg
  have hsz := GoodB_size size regions b hg
  have hnd : h.Nodup := hsort.nodup
  have hcardS : h.toFinset.card = size := by
    rw [List.toFinset_card_of_nodup hnd, hlen]
  have himul : h.toFinset.image A ⊆ Finset.Icc 1 size := by
    intro x hx
    rw [Finset.mem_image] at hx
    obtain ⟨c, hc, rfl⟩ := hx
    rw [List.mem_toFinset] at hc
    have := (hA.1 c (by have := hbd c hc; omega))
    rw [hsz] at this
    rw [Finset.mem_Icc]
    omega
  have hinj : Set.InjOn A h.toFinset := by
    intro x hx y hy hxy
    by_contra hne
    have hx2 : x ∈ h := List.mem_toFinset.mp (Finset.mem_coe.mp hx)
    have hy2 : y ∈ h := List.mem_toFinset.mp (Finset.mem_coe.mp hy)
    exact sol_inj_on_house size regions b h hg hh A hA x hx2 y hy2 hne hxy
  have hcardI : (h.toFinset.image A).card = size := by
    rw [Finset.card_image_of_injOn hinj, hcardS]
  have heq : h.toFinset.image A = Finset.Icc 1 size := by
    apply Finset.eq_of_subset_of_card_le himul
    rw [hcardI, Nat.card_Icc]
    omega
  have hv : v ∈ h.toFinset.image A := by
    rw [heq, Finset.mem_Icc]
    omega
  rw [Finset.mem_image] at hv
  obtain ⟨c, hc, hcv⟩ := hv
  rw [List.mem_toFinset] at hc
  exact ⟨c, hc, hcv⟩

theorem hsCommit_spec (size : Nat) (regions : List Nat) : ∀ (L : List Nat) (b : Board)
    (v : Nat), GoodB size regions b → (∀ c ∈ L, c < size * size) →
    1 ≤ v → v ≤ size →
    (∀ c ∈ L, ValueMask.has (b.cell c) v = true →
      ValueMask.isSolved (b.cell c) = false ∧ ∀ A, isSolution b A → A c = v) →
    ((hsCommit b v L).2 = .none → (hsCommit b v L).1 = b) ∧
    ((hsCommit b v L).2 = .invalid → ∀ A, ¬ isSolution b A) ∧
    ((hsCommit b v L).2 = .changed → GoodB size regions (hsCommit b v L).1 ∧
      (∀ A, isSolution (hsCommit b v L).1 A ↔ isSolution b A) ∧
      b.cells.solvedCount < (hsCommit b v L).1.cells.solvedCount) := by
  intro L
  induction L with
  | nil =>
    intro b v hg hbd hv1 hv2 hinfo
    refine ⟨fun _ => rfl, ?_, ?_⟩
    · intro h
      cases h
    · intro h
      cases h
  | cons c rest ih =>
    intro b v hg hbd hv1 hv2 hinfo
    unfold hsCommit
    split
    next hhas =>
      obtain ⟨hns, hforced⟩ := hinfo c (List.mem_cons_self ..) hhas
      split
      next b1 heq =>
        obtain ⟨hgb1, hsoleq, hcount⟩ := commit_success size regions b c v b1 hg
          (hbd c (List.mem_cons_self ..)) hv1 hv2 hforced heq
        refine ⟨?_, ?_, ?_⟩
        · intro h
          cases h
        · intro h
          cases h
        · intro _
          exact ⟨hgb1, hsoleq, show b.cells.solvedCount < b1.cells.solvedCount by omega⟩
      next b1 heq =>
        refine ⟨?_, ?_, ?_⟩
        · intro h
          cases h
        · intro _
          exact commit_fail size regions b c v b1 hg (hbd c (List.mem_cons_self ..))
            hns hforced heq
        · intro h
          cases h
    · exact ih b v hg (fun c2 hc2 => hbd c2 (List.mem_cons_of_mem _ hc2)) hv1 hv2
        (fun c2 hc2 => hinfo c2 (List.mem_cons_of_mem _ hc2))

theorem unsolved_eq (m : Nat) : ValueMask.unsolved m = ValueMask.valueBits m := rfl

theorem hsHouses_spec (size : Nat) (regions : List Nat) : ∀ (hs : List (List Nat))
    (b : Board), GoodB size regions b → (∀ h ∈ hs, h ∈ b.data.houses) →
    ((hsHouses b hs).2 = .none → (hsHouses b hs).1 = b) ∧
    ((hsHouses b hs).2 = .invalid → ∀ A, ¬ isSolution b A) ∧
    ((hsHouses b hs).2 = .changed → GoodB size regions (hsHouses b hs).1 ∧
      (∀ A, isSolution (hsHouses b hs).1 A ↔ isSolution b A) ∧
      b.cells.solvedCount < (hsHouses b hs).1.cells.solvedCount) := by
  intro hs
  induction hs with
  | nil =>
    intro b hg _
    exact ⟨fun _ => rfl, fun hh => StepRes.noConfusion hh,
      fun hh => StepRes.noConfusion hh⟩
  | cons h rest ih =>
    intro b hg hmem
    have hhh : h ∈ b.data.houses := hmem h (List.mem_cons_self ..)
    obtain ⟨hsort, hlen, hbd⟩ := GoodB_house_facts size regions b h hg hhh
    have hnc := GoodB_numCells size regions b hg
    have hsz := GoodB_size size regions b hg
    have hs0 : 0 < size := hg.2.2.2.2.2.2.1
    have hs31 : size ≤ 31 := hg.2.2.2.2.2.2.2
    have hrange := hg.2.2.1
    have hshape := hg.2.2.2.1
    have hpeers := hg.2.2.2.2.1
    have hallmask : b.data.allValuesMask = ValueMask.fromAllValues size := by
      rw [hg.1, boardNew_data_allValuesMask]
    rcases hscan : hsScan b h 0 0 0 with ⟨aL, morex, sM⟩
    have haL : (hsScan b h 0 0 0).1 = aL := by rw [hscan]
    have hmorex : (hsScan b h 0 0 0).2.1 = morex := by rw [hscan]
    have hsM : (hsScan b h 0 0 0).2.2 = sM := by rw [hscan]
    unfold hsHouses
    rw [hscan]
    dsimp only
    split
    next hcond =>
      refine ⟨fun hh => StepRes.noConfusion hh, ?_, fun hh => StepRes.noConfusion hh⟩
      intro _ A hA
      have hne : aL ||| ValueMask.unsolved sM ≠ b.data.allValuesMask := by
        simpa using hcond
      rw [hallmask] at hne
      have hdiff : ∃ k, (aL ||| ValueMask.unsolved sM).testBit k ≠
          (ValueMask.fromAllValues size).testBit k := by
        by_contra hall
        push_neg at hall
        exact hne (Nat.eq_of_testBit_eq (fun k => hall k))
      obtain ⟨k, hk⟩ := hdiff
      rw [fromAllValues_testBit] at hk
      rcases Decidable.em (k < size) with hks | hks
      · -- a value without a home in the house
        have hLHS : (aL ||| ValueMask.unsolved sM).testBit k = false := by
          rcases hb : (aL ||| ValueMask.unsolved sM).testBit k with _ | _
          · rfl
          · exfalso
            apply hk
            rw [hb]
            simp [hks]
        rw [Nat.testBit_lor] at hLHS
        obtain ⟨c, hc, hAc⟩ := sol_surj_on_house size regions b h hg hhh A hA (k + 1)
          (by omega) (by omega)
        have hhasc : (b.cell c).testBit k = true := by
          have := hA.2.2 c (by have := hbd c hc; omega)
          rw [hAc, has_eq_testBit] at this
          simpa using this
        rcases hsolc : ValueMask.isSolved (b.cell c) with _ | _
        · have := hsScan_aL_of_mem b h 0 0 0 c k hc hsolc hhasc
          rw [haL] at this
          rw [this] at hLHS
          simp at hLHS
        · have := hsScan_sM_of_mem b h 0 0 0 c k hc hsolc hhasc
          rw [hsM] at this
          have hub : (ValueMask.unsolved sM).testBit k = true := by
            rw [unsolved_eq, testBit_valueBits, this]
            simp
            omega
          rw [hub] at hLHS
          simp at hLHS
      · -- a seen value out of range: impossible for a Good board
        have hLHS : (aL ||| ValueMask.unsolved sM).testBit k = true := by
          rcases hb : (aL ||| ValueMask.unsolved sM).testBit k with _ | _
          · exfalso
            apply hk
            rw [hb]
            simp [hks]
          · rfl
        rw [Nat.testBit_lor] at hLHS
        rcases Bool.or_eq_true_iff.mp hLHS with hb | hb
        · rw [← haL] at hb
          rcases hsScan_aL_source b h 0 0 0 k hb with h0 | ⟨c, hc, hcs, hcb⟩
          · rw [Nat.zero_testBit] at h0
            cases h0
          · have := hrange c (hbd c hc) k hcb
            rcases this with rfl | hlt
            · rw [isSolved_eq_testBit, hcb] at hcs
              cases hcs
            · omega
        · rw [unsolved_eq, testBit_valueBits] at hb
          rw [Bool.and_eq_true] at hb
          have hk31 := of_decide_eq_true hb.2
          rw [← hsM] at hb
          rcases hsScan_sM_source b h 0 0 0 k hb.1 with h0 | ⟨c, hc, -, hcb⟩
          · rw [Nat.zero_testBit] at h0
            cases h0
          · have := hrange c (hbd c hc) k hcb
            omega
    next =>
      split
      next =>
        exact ih b hg (fun h2 hm2 => hmem h2 (List.mem_cons_of_mem _ hm2))
      next hnotempty =>
        set E := aL &&& (u32All ^^^ morex) with hE
        have hneE : ValueMask.isEmpty E = false := by
          rcases hb : ValueMask.isEmpty E with _ | _
          · rfl
          · exact absurd hb (by simpa using hnotempty)
        obtain ⟨hhasx, hx31, hx1, -⟩ := minVal_spec E hneE
        set v := ValueMask.minVal E with hvdef
        have hbitx : E.testBit (v - 1) = true := by
          rw [← has_eq_testBit]
          exact hhasx
        have hbits : aL.testBit (v - 1) = true ∧ morex.testBit (v - 1) = false := by
          rw [hE, Nat.testBit_land, Nat.testBit_xor, testBit_u32All] at hbitx
          rw [Bool.and_eq_true] at hbitx
          refine ⟨hbitx.1, ?_⟩
          have h2 := hbitx.2
          rcases hmb : morex.testBit (v - 1) with _ | _
          · rfl
          · rw [hmb] at h2
            simp at h2
            omega
        obtain ⟨cstar, hcstar, hcstarns, hcstarbit⟩ : ∃ c ∈ h,
            ValueMask.isSolved (b.cell c) = false ∧ (b.cell c).testBit (v - 1) = true := by
          have := hbits.1
          rw [← haL] at this
          rcases hsScan_aL_source b h 0 0 0 (v - 1) this with h0 | hex
          · rw [Nat.zero_testBit] at h0
            cases h0
          · exact hex
        have hv2 : v ≤ size := by
          have := hrange cstar (hbd cstar hcstar) (v - 1) hcstarbit
          omega
        have hunsolved : ∀ c ∈ h, ValueMask.has (b.cell c) v = true →
            ValueMask.isSolved (b.cell c) = false := by
          intro c hc hhas
          rcases hsolc : ValueMask.isSolved (b.cell c) with _ | _
          · rfl
          · exfalso
            obtain ⟨w, hw1, hw2, hwmask⟩ := hshape c (hbd c hc) hsolc
            have hwv : w = v := by
              rw [hwmask, has_eq_testBit, testBit_solvedMaskOf] at hhas
              rcases Bool.or_eq_true_iff.mp hhas with h1 | h2
              · exfalso
                have : 31 = v - 1 := by simpa using h1
                omega
              · have : w - 1 = v - 1 := by simpa using h2
                omega
            rw [hwv] at hwmask
            have hcne : c ≠ cstar := by
              intro rfl2
              rw [rfl2] at hsolc
              rw [hsolc] at hcstarns
              cases hcstarns
            have hlink : (b.data.weakLinks (candOf size c v)).testBit
                (candOf size cstar v) = true := by
              rw [weakLinks_char_of_hdata size regions b hg.1]
              have hmem2 : h ∈ createHouses size regions [] := by
                rw [hg.1, boardNew_data_houses] at hhh
                exact hhh
              refine ⟨candOf_lt _ _ _ (hbd c hc) (by omega) (by omega),
                candOf_lt _ _ _ (hbd cstar hcstar) (by omega) (by omega), ?_,
                Or.inr ⟨?_, h, hmem2, ?_, ?_⟩⟩
              · intro he
                exact hcne (candOf_inj size c v cstar v (by omega) (by omega) (by omega)
                  (by omega) he).1
              · rw [valOfCand_candOf size c v (by omega) (by omega),
                  valOfCand_candOf size cstar v (by omega) (by omega)]
              · rw [cellOfCand_candOf size c v (by omega) (by omega)]
                exact hc
              · rw [cellOfCand_candOf size cstar v (by omega) (by omega)]
                exact hcstar
            have := hpeers c (hbd c hc) v (by omega) (by omega) hwmask
              (candOf size cstar v) hlink
            rw [cellOfCand_candOf size cstar v (by omega) (by omega),
              valOfCand_candOf size cstar v (by omega) (by omega)] at this
            rw [has_eq_testBit, hcstarbit] at this
            cases this
        have hinfo : ∀ c ∈ h, ValueMask.has (b.cell c) v = true →
            ValueMask.isSolved (b.cell c) = false ∧ ∀ A, isSolution b A → A c = v := by
          intro c hc hhas
          refine ⟨hunsolved c hc hhas, ?_⟩
          intro A hA
          obtain ⟨c2, hc2, hAc2⟩ := sol_surj_on_house size regions b h hg hhh A hA v
            (by omega) (by omega)
          have hhas2 : ValueMask.has (b.cell c2) v = true := by
            have := hA.2.2 c2 (by have := hbd c2 hc2; omega)
            rw [hAc2] at this
            exact this
          have hns2 := hunsolved c2 hc2 hhas2
          have hnsc := hunsolved c hc hhas
          have hmoref : (hsScan b h 0 0 0).2.1.testBit (v - 1) = false := by
            rw [hmorex]
            exact hbits.2
          have hcc2 : c = c2 := by
            apply hsScan_unique b h 0 0 0 (v - 1) hmoref c c2 hc hc2 hnsc hns2
            · rw [← has_eq_testBit]
              exact hhas
            · rw [← has_eq_testBit]
              exact hhas2
          rw [hcc2]
          exact hAc2
        have hcommit := hsCommit_spec size regions h b v hg hbd (by omega) hv2 hinfo
        split
        next b1 heqc =>
          rw [heqc] at hcommit
          have hb1 : b1 = b := hcommit.1 rfl
          subst hb1
          exact ih b1 hg (fun h2 hm2 => hmem h2 (List.mem_cons_of_mem _ hm2))
        next rr hne2 =>
          exact hcommit

theorem hiddenSingle_spec (size : Nat) (regions : List Nat) (b : Board)
    (hg : GoodB size regions b) :
    ((hiddenSingle b).2 = .none → (hiddenSingle b).1 = b) ∧
    ((hiddenSingle b).2 = .invalid → ∀ A, ¬ isSolution b A) ∧
    ((hiddenSingle b).2 = .changed → GoodB size regions (hiddenSingle b).1 ∧
      (∀ A, isSolution (hiddenSingle b).1 A ↔ isSolution b A) ∧
      b.cells.solvedCount < (hiddenSingle b).1.cells.solvedCount) :=
  hsHouses_spec size regions b.data.houses b hg (fun _ hm => hm)

theorem stepConstraints_classic (b : Board) (br : Bool)
    (hk : b.data.constraints = []) : stepConstraints b br = (b, .none) := by
  unfold stepConstraints
  rw [hk]
  rfl

theorem GoodB_count_le (size : Nat) (regions : List Nat) (b : Board)
    (hg : GoodB size regions b) : b.cells.solvedCount ≤ size * size := by
  rw [hg.2.2.2.2.2.1]
  calc ((List.range (size * size)).filter
      (fun c => ValueMask.isSolved (b.cell c))).length
      ≤ (List.range (size * size)).length := List.length_filter_le ..
    _ = size * size := List.length_range ..

/-- `run_single_brute_force_step` on a classic board: invalid means no
solutions, changed makes strict progress, none reaches a stable board. -/
theorem rsbfs_spec (size : Nat) (regions : List Nat) (b : Board)
    (hg : GoodB size regions b) :
    ((runSingleBruteForceStep b).2 = .invalid → ∀ A, ¬ isSolution b A) ∧
    ((runSingleBruteForceStep b).2 = .changed →
      GoodB size regions (runSingleBruteForceStep b).1 ∧
      (∀ A, isSolution (runSingleBruteForceStep b).1 A ↔ isSolution b A) ∧
      b.cells.solvedCount < (runSingleBruteForceStep b).1.cells.solvedCount) ∧
    ((runSingleBruteForceStep b).2 = .none →
      GoodB size regions (runSingleBruteForceStep b).1 ∧
      (∀ A, isSolution (runSingleBruteForceStep b).1 A ↔ isSolution b A) ∧
      b.cells.solvedCount ≤ (runSingleBruteForceStep b).1.cells.solvedCount ∧
      ((runSingleBruteForceStep b).1.isSolved = true ∨
        ansFix size (runSingleBruteForceStep b).1)) := by
  obtain ⟨G1, S1, M1, I1, N1, C1⟩ := allNakedSingles_spec size regions b
    (b.data.numCells + 1) hg
  unfold runSingleBruteForceStep
  rcases hans : allNakedSingles b (b.data.numCells + 1) with ⟨b1, r1⟩
  rw [hans] at G1 S1 M1 I1 N1 C1
  dsimp only at G1 S1 M1 I1 N1 C1
  cases r1
  · -- ANS none
    have hfix := N1 rfl (by omega)
    obtain ⟨H1, H2, H3⟩ := hiddenSingle_spec size regions b1 G1
    dsimp only
    rcases hhs : hiddenSingle b1 with ⟨b2, r2⟩
    rw [hhs] at H1 H2 H3
    dsimp only at H1 H2 H3
    cases r2
    · -- HS none: b2 = b1, then the (empty) constraint dispatcher
      have hb2 : b2 = b1 := H1 rfl
      subst hb2
      have hsc := stepConstraints_classic b2 true (by rw [G1.1, boardNew_data_constraints])
      dsimp only
      rw [hsc]
      refine ⟨?_, ?_, ?_⟩
      · intro hh
        cases hh
      · intro hh
        cases hh
      · intro _
        exact ⟨G1, S1, M1, hfix⟩
    · -- HS changed
      obtain ⟨G2, S2, C2⟩ := H3 rfl
      dsimp only
      refine ⟨?_, ?_, ?_⟩
      · intro hh
        cases hh
      · intro _
        exact ⟨G2, fun A => (S2 A).trans (S1 A), by omega⟩
      · intro hh
        cases hh
    · -- HS invalid
      dsimp only
      refine ⟨?_, ?_, ?_⟩
      · intro _ A hA
        exact H2 rfl A ((S1 A).mpr hA)
      · intro hh
        cases hh
      · intro hh
        cases hh
  · -- ANS changed
    dsimp only
    refine ⟨?_, ?_, ?_⟩
    · intro hh
      cases hh
    · intro _
      exact ⟨G1, S1, C1 rfl⟩
    · intro hh
      cases hh
  · -- ANS invalid
    dsimp only
    refine ⟨?_, ?_, ?_⟩
    · intro _
      exact I1 rfl
    · intro hh
      cases hh
    · intro hh
      cases hh

/-- `run_brute_force_logic`: conditional correctness plus fuel adequacy. -/
theorem rbfl_spec (size : Nat) (regions : List Nat) : ∀ (f : Nat) (b : Board),
    GoodB size regions b →
    (∀ b' ok, runBruteForceLogic b f = some (b', ok) →
      (ok = false → ∀ A, ¬ isSolution b A) ∧
      (ok = true → GoodB size regions b' ∧
        (∀ A, isSolution b' A ↔ isSolution b A) ∧
        b.cells.solvedCount ≤ b'.cells.solvedCount ∧
        (b'.isSolved = true ∨ ansFix size b'))) ∧
    (size * size + 2 ≤ f + b.cells.solvedCount →
      (runBruteForceLogic b f).isSome = true) := by
  intro f
  induction f with
  | zero =>
    intro b hg
    constructor
    · intro b' ok h
      cases h
    · intro hf
      have := GoodB_count_le size regions b hg
      omega
  | succ f ih =>
    intro b hg
    obtain ⟨R1, R2, R3⟩ := rsbfs_spec size regions b hg
    unfold runBruteForceLogic
    rcases hstep : runSingleBruteForceStep b with ⟨b1, r1⟩
    rw [hstep] at R1 R2 R3
    dsimp only at R1 R2 R3
    cases r1
    · -- none: stable
      constructor
      · intro b' ok h
        rw [Option.some.injEq] at h
        injection h with h1 h2
        subst h1
        subst h2
        constructor
        · intro hh
          cases hh
        · intro _
          exact R3 rfl
      · intro _
        rfl
    · -- changed: recurse
      obtain ⟨G2, S2, C2⟩ := R2 rfl
      obtain ⟨ih1, ih2⟩ := ih b1 G2
      constructor
      · intro b' ok h
        obtain ⟨h1, h2⟩ := ih1 b' ok h
        constructor
        · intro hok A hA
          exact h1 hok A ((S2 A).mpr hA)
        · intro hok
          obtain ⟨G3, S3, M3, F3⟩ := h2 hok
          exact ⟨G3, fun A => (S3 A).trans (S2 A), by omega, F3⟩
      · intro hf
        exact ih2 (by omega)
    · -- invalid
      constructor
      · intro b' ok h
        rw [Option.some.injEq] at h
        injection h with h1 h2
        subst h1
        subst h2
        constructor
        · intro _
          exact R1 rfl
        · intro hh
          cases hh
      · intro _
        rfl

/-- The assignment read off a fully solved board. -/
def assignOfBoard (b : Board) (c : Nat) : Nat := ValueMask.value (b.cell c)

theorem value_solvedMaskOf (v : Nat) (hv1 : 1 ≤ v) (hv31 : v ≤ 31) :
    ValueMask.value (solvedMaskOf v) = v := by
  unfold ValueMask.value
  rw [valueBits_solvedMaskOf v (by omega)]
  rw [tzAux_spec 32 _ (v - 1) (by omega) (by rw [Nat.testBit_two_pow]; simp) ?_]
  · omega
  · intro j hj
    rw [Nat.testBit_two_pow]
    simp
    omega

theorem allSolved_of_isSolved (size : Nat) (regions : List Nat) (b : Board)
    (hg : GoodB size regions b) (hsolved : b.isSolved = true) :
    ∀ c, c < size * size → ValueMask.isSolved (b.cell c) = true := by
  have hcount : b.cells.solvedCount = size * size := by
    unfold Board.isSolved at hsolved
    have := GoodB_numCells size regions b hg
    simp at hsolved
    omega
  have hfl : ((List.range (size * size)).filter
      (fun c => ValueMask.isSolved (b.cell c))).length = size * size := by
    rw [← hg.2.2.2.2.2.1, hcount]
  have hcp : (List.range (size * size)).countP
      (fun c => ValueMask.isSolved (b.cell c)) = (List.range (size * size)).length := by
    rw [List.countP_eq_length_filter, hfl, List.length_range]
  have := List.countP_eq_length.mp hcp
  intro c hc
  exact this c (List.mem_range.mpr hc)

/-- A fully solved classic board carries exactly one solution: the values it
committed. -/
theorem solution_of_solved (size : Nat) (regions : List Nat) (b : Board)
    (hg : GoodB size regions b) (hsolved : b.isSolved = true) :
    isSolution b (assignOfBoard b) ∧
      ∀ A, isSolution b A → ∀ c, c < size * size → A c = assignOfBoard b c := by
  have hall := allSolved_of_isSolved size regions b hg hsolved
  have hnc := GoodB_numCells size regions b hg
  have hsz := GoodB_size size regions b hg
  have hs0 : 0 < size := hg.2.2.2.2.2.2.1
  have hs31 : size ≤ 31 := hg.2.2.2.2.2.2.2
  have hshape := hg.2.2.2.1
  have hpeers := hg.2.2.2.2.1
  have hvals : ∀ c, c < size * size → ∃ v, 1 ≤ v ∧ v ≤ size ∧
      b.cell c = solvedMaskOf v ∧ assignOfBoard b c = v := by
    intro c hc
    obtain ⟨v, hv1, hv2, hmask⟩ := hshape c hc (hall c hc)
    refine ⟨v, hv1, hv2, hmask, ?_⟩
    unfold assignOfBoard
    rw [hmask]
    exact value_solvedMaskOf v hv1 (by omega)
  have huniq : ∀ A, isSolution b A → ∀ c, c < size * size → A c = assignOfBoard b c := by
    intro A hA c hc
    obtain ⟨v, hv1, hv2, hmask, hval⟩ := hvals c hc
    have hhas := hA.2.2 c (by omega)
    rw [hmask, has_eq_testBit, testBit_solvedMaskOf] at hhas
    have hAc := hA.1 c (by omega)
    rw [hsz] at hAc
    rcases Bool.or_eq_true_iff.mp hhas with h1 | h2
    · exfalso
      have : 31 = A c - 1 := by simpa using h1
      omega
    · have : v - 1 = A c - 1 := by simpa using h2
      omega
  refine ⟨⟨?_, ?_, ?_⟩, huniq⟩
  · intro c hc
    rw [hnc] at hc
    obtain ⟨v, hv1, hv2, -, hval⟩ := hvals c hc
    rw [hsz, hval]
    omega
  · intro c1 c2 hc1 hc2 hne
    rw [hnc] at hc1 hc2
    obtain ⟨v1, hv11, hv12, hmask1, hval1⟩ := hvals c1 hc1
    obtain ⟨v2, hv21, hv22, hmask2, hval2⟩ := hvals c2 hc2
    rw [hsz, hval1, hval2]
    rcases hb : (b.data.weakLinks (candOf size c1 v1)).testBit (candOf size c2 v2)
        with _ | _
    · rfl
    · exfalso
      have := hpeers c1 hc1 v1 hv11 hv12 hmask1 (candOf size c2 v2) hb
      rw [cellOfCand_candOf size c2 v2 (by omega) (by omega),
        valOfCand_candOf size c2 v2 (by omega) (by omega)] at this
      rw [hmask2, has_eq_testBit, testBit_solvedMaskOf] at this
      have h2 : (decide (31 = v2 - 1) || decide (v2 - 1 = v2 - 1)) = true := by simp
      rw [h2] at this
      cases this
  · intro c hc
    rw [hnc] at hc
    obtain ⟨v, hv1, hv2, hmask, hval⟩ := hvals c hc
    rw [hval, hmask, has_eq_testBit, testBit_solvedMaskOf]
    simp

/-! ## Popcount facts and the best-cell scan -/

theorem popAux_le : ∀ (f n : Nat), popAux f n ≤ f := by
  intro f
  induction f with
  | zero => intro n; rfl
  | succ f ih =>
    intro n
    unfold popAux
    have := ih (n / 2)
    split
    · omega
    · omega

theorem popAux_eq_zero : ∀ (f n : Nat), n < 2 ^ f → (popAux f n = 0 ↔ n = 0) := by
  intro f
  induction f with
  | zero =>
    intro n hn
    unfold popAux
    omega
  | succ f ih =>
    intro n hn
    unfold popAux
    constructor
    · intro h
      split at h
      · omega
      · next hpar =>
        have h2 : n / 2 = 0 := (ih (n / 2) (by omega)).mp (by omega)
        simp at hpar
        omega
    · intro h
      subst h
      simp
      exact (ih 0 (Nat.pos_pow_of_pos f (by omega))).mpr rfl

theorem popAux_eq_one : ∀ (f n : Nat), n < 2 ^ f → popAux f n = 1 →
    ∃ k, n = 2 ^ k := by
  intro f
  induction f with
  | zero =>
    intro n hn h
    unfold popAux at h
    cases h
  | succ f ih =>
    intro n hn h
    unfold popAux at h
    split at h
    · next hpar =>
      have h2 : n / 2 = 0 := (popAux_eq_zero f (n / 2) (by omega)).mp (by omega)
      simp at hpar
      exact ⟨0, by omega⟩
    · next hpar =>
      simp at hpar
      obtain ⟨k, hk⟩ := ih (n / 2) (by omega) (by omega)
      exact ⟨k + 1, by rw [Nat.pow_succ]; omega⟩

theorem valueBits_lt (m : Nat) : ValueMask.valueBits m < 2 ^ 32 := by
  have h1 : ValueMask.valueBits m ≤ ValueMask.candBits := Nat.and_le_right
  unfold ValueMask.candBits at h1
  omega

theorem count_le_32 (m : Nat) : ValueMask.count m ≤ 32 := popAux_le 32 _

theorem two_pow_and_pred (k : Nat) : 2 ^ k &&& (2 ^ k - 1) = 0 := by
  apply Nat.eq_of_testBit_eq
  intro j
  rw [Nat.testBit_land, Nat.testBit_two_pow, Nat.testBit_two_pow_sub_one,
    Nat.zero_testBit]
  rcases Nat.decEq k j with h | h
  · simp
    omega
  · simp [h]

/-- A non-empty, non-single mask has at least two candidate values. -/
theorem count_ge_two (m : Nat) (hne : ValueMask.isEmpty m = false)
    (hns : ValueMask.isSingle m = false) : 2 ≤ ValueMask.count m := by
  have hvb : ValueMask.valueBits m ≠ 0 := by
    intro hz
    rw [(isEmpty_eq m).mpr hz] at hne
    cases hne
  have hlt := valueBits_lt m
  have h0 : ValueMask.count m ≠ 0 := by
    intro h
    exact hvb ((popAux_eq_zero 32 _ hlt).mp h)
  have h1 : ValueMask.count m ≠ 1 := by
    intro h
    obtain ⟨k, hk⟩ := popAux_eq_one 32 _ hlt h
    have hsingle : ValueMask.isSingle m = true := by
      unfold ValueMask.isSingle
      rw [hk, two_pow_and_pred, Bool.and_eq_true]
      constructor
      · rw [bne_iff_ne]
        have hpos : (0:Nat) < 2 ^ k := Nat.pos_pow_of_pos k (by omega)
        omega
      · rfl
    rw [hsingle] at hns
    cases hns
  omega

theorem boardNew_data_powerfulCells (size : Nat) (regions : List Nat) :
    (Board.new size regions []).data.powerfulCells = [] := by
  unfold Board.new
  dsimp only
  rw [clearCandidates_data]
  rfl

/-- The all-cells scan of `find_best_brute_force_cell` returns an unsolved
cell with at least two candidates whenever one is available. -/
theorem fbScan2_spec (b : Board) : ∀ (L : List Nat) (best : Option Nat) (bc : Nat),
    (best = Option.none → 32 < bc) →
    (∀ cb, best = some cb → ValueMask.isSolved (b.cell cb) = false ∧
      2 ≤ ValueMask.count (b.cell cb)) →
    (∀ c ∈ L, ValueMask.isSolved (b.cell c) = false →
      2 ≤ ValueMask.count (b.cell c)) →
    ((∃ c ∈ L, ValueMask.isSolved (b.cell c) = false) ∨ ∃ cb, best = some cb) →
    ∃ c', fbScan2 b L best bc = some c' ∧ (c' ∈ L ∨ best = some c') ∧
      ValueMask.isSolved (b.cell c') = false ∧ 2 ≤ ValueMask.count (b.cell c') := by
  intro L
  induction L with
  | nil =>
    intro best bc hbc hbest hall hex
    rcases hex with ⟨c, hc, -⟩ | ⟨cb, hcb⟩
    · cases hc
    · obtain ⟨h1, h2⟩ := hbest cb hcb
      exact ⟨cb, by unfold fbScan2; rw [hcb], Or.inr hcb, h1, h2⟩
  | cons c rest ih =>
    intro best bc hbc hbest hall hex
    unfold fbScan2
    dsimp only
    split
    · next hsolved =>
      have hex2 : (∃ x ∈ rest, ValueMask.isSolved (b.cell x) = false) ∨
          ∃ cb, best = some cb := by
        rcases hex with ⟨x, hx, hxs⟩ | hb
        · rcases List.mem_cons.mp hx with rfl | hx2
          · rw [hsolved] at hxs
            cases hxs
          · exact Or.inl ⟨x, hx2, hxs⟩
        · exact Or.inr hb
      obtain ⟨c', h1, h2, h3⟩ := ih best bc hbc hbest
        (fun x hx => hall x (List.mem_cons_of_mem _ hx)) hex2
      exact ⟨c', h1, h2.imp (List.mem_cons_of_mem _) (fun h => h), h3⟩
    · next hunsolved =>
      have hcnt : 2 ≤ ValueMask.count (b.cell c) := by
        apply hall c (List.mem_cons_self ..)
        rcases h : ValueMask.isSolved (b.cell c) with _ | _
        · rfl
        · exact absurd h hunsolved
      split
      · next h1 =>
        simp at h1
        omega
      · split
        · exact ⟨c, rfl, Or.inl (List.mem_cons_self ..), by
            rcases h : ValueMask.isSolved (b.cell c) with _ | _
            · rfl
            · exact absurd h hunsolved, hcnt⟩
        · split
          · -- new best is c
            obtain ⟨c', h1, h2, h3⟩ := ih (some c) (ValueMask.count (b.cell c))
              (fun h => by cases h)
              (fun cb hcb => by
                injection hcb with hcb
                subst hcb
                refine ⟨?_, hcnt⟩
                rcases h : ValueMask.isSolved (b.cell c) with _ | _
                · rfl
                · exact absurd h hunsolved)
              (fun x hx => hall x (List.mem_cons_of_mem _ hx))
              (Or.inr ⟨c, rfl⟩)
            refine ⟨c', h1, ?_, h3⟩
            rcases h2 with h | h
            · exact Or.inl (List.mem_cons_of_mem _ h)
            · injection h with h
              subst h
              exact Or.inl (List.mem_cons_self ..)
          · next h3 =>
            -- keep the old best; it must exist since count ≤ 32 < bc when none
            rcases hb : best with _ | cb
            · exfalso
              rw [hb] at hbc
              have := hbc rfl
              have := count_le_32 (b.cell c)
              omega
            · rw [← hb]
              obtain ⟨c', h1, h2, h4⟩ := ih best bc hbc hbest
                (fun x hx => hall x (List.mem_cons_of_mem _ hx))
                (Or.inr ⟨cb, hb⟩)
              exact ⟨c', h1, h2.imp (List.mem_cons_of_mem _) (fun h => h), h4⟩

/-- On a not-yet-solved board the solved-count bookkeeping yields an
unsolved cell. -/
theorem exists_unsolved (size : Nat) (regions : List Nat) (b : Board)
    (hg : GoodB size regions b) (hns : b.isSolved = false) :
    ∃ c, c < size * size ∧ ValueMask.isSolved (b.cell c) = false := by
  by_contra hcon
  push_neg at hcon
  have hall : ∀ c ∈ List.range (size * size),
      ValueMask.isSolved (b.cell c) = true := by
    intro c hc
    rcases h : ValueMask.isSolved (b.cell c) with _ | _
    · exact absurd h (hcon c (List.mem_range.mp hc))
    · rfl
  have hcount : b.cells.solvedCount = size * size := by
    rw [hg.2.2.2.2.2.1, List.filter_eq_self.mpr hall, List.length_range]
  unfold Board.isSolved at hns
  rw [hcount, GoodB_numCells size regions b hg] at hns
  simp at hns

/-- `find_best_brute_force_cell` on a classic board at an `AllNakedSingles`
fixpoint: it returns an unsolved in-range cell with at least two candidates. -/
theorem findBestBruteForceCell_spec (size : Nat) (regions : List Nat) (b : Board)
    (hg : GoodB size regions b) (hfix : ansFix size b) (hns : b.isSolved = false) :
    ∃ cell, findBestBruteForceCell b = some cell ∧ cell < size * size ∧
      ValueMask.isSolved (b.cell cell) = false ∧
      2 ≤ ValueMask.count (b.cell cell) := by
  obtain ⟨c0, hc0, hc0u⟩ := exists_unsolved size regions b hg hns
  have hpc : b.data.powerfulCells = [] := by
    rw [hg.1, boardNew_data_powerfulCells]
  have hnc := GoodB_numCells size regions b hg
  unfold findBestBruteForceCell
  rw [hpc]
  have hstart : fbScan1 b [] Option.none usizeMax = Option.none := rfl
  rw [hstart]
  obtain ⟨c', h1, h2, h3, h4⟩ := fbScan2_spec b (List.range b.data.numCells)
    Option.none usizeMax
    (fun _ => by unfold usizeMax; omega)
    (fun cb hcb => by cases hcb)
    (fun x hx hxu => by
      rcases hfix x (by rw [hnc] at hx; exact List.mem_range.mp hx) with h | ⟨hs, he⟩
      · rw [h] at hxu
        cases hxu
      · exact count_ge_two _ he hs)
    (Or.inl ⟨c0, by rw [hnc]; exact List.mem_range.mpr hc0, hc0u⟩)
  refine ⟨c', h1, ?_, h3, h4⟩
  rcases h2 with h | h
  · rw [hnc] at h
    exact List.mem_range.mp h
  · cases h

/-! ## The finite set of solutions -/

/-- The assignment encoded by a tuple of cell values (value = index + 1;
cells beyond the grid read as 1). -/
def avals (n sz : Nat) (F : Fin n → Fin sz) : Nat → Nat :=
  fun c => if h : c < n then (F ⟨c, h⟩).1 + 1 else 1

/-- Executable check of `isSolution`. -/
def isSolutionB (b : Board) (A : Nat → Nat) : Bool :=
  ((List.range b.data.numCells).all fun c =>
    decide (1 ≤ A c) && decide (A c ≤ b.data.size) &&
      ValueMask.has (b.cell c) (A c)) &&
  ((List.range b.data.numCells).all fun c1 =>
    (List.range b.data.numCells).all fun c2 =>
      c1 == c2 ||
        !(b.data.weakLinks (candOf b.data.size c1 (A c1))).testBit
          (candOf b.data.size c2 (A c2)))

theorem isSolutionB_iff (b : Board) (A : Nat → Nat) :
    isSolutionB b A = true ↔ isSolution b A := by
  unfold isSolutionB isSolution valsInRange linkConsistent admits
  simp only [Bool.and_eq_true, List.all_eq_true, List.mem_range, decide_eq_true_eq,
    Bool.or_eq_true, Bool.not_eq_true', beq_iff_eq]
  constructor
  · rintro ⟨h1, h2⟩
    refine ⟨fun c hc => (h1 c hc).1, fun c1 c2 hc1 hc2 hne => ?_,
      fun c hc => (h1 c hc).2⟩
    rcases h2 c1 hc1 c2 hc2 with he | hf
    · exact absurd he hne
    · exact hf
  · rintro ⟨hr, hl, ha⟩
    refine ⟨fun c hc => ⟨hr c hc, ha c hc⟩, fun c1 hc1 c2 hc2 => ?_⟩
    rcases Nat.decEq c1 c2 with hne | he
    · exact Or.inr (hl c1 c2 hc1 hc2 hne)
    · exact Or.inl he

/-- `isSolution` only reads the assignment below `num_cells`. -/
theorem isSolution_ext (b : Board) (A A' : Nat → Nat)
    (hx : ∀ c, c < b.data.numCells → A c = A' c) :
    isSolution b A ↔ isSolution b A' := by
  unfold isSolution valsInRange linkConsistent admits
  constructor
  · rintro ⟨hr, hl, ha⟩
    refine ⟨fun c hc => by rw [← hx c hc]; exact hr c hc,
      fun c1 c2 hc1 hc2 hne => by rw [← hx c1 hc1, ← hx c2 hc2]; exact hl c1 c2 hc1 hc2 hne,
      fun c hc => by rw [← hx c hc]; exact ha c hc⟩
  · rintro ⟨hr, hl, ha⟩
    refine ⟨fun c hc => by rw [hx c hc]; exact hr c hc,
      fun c1 c2 hc1 hc2 hne => by rw [hx c1 hc1, hx c2 hc2]; exact hl c1 c2 hc1 hc2 hne,
      fun c hc => by rw [hx c hc]; exact ha c hc⟩

/-- Encode an assignment as a tuple of cell values. -/
def finOf (sz : Nat) (hs : 0 < sz) (A : Nat → Nat) : Fin (sz * sz) → Fin sz :=
  fun i => ⟨(A i.1 - 1) % sz, Nat.mod_lt _ hs⟩

/-- The solutions of a board state, as a finite set of value tuples. -/
def solF (sz : Nat) (b : Board) : Finset (Fin (sz * sz) → Fin sz) :=
  Finset.univ.filter (fun F => isSolutionB b (avals (sz * sz) sz F) = true)

theorem mem_solF (sz : Nat) (b : Board) (F : Fin (sz * sz) → Fin sz) :
    F ∈ solF sz b ↔ isSolution b (avals (sz * sz) sz F) := by
  unfold solF
  rw [Finset.mem_filter, isSolutionB_iff]
  simp

theorem avals_finOf (sz : Nat) (hs : 0 < sz) (A : Nat → Nat) (c : Nat)
    (hc : c < sz * sz) (h1 : 1 ≤ A c) (h2 : A c ≤ sz) :
    avals (sz * sz) sz (finOf sz hs A) c = A c := by
  unfold avals finOf
  rw [dif_pos hc]
  dsimp only
  rw [Nat.mod_eq_of_lt (by omega)]
  omega

theorem finOf_mem_solF (sz : Nat) (regions : List Nat) (b : Board) (hs : 0 < sz)
    (hg : GoodB sz regions b) (A : Nat → Nat) (hA : isSolution b A) :
    finOf sz hs A ∈ solF sz b := by
  have hnc := GoodB_numCells sz regions b hg
  have hszb := GoodB_size sz regions b hg
  rw [mem_solF]
  rw [← isSolution_ext b A _ ?_]
  · exact hA
  · intro c hc
    rw [hnc] at hc
    have hrc := hA.1 c (by rw [hnc]; exact hc)
    rw [hszb] at hrc
    rw [avals_finOf sz hs A c hc hrc.1 hrc.2]

theorem solF_eq_empty (sz : Nat) (b : Board)
    (hns : ∀ A, ¬ isSolution b A) : solF sz b = ∅ := by
  apply Finset.eq_empty_of_forall_not_mem
  intro F hF
  exact hns _ ((mem_solF sz b F).mp hF)

theorem noSolution_of_solF_empty (sz : Nat) (regions : List Nat) (b : Board)
    (hg : GoodB sz regions b) (h : (solF sz b).card = 0) : ∀ A, ¬ isSolution b A := by
  intro A hA
  have hs : 0 < sz := hg.2.2.2.2.2.2.1
  have hmem := finOf_mem_solF sz regions b hs hg A hA
  rw [Finset.card_eq_zero] at h
  rw [h] at hmem
  cases hmem

theorem solF_congr (sz : Nat) (b b' : Board)
    (h : ∀ A, isSolution b' A ↔ isSolution b A) : solF sz b' = solF sz b := by
  ext F
  rw [mem_solF, mem_solF, h]

/-- A fully solved well-formed board has exactly one solution tuple. -/
theorem solF_card_of_solved (sz : Nat) (regions : List Nat) (b : Board)
    (hg : GoodB sz regions b) (hsolved : b.isSolved = true) :
    (solF sz b).card = 1 := by
  have hs : 0 < sz := hg.2.2.2.2.2.2.1
  have hnc := GoodB_numCells sz regions b hg
  have hszb := GoodB_size sz regions b hg
  obtain ⟨hsol, huniq⟩ := solution_of_solved sz regions b hg hsolved
  have hbounds : ∀ c, c < sz * sz → 1 ≤ assignOfBoard b c ∧ assignOfBoard b c ≤ sz := by
    intro c hc
    have := hsol.1 c (by rw [hnc]; exact hc)
    rw [hszb] at this
    exact this
  rw [show (solF sz b) = {finOf sz hs (assignOfBoard b)} from ?_]
  · exact Finset.card_singleton _
  · ext F
    rw [mem_solF, Finset.mem_singleton]
    constructor
    · intro hF
      funext i
      have hiv := huniq _ hF i.1 i.2
      apply Fin.ext
      show F i = (assignOfBoard b i.1 - 1) % sz
      have hAv : avals (sz * sz) sz F i.1 = (F i).1 + 1 := by
        unfold avals
        rw [dif_pos i.2]
      rw [hAv] at hiv
      have := (hbounds i.1 i.2)
      rw [Nat.mod_eq_of_lt (by omega)]
      omega
    · intro hF
      subst hF
      refine (isSolution_ext b _ (assignOfBoard b) ?_).mpr hsol
      intro c hc
      rw [hnc] at hc
      exact avals_finOf sz hs _ c hc (hbounds c hc).1 (hbounds c hc).2

/-! ## Branching partitions the solution set -/

/-- A successful commit keeps exactly the solutions taking that value
there. -/
theorem setSolved_sol_iff (sz : Nat) (regions : List Nat) (b : Board)
    (cell v : Nat) (hg : GoodB sz regions b) (hcell : cell < sz * sz)
    (hv1 : 1 ≤ v) (hok : (b.setSolved cell v).2 = true) (A : Nat → Nat) :
    isSolution (b.setSolved cell v).1 A ↔ (isSolution b A ∧ A cell = v) := by
  have hs : 0 < sz := hg.2.2.2.2.2.2.1
  have hs31 : sz ≤ 31 := hg.2.2.2.2.2.2.2
  have hnc := GoodB_numCells sz regions b hg
  have hszb := GoodB_size sz regions b hg
  have hm : b.cell cell < 2 ^ 32 := by
    apply mask_lt_u32
    intro k hk
    have := hg.2.2.1 cell hcell k hk
    omega
  constructor
  · intro hA
    exact isSolution_setSolved_rev b cell v A (by omega) (by omega) hm hv1 hok
      (by omega) hA
  · rintro ⟨hA, hAv⟩
    have hns : ValueMask.isSolved (b.cell cell) = false :=
      (setSolved_success_spec b cell v (by omega) (by omega) hm hok).2.1
    have := (setSolved_of_solution sz regions b hg.1 hg.2.1 hs31 A hA cell hcell hns).2
    rw [hAv] at this
    exact this

/-- A failed commit of a candidate value at an unsolved cell rules the value
out of every solution. -/
theorem setSolved_fail_excludes (sz : Nat) (regions : List Nat) (b : Board)
    (cell v : Nat) (hg : GoodB sz regions b) (hcell : cell < sz * sz)
    (hns : ValueMask.isSolved (b.cell cell) = false)
    (hfail : (b.setSolved cell v).2 = false) :
    ∀ A, isSolution b A → A cell ≠ v := by
  intro A hA hAv
  have hs31 : sz ≤ 31 := hg.2.2.2.2.2.2.2
  have := (setSolved_of_solution sz regions b hg.1 hg.2.1 hs31 A hA cell hcell hns).1
  rw [hAv, hfail] at this
  cases this

theorem solF_fiber_succ (sz : Nat) (regions : List Nat) (b : Board)
    (cell v : Nat) (hg : GoodB sz regions b) (hcell : cell < sz * sz)
    (hv1 : 1 ≤ v) (hok : (b.setSolved cell v).2 = true) :
    solF sz (b.setSolved cell v).1 =
      (solF sz b).filter (fun F => avals (sz * sz) sz F cell = v) := by
  ext F
  rw [mem_solF, Finset.mem_filter, mem_solF,
    setSolved_sol_iff sz regions b cell v hg hcell hv1 hok]

theorem solF_fiber_fail (sz : Nat) (regions : List Nat) (b : Board)
    (cell v : Nat) (hg : GoodB sz regions b) (hcell : cell < sz * sz)
    (hns : ValueMask.isSolved (b.cell cell) = false)
    (hfail : (b.setSolved cell v).2 = false) :
    (solF sz b).filter (fun F => avals (sz * sz) sz F cell = v) = ∅ := by
  apply Finset.eq_empty_of_forall_not_mem
  intro F hF
  rw [Finset.mem_filter, mem_solF] at hF
  exact setSolved_fail_excludes sz regions b cell v hg hcell hns hfail _ hF.1 hF.2

theorem bitIndicesFrom_ge : ∀ (f n i v : Nat), v ∈ bitIndicesFrom f n i → i ≤ v := by
  intro f
  induction f with
  | zero =>
    intro n i v h
    cases h
  | succ f ih =>
    intro n i v h
    unfold bitIndicesFrom at h
    split at h
    · cases h
    · split at h
      · rcases List.mem_cons.mp h with rfl | h2
        · omega
        · have := ih (n / 2) (i + 1) v h2
          omega
      · have := ih (n / 2) (i + 1) v h
        omega

theorem bitIndicesFrom_nodup : ∀ (f n i : Nat), (bitIndicesFrom f n i).Nodup := by
  intro f
  induction f with
  | zero =>
    intro n i
    exact List.nodup_nil
  | succ f ih =>
    intro n i
    unfold bitIndicesFrom
    split
    · exact List.nodup_nil
    · split
      · refine List.nodup_cons.mpr ⟨?_, ih (n / 2) (i + 1)⟩
        intro hmem
        have := bitIndicesFrom_ge f (n / 2) (i + 1) i hmem
        omega
      · exact ih (n / 2) (i + 1)

theorem toVals_nodup (m : Nat) : (ValueMask.toVals m).Nodup :=
  bitIndicesFrom_nodup 32 _ 1

theorem sum_toFinset_eq : ∀ (l : List Nat), l.Nodup → ∀ (g : Nat → Nat),
    l.toFinset.sum g = (l.map g).sum := by
  intro l
  induction l with
  | nil =>
    intro _ g
    rfl
  | cons a l ih =>
    intro hnd g
    rw [List.toFinset_cons, List.map_cons, List.sum_cons]
    rw [Finset.sum_insert (by
      rw [List.mem_toFinset]
      exact (List.nodup_cons.mp hnd).1)]
    rw [ih (List.nodup_cons.mp hnd).2 g]

/-- Branching on an unsolved cell partitions the solutions by the value
taken there; failed commits contribute nothing. -/
theorem solF_card_partition (sz : Nat) (regions : List Nat) (b : Board)
    (cell : Nat) (hg : GoodB sz regions b) (hcell : cell < sz * sz)
    (hns : ValueMask.isSolved (b.cell cell) = false) :
    (solF sz b).card = ((ValueMask.toVals (b.cell cell)).map (fun v =>
      if (b.setSolved cell v).2 then (solF sz (b.setSolved cell v).1).card
      else 0)).sum := by
  have hnc := GoodB_numCells sz regions b hg
  have hszb := GoodB_size sz regions b hg
  have hs31 : sz ≤ 31 := hg.2.2.2.2.2.2.2
  have hmemt : ∀ F ∈ solF sz b,
      avals (sz * sz) sz F cell ∈ (ValueMask.toVals (b.cell cell)).toFinset := by
    intro F hF
    rw [List.mem_toFinset, mem_toVals]
    have hA := (mem_solF sz b F).mp hF
    have hhas := hA.2.2 cell (by omega)
    have hrc := hA.1 cell (by omega)
    rw [hszb] at hrc
    rw [has_eq_testBit] at hhas
    refine ⟨by omega, by omega, ?_⟩
    rw [testBit_valueBits, hhas]
    simp
    omega
  rw [Finset.card_eq_sum_card_fiberwise hmemt]
  rw [sum_toFinset_eq _ (toVals_nodup _)]
  congr 1
  apply List.map_congr_left
  intro v hv
  have hv1 : 1 ≤ v := ((mem_toVals _ v).mp hv).1
  rcases hok : (b.setSolved cell v).2 with _ | _
  · rw [if_neg (fun h => Bool.noConfusion h)]
    rw [show ((solF sz b).filter (fun F => avals (sz * sz) sz F cell = v)) = ∅ from
      solF_fiber_fail sz regions b cell v hg hcell hns hok]
    rfl
  · rw [if_pos rfl]
    rw [solF_fiber_succ sz regions b cell v hg hcell hv1 hok]

/-! ## The counting loop -/

/-- Total number of solution tuples carried by a search stack. -/
def stackCards (sz : Nat) (stack : List Board) : Nat :=
  (stack.map (fun b => (solF sz b).card)).sum

theorem fscPush_sum (sz : Nat) (b : Board) (cell : Nat) : ∀ (vs : List Nat)
    (stack : List Board),
    stackCards sz (fscPush b cell vs stack) =
      (vs.map (fun v => if (b.setSolved cell v).2 then
        (solF sz (b.setSolved cell v).1).card else 0)).sum + stackCards sz stack := by
  intro vs
  induction vs with
  | nil =>
    intro stack
    unfold fscPush
    rw [List.map_nil, List.sum_nil]
    omega
  | cons v vs ih =>
    intro stack
    unfold fscPush
    dsimp only
    rw [ih]
    rw [List.map_cons, List.sum_cons]
    rcases hok : (b.setSolved cell v).2 with _ | _
    · rw [if_neg (fun h => Bool.noConfusion h), if_neg (fun h => Bool.noConfusion h)]
      omega
    · rw [if_pos rfl, if_pos rfl]
      unfold stackCards
      rw [List.map_cons, List.sum_cons]
      omega

theorem fscPush_mem (b : Board) (cell : Nat) : ∀ (vs : List Nat)
    (stack : List Board) (x : Board), x ∈ fscPush b cell vs stack →
    x ∈ stack ∨ ∃ v ∈ vs, (b.setSolved cell v).2 = true ∧
      x = (b.setSolved cell v).1 := by
  intro vs
  induction vs with
  | nil =>
    intro stack x hx
    exact Or.inl hx
  | cons v vs ih =>
    intro stack x hx
    unfold fscPush at hx
    dsimp only at hx
    rcases ih _ x hx with hmem | ⟨w, hw, hok, hxw⟩
    · split at hmem
      · next hok =>
        rcases List.mem_cons.mp hmem with rfl | h2
        · exact Or.inr ⟨v, List.mem_cons_self .., hok, rfl⟩
        · exact Or.inl h2
      · exact Or.inl hmem
    · exact Or.inr ⟨w, List.mem_cons_of_mem _ hw, hok, hxw⟩

/-- The values of an unsolved cell's mask on a well-formed board lie in
`1..=size`. -/
theorem toVals_bounds (sz : Nat) (regions : List Nat) (b : Board) (cell : Nat)
    (hg : GoodB sz regions b) (hcell : cell < sz * sz) :
    ∀ v ∈ ValueMask.toVals (b.cell cell), 1 ≤ v ∧ v ≤ sz := by
  intro v hv
  obtain ⟨h1, h2, hbit⟩ := (mem_toVals _ v).mp hv
  rw [testBit_valueBits, Bool.and_eq_true] at hbit
  have h31 := of_decide_eq_true hbit.2
  have := hg.2.2.1 cell hcell (v - 1) hbit.1
  refine ⟨h1, ?_⟩
  omega

theorem fscLoop_empty_conc (maxCount count : Nat) (res : SolutionCountResult)
    (h1 : (if (count == 0) = true then SolutionCountResult.none
      else SolutionCountResult.exactCount count) = res)
    (hcm : count < maxCount) (scs : Nat) (hscs : scs = 0) :
    (count + scs = 0 → res = .none) ∧
    (0 < count + scs → count + scs < maxCount →
      res = .exactCount (count + scs)) ∧
    (maxCount ≤ count + scs → res = .atLeastCount maxCount) := by
  subst hscs
  refine ⟨?_, ?_, ?_⟩
  · intro h0
    rw [← h1]
    have hc : count = 0 := by omega
    subst hc
    rfl
  · intro hpos hlt
    rw [← h1]
    have hc0 : (count == 0) = false := by
      rcases h : count == 0 with _ | _
      · rfl
      · exfalso
        have hc : count = 0 := by simpa using h
        omega
    rw [hc0, if_neg (fun h => Bool.noConfusion h), Nat.add_zero]
  · intro hge
    exact absurd hge (by omega)

/-- The counting loop with no receiver: when it completes, it reports the
number of solutions on its stack plus the running count, capped at
`max_count`. -/
theorem fscLoop_none_spec (sz : Nat) (regions : List Nat) {σ : Type}
    (maxCount : Nat) :
    ∀ (f : Nat) (stack : List Board) (count : Nat) (s : σ)
      (res : SolutionCountResult) (s' : σ),
    (∀ x ∈ stack, GoodB sz regions x) → count < maxCount →
    fscLoop (Option.none : Option (σ → Board → σ × Bool)) maxCount f stack count s
      = some (res, s') →
    s' = s ∧
    (count + stackCards sz stack = 0 → res = .none) ∧
    (0 < count + stackCards sz stack → count + stackCards sz stack < maxCount →
      res = .exactCount (count + stackCards sz stack)) ∧
    (maxCount ≤ count + stackCards sz stack → res = .atLeastCount maxCount) := by
  intro f
  induction f with
  | zero =>
    intro stack count s res s' hgs hcm hrun
    cases stack with
    | nil =>
      unfold fscLoop at hrun
      rw [Option.some.injEq] at hrun
      injection hrun with h1 h2
      subst h2
      exact ⟨rfl, fscLoop_empty_conc maxCount count res h1 hcm _ rfl⟩
    | cons b rest =>
      unfold fscLoop at hrun
      cases hrun
  | succ f ih =>
    intro stack count s res s' hgs hcm hrun
    cases stack with
    | nil =>
      unfold fscLoop at hrun
      rw [Option.some.injEq] at hrun
      injection hrun with h1 h2
      subst h2
      exact ⟨rfl, fscLoop_empty_conc maxCount count res h1 hcm _ rfl⟩
    | cons b rest =>
      have hgb : GoodB sz regions b := hgs b (List.mem_cons_self ..)
      have hgrest : ∀ x ∈ rest, GoodB sz regions x :=
        fun x hx => hgs x (List.mem_cons_of_mem _ hx)
      have hstack : stackCards sz (b :: rest) =
          (solF sz b).card + stackCards sz rest := by
        unfold stackCards
        rw [List.map_cons, List.sum_cons]
      unfold fscLoop at hrun
      obtain ⟨hcond, -⟩ := rbfl_spec sz regions (bfFuel b) b hgb
      rcases hlog : runBruteForceLogic b (bfFuel b) with _ | ⟨b1, ok⟩
      · rw [hlog] at hrun
        cases hrun
      · rw [hlog] at hrun
        obtain ⟨hfalse, htrue⟩ := hcond b1 ok hlog
        cases ok with
        | false =>
          have hnos := hfalse rfl
          have hcardb : (solF sz b).card = 0 := by
            rw [solF_eq_empty sz b hnos]
            rfl
          dsimp only at hrun
          obtain ⟨e1, e2, e3, e4⟩ := ih rest count s res s' hgrest hcm hrun
          rw [hstack, hcardb, Nat.zero_add]
          exact ⟨e1, e2, e3, e4⟩
        | true =>
          obtain ⟨hgb1, hsoleq, -, hsf⟩ := htrue rfl
          have hcardeq : (solF sz b).card = (solF sz b1).card := by
            rw [solF_congr sz b b1 hsoleq]
          dsimp only at hrun
          rcases hsolved : b1.isSolved with _ | _
          · -- not solved: branch on the best cell
            rw [hsolved] at hrun
            rw [if_neg (fun h => Bool.noConfusion h)] at hrun
            have hfix : ansFix sz b1 := by
              rcases hsf with h | h
              · rw [h] at hsolved
                cases hsolved
              · exact h
            obtain ⟨cell, hbest, hcellb, hcellns, -⟩ :=
              findBestBruteForceCell_spec sz regions b1 hgb1 hfix hsolved
            rw [hbest] at hrun
            dsimp only at hrun
            have hbounds := toVals_bounds sz regions b1 cell hgb1 hcellb
            have hgpush : ∀ x ∈ fscPush b1 cell (ValueMask.toVals (b1.cell cell)) rest,
                GoodB sz regions x := by
              intro x hx
              rcases fscPush_mem b1 cell _ rest x hx with hmem | ⟨v, hv, hok, hxv⟩
              · exact hgrest x hmem
              · rw [hxv]
                exact GoodB_setSolved sz regions b1 cell v hgb1 (hbounds v hv).1
                  (hbounds v hv).2 hcellb hok
            obtain ⟨e1, e2, e3, e4⟩ := ih _ count s res s' hgpush hcm hrun
            rw [fscPush_sum sz b1 cell _ rest] at e2 e3 e4
            rw [← solF_card_partition sz regions b1 cell hgb1 hcellb hcellns]
              at e2 e3 e4
            rw [hstack, hcardeq]
            exact ⟨e1, e2, e3, e4⟩
          · -- solved: count it
            rw [hsolved] at hrun
            rw [if_pos rfl] at hrun
            have hcard1 : (solF sz b1).card = 1 :=
              solF_card_of_solved sz regions b1 hgb1 hsolved
            split at hrun
            · next hstop =>
              rw [Option.some.injEq] at hrun
              injection hrun with h1 h2
              subst h2
              rw [hstack, hcardeq, hcard1]
              refine ⟨rfl, ?_, ?_, ?_⟩
              · intro h0
                exact absurd h0 (by omega)
              · intro hpos hlt
                exact absurd hlt (by omega)
              · intro hge
                rw [← h1]
                congr 1
                omega
            · next hstop =>
              obtain ⟨e1, e2, e3, e4⟩ := ih rest (count + 1) s res s'
                hgrest (by omega) hrun
              rw [hstack, hcardeq, hcard1]
              refine ⟨e1, ?_, ?_, ?_⟩
              · intro h0
                exact absurd h0 (by omega)
              · intro hpos hlt
                have hres := e3 (by omega) (by omega)
                rw [hres]
                congr 1
                omega
              · intro hge
                exact e4 (by omega)

/-- Whatever the receiver does, an `AtLeastCount` result means the cap was
reached or the receiver asked to stop (and then its state is returned). -/
theorem fscLoop_atLeast {σ : Type} (recv : Option (σ → Board → σ × Bool))
    (maxCount : Nat) :
    ∀ (f : Nat) (stack : List Board) (count : Nat) (s : σ) (k : Nat) (s' : σ),
    fscLoop recv maxCount f stack count s = some (.atLeastCount k, s') →
    maxCount ≤ k ∨ ∃ r sp bs, recv = some r ∧ (r sp bs).2 = false ∧
      s' = (r sp bs).1 := by
  intro f
  induction f with
  | zero =>
    intro stack count s k s' hrun
    cases stack with
    | nil =>
      unfold fscLoop at hrun
      rw [Option.some.injEq] at hrun
      injection hrun with h1 h2
      split at h1
      · cases h1
      · cases h1
    | cons b rest =>
      unfold fscLoop at hrun
      cases hrun
  | succ f ih =>
    intro stack count s k s' hrun
    cases stack with
    | nil =>
      unfold fscLoop at hrun
      rw [Option.some.injEq] at hrun
      injection hrun with h1 h2
      split at h1
      · cases h1
      · cases h1
    | cons b rest =>
      unfold fscLoop at hrun
      rcases hlog : runBruteForceLogic b (bfFuel b) with _ | ⟨b1, ok⟩
      · rw [hlog] at hrun
        cases hrun
      · rw [hlog] at hrun
        cases ok with
        | false =>
          exact ih rest count s k s' hrun
        | true =>
          dsimp only at hrun
          rcases hsolved : b1.isSolved with _ | _
          · rw [hsolved, if_neg (fun h => Bool.noConfusion h)] at hrun
            rcases hbest : findBestBruteForceCell b1 with _ | cell
            · rw [hbest] at hrun
              dsimp only at hrun
              rw [Option.some.injEq] at hrun
              injection hrun with h1 h2
              cases h1
            · rw [hbest] at hrun
              dsimp only at hrun
              exact ih _ count s k s' hrun
          · rw [hsolved, if_pos rfl] at hrun
            rcases hrecv : recv with _ | r
            · rw [hrecv] at hrun
              rw [hrecv] at ih
              dsimp only at hrun
              split at hrun
              · next hstop =>
                rw [Option.some.injEq] at hrun
                injection hrun with h1 h2
                injection h1 with h1
                exact Or.inl (by omega)
              · exact ih rest (count + 1) s k s' hrun
            · rw [hrecv] at hrun
              rw [hrecv] at ih
              dsimp only at hrun
              split at hrun
              · next hfalse =>
                rw [Option.some.injEq] at hrun
                injection hrun with h1 h2
                refine Or.inr ⟨r, s, b1, rfl, ?_, h2.symm⟩
                rcases hr2 : (r s b1).2 with _ | _
                · rfl
                · rw [hr2] at hfalse
                  cases hfalse
              · split at hrun
                · next hstop =>
                  rw [Option.some.injEq] at hrun
                  injection hrun with h1 h2
                  injection h1 with h1
                  exact Or.inl (by omega)
                · exact ih rest (count + 1) (r s b1).1 k s' hrun

/-- A well-formed board has exactly one solution tuple iff it has a
solution that every solution agrees with on the grid. -/
theorem solF_card_one_iff (sz : Nat) (regions : List Nat) (b : Board)
    (hg : GoodB sz regions b) :
    (solF sz b).card = 1 ↔ ∃ A, isSolution b A ∧
      ∀ A', isSolution b A' → ∀ c, c < sz * sz → A' c = A c := by
  have hs : 0 < sz := hg.2.2.2.2.2.2.1
  have hnc := GoodB_numCells sz regions b hg
  have hszb := GoodB_size sz regions b hg
  constructor
  · intro hcard
    obtain ⟨F0, hF0⟩ := Finset.card_eq_one.mp hcard
    have hF0mem : F0 ∈ solF sz b := by
      rw [hF0]
      exact Finset.mem_singleton_self _
    refine ⟨avals (sz * sz) sz F0, (mem_solF sz b F0).mp hF0mem, ?_⟩
    intro A' hA' c hc
    have hmem := finOf_mem_solF sz regions b hs hg A' hA'
    rw [hF0, Finset.mem_singleton] at hmem
    have hrc := hA'.1 c (by omega)
    rw [hszb] at hrc
    rw [← hmem]
    rw [avals_finOf sz hs A' c hc hrc.1 hrc.2]
  · rintro ⟨A, hA, huniq⟩
    have hbounds : ∀ c, c < sz * sz → 1 ≤ A c ∧ A c ≤ sz := by
      intro c hc
      have := hA.1 c (by omega)
      rw [hszb] at this
      exact this
    rw [show solF sz b = {finOf sz hs A} from ?_]
    · exact Finset.card_singleton _
    · ext F
      rw [mem_solF, Finset.mem_singleton]
      constructor
      · intro hF
        funext i
        have hiv := huniq _ hF i.1 i.2
        apply Fin.ext
        show (F i).1 = (A i.1 - 1) % sz
        have hAv : avals (sz * sz) sz F i.1 = (F i).1 + 1 := by
          unfold avals
          rw [dif_pos i.2]
        rw [hAv] at hiv
        have := hbounds i.1 i.2
        rw [Nat.mod_eq_of_lt (by omega)]
        omega
      · intro hF
        subst hF
        refine (isSolution_ext b _ A ?_).mpr hA
        intro c hc
        rw [hnc] at hc
        exact avals_finOf sz hs A c hc (hbounds c hc).1 (hbounds c hc).2

/-- **C4.** For every well-formed board, maximum count `maxCount > 0`, and
optional receiver, whenever `find_solution_count` completes: an
`AtLeastCount k` result means `k` reached `maxCount` or the receiver
returned false; with no receiver, the result is `None` exactly when the
puzzle has no solutions, `ExactCount k` (with `k > 0`) exactly when the
whole search tree was exhausted having found `k < maxCount` solutions, and
`AtLeastCount maxCount` whenever at least `maxCount` solutions exist;
consequently `find_solution_count(2, None)` reports `ExactCount 1` iff the
puzzle has exactly one solution. -/
theorem claim_C4 {σ : Type} (size : Nat) (regions : List Nat) (b : Board)
    (hg : GoodB size regions b) (maxCount : Nat) (hmax : 0 < maxCount)
    (recv : Option (σ → Board → σ × Bool)) (s : σ) (fuel : Nat)
    (res : SolutionCountResult) (s' : σ)
    (hrun : findSolutionCount b maxCount recv s fuel = some (res, s')) :
    (∀ k, res = .atLeastCount k → maxCount ≤ k ∨
      ∃ r sp bs, recv = some r ∧ (r sp bs).2 = false ∧ s' = (r sp bs).1) ∧
    (recv = Option.none →
      ((res = .none ↔ ∀ A, ¬ isSolution b A) ∧
       (∀ k, res = .exactCount k ↔
         ((solF size b).card = k ∧ 0 < k ∧ k < maxCount)) ∧
       (maxCount ≤ (solF size b).card → res = .atLeastCount maxCount))) ∧
    (recv = Option.none → maxCount = 2 →
      (res = .exactCount 1 ↔ ∃ A, isSolution b A ∧
        ∀ A', isSolution b A' → ∀ c, c < size * size → A' c = A c)) := by
  unfold findSolutionCount at hrun
  have hmain : recv = Option.none →
      ((res = .none ↔ ∀ A, ¬ isSolution b A) ∧
       (∀ k, res = .exactCount k ↔
         ((solF size b).card = k ∧ 0 < k ∧ k < maxCount)) ∧
       (maxCount ≤ (solF size b).card → res = .atLeastCount maxCount)) := by
    intro hrecv
    rw [hrecv] at hrun
    obtain ⟨-, w2, w3, w4⟩ := fscLoop_none_spec size regions maxCount fuel [b] 0 s
      res s'
      (by
        intro x hx
        rcases List.mem_cons.mp hx with rfl | h2
        · exact hg
        · cases h2) hmax hrun
    have hsc : stackCards size [b] = (solF size b).card := by
      unfold stackCards
      rw [List.map_cons, List.map_nil, List.sum_cons, List.sum_nil]
      omega
    rw [Nat.zero_add, hsc] at w2 w3 w4
    refine ⟨?_, ?_, ?_⟩
    · constructor
      · intro h
        by_contra hcon
        push_neg at hcon
        obtain ⟨A, hA⟩ := hcon
        have hmem := finOf_mem_solF size regions b hg.2.2.2.2.2.2.1 hg A hA
        have hpos : 0 < (solF size b).card := Finset.card_pos.mpr ⟨_, hmem⟩
        rcases Nat.lt_or_ge (solF size b).card maxCount with hlt | hge
        · have hres := w3 hpos hlt
          rw [h] at hres
          cases hres
        · have hres := w4 hge
          rw [h] at hres
          cases hres
      · intro hns
        apply w2
        rw [show (solF size b).card = 0 from by rw [solF_eq_empty size b hns]; rfl]
    · intro k
      constructor
      · intro h
        rcases Nat.eq_zero_or_pos (solF size b).card with h0 | hpos
        · have hres := w2 h0
          rw [h] at hres
          cases hres
        · rcases Nat.lt_or_ge (solF size b).card maxCount with hlt | hge
          · have hres := w3 hpos hlt
            rw [h] at hres
            injection hres with he
            exact ⟨he.symm, by omega, by omega⟩
          · have hres := w4 hge
            rw [h] at hres
            cases hres
      · rintro ⟨hcard, hpos, hlt⟩
        have hres := w3 (by omega) (by omega)
        rw [hres, hcard]
    · intro hge
      exact w4 hge
  refine ⟨?_, hmain, ?_⟩
  · intro k hk
    rw [hk] at hrun
    exact fscLoop_atLeast recv maxCount fuel [b] 0 s k s' hrun
  · intro hrecv hmax2
    obtain ⟨-, hex, -⟩ := hmain hrecv
    rw [hex 1]
    subst hmax2
    constructor
    · rintro ⟨hcard, -, -⟩
      exact (solF_card_one_iff size regions b hg).mp hcard
    · intro hu
      exact ⟨(solF_card_one_iff size regions b hg).mpr hu, by omega, by omega⟩

theorem claim_C4_witness :
    findSolutionCount (Board.new 2 [] []) 2
        (Option.none : Option (Unit → Board → Unit × Bool)) () 8 =
      some (.atLeastCount 2, ()) ∧
    (2 ≤ (solF 2 (Board.new 2 [] [])).card →
      SolutionCountResult.atLeastCount 2 = .atLeastCount 2) := by
  have hrun : findSolutionCount (Board.new 2 [] [])
      2 (Option.none : Option (Unit → Board → Unit × Bool)) () 8 =
      some (.atLeastCount 2, ()) := by rfl
  refine ⟨hrun, ?_⟩
  have happ := claim_C4 2 [] (Board.new 2 [] [])
    (GoodB_boardNew 2 [] (by omega) (by omega)) 2 (by omega)
    (Option.none : Option (Unit → Board → Unit × Bool)) () 8
    (.atLeastCount 2) () hrun
  exact (happ.2.1 rfl).2.2

/-! ## The random-solution search (claim C2 groundwork)

`ValueMask::random` is absent from the library snapshot; per the spec it
picks one of the remaining candidate values, so the random source is
modelled as an arbitrary stream `rng` subject to exactly that contract:
on a mask with candidates it returns a value (at least 1) the mask has. -/

theorem valueBits_ne_zero_of_count (m : Nat) (h : 1 ≤ ValueMask.count m) :
    ValueMask.valueBits m ≠ 0 := by
  intro hz
  unfold ValueMask.count at h
  rw [hz] at h
  have h0 : popAux 32 0 = 0 := (popAux_eq_zero 32 0 (by positivity)).mpr rfl
  omega

theorem has_le_size (sz : Nat) (regions : List Nat) (b : Board) (c v : Nat)
    (hg : GoodB sz regions b) (hc : c < sz * sz)
    (hns : ValueMask.isSolved (b.cell c) = false) (hv1 : 1 ≤ v)
    (hhas : ValueMask.has (b.cell c) v = true) : v ≤ sz := by
  rw [has_eq_testBit] at hhas
  rcases hg.2.2.1 c hc (v - 1) hhas with h31 | hlt
  · exfalso
    rw [isSolved_eq_testBit] at hns
    rw [h31] at hhas
    rw [hhas] at hns
    cases hns
  · omega

/-- The stack loop of `find_random_solution_for_board`: any solved result is
a genuine solution of (a board subsuming) the root; a `None` result means no
board on the stack has a solution; errors cannot occur on well-formed
stacks. -/
theorem frsLoop_spec (sz : Nat) (regions : List Nat) (rng : Nat → Nat → Nat)
    (hrng : ∀ k m, ValueMask.valueBits m ≠ 0 →
      1 ≤ rng k m ∧ ValueMask.has m (rng k m) = true)
    (root : Board) :
    ∀ (f : Nat) (stack : List Board) (k : Nat) (r : SingleSolutionResult) (k' : Nat),
    (∀ x ∈ stack, GoodB sz regions x) →
    (∀ x ∈ stack, ∀ A, isSolution x A → isSolution root A) →
    frsLoop rng f stack k = some (r, k') →
    (∀ sb, r = .solved sb → GoodB sz regions sb ∧ sb.isSolved = true ∧
      isSolution root (assignOfBoard sb)) ∧
    (r = .none → ∀ x ∈ stack, ∀ A, ¬ isSolution x A) ∧
    r ≠ .error := by
  intro f
  induction f with
  | zero =>
    intro stack k r k' hgs hsub hrun
    cases stack with
    | nil =>
      unfold frsLoop at hrun
      rw [Option.some.injEq] at hrun
      injection hrun with h1 h2
      subst h1
      refine ⟨?_, ?_, ?_⟩
      · intro sb hsb
        cases hsb
      · intro _ x hx
        cases hx
      · intro hh
        cases hh
    | cons b rest =>
      unfold frsLoop at hrun
      cases hrun
  | succ f ih =>
    intro stack k r k' hgs hsub hrun
    cases stack with
    | nil =>
      unfold frsLoop at hrun
      rw [Option.some.injEq] at hrun
      injection hrun with h1 h2
      subst h1
      refine ⟨?_, ?_, ?_⟩
      · intro sb hsb
        cases hsb
      · intro _ x hx
        cases hx
      · intro hh
        cases hh
    | cons b rest =>
      have hgb : GoodB sz regions b := hgs b (List.mem_cons_self ..)
      have hgrest : ∀ x ∈ rest, GoodB sz regions x :=
        fun x hx => hgs x (List.mem_cons_of_mem _ hx)
      have hsubrest : ∀ x ∈ rest, ∀ A, isSolution x A → isSolution root A :=
        fun x hx => hsub x (List.mem_cons_of_mem _ hx)
      have hsubb := hsub b (List.mem_cons_self ..)
      unfold frsLoop at hrun
      obtain ⟨hcond, -⟩ := rbfl_spec sz regions (bfFuel b) b hgb
      rcases hlog : runBruteForceLogic b (bfFuel b) with _ | ⟨b1, ok⟩
      · rw [hlog] at hrun
        cases hrun
      · rw [hlog] at hrun
        obtain ⟨hfalse, htrue⟩ := hcond b1 ok hlog
        cases ok with
        | false =>
          have hnos := hfalse rfl
          obtain ⟨e1, e2, e3⟩ := ih rest k r k' hgrest hsubrest hrun
          refine ⟨e1, ?_, e3⟩
          intro hr x hx A hA
          rcases List.mem_cons.mp hx with rfl | hx2
          · exact hnos A hA
          · exact e2 hr x hx2 A hA
        | true =>
          obtain ⟨hgb1, hsoleq, -, hsf⟩ := htrue rfl
          dsimp only at hrun
          rcases hsolved : b1.isSolved with _ | _
          · -- branch
            rw [hsolved, if_neg (fun h => Bool.noConfusion h)] at hrun
            have hfix : ansFix sz b1 := by
              rcases hsf with h | h
              · rw [h] at hsolved
                cases hsolved
              · exact h
            obtain ⟨cell, hbest, hcellb, hcellns, hcnt⟩ :=
              findBestBruteForceCell_spec sz regions b1 hgb1 hfix hsolved
            rw [hbest] at hrun
            dsimp only at hrun
            obtain ⟨hv1, hvhas⟩ := hrng k (b1.cell cell)
              (valueBits_ne_zero_of_count _ (by omega))
            have hv2 : rng k (b1.cell cell) ≤ sz :=
              has_le_size sz regions b1 cell _ hgb1 hcellb hcellns hv1 hvhas
            have hs31 : sz ≤ 31 := hgb1.2.2.2.2.2.2.2
            have hnc1 := GoodB_numCells sz regions b1 hgb1
            have hlen1 : b1.cells.board.length = b1.data.numCells := by
              rw [hnc1]
              exact hgb1.2.1
            -- facts about the two pushed branches
            have hclriff : ∀ A, isSolution (b1.clearValue cell
                  (rng k (b1.cell cell))).1 A ↔
                isSolution b1 A ∧ (cell < b1.data.numCells →
                  A cell ≠ rng k (b1.cell cell)) :=
              fun A => isSolution_clearValue b1 cell _ A hlen1 (by
                rw [GoodB_size sz regions b1 hgb1]; exact hs31) hv1 (by omega)
            have hsubclear : ∀ A,
                isSolution (b1.clearValue cell (rng k (b1.cell cell))).1 A →
                isSolution root A := by
              intro A hA
              exact hsubb A ((hsoleq A).mp ((hclriff A).mp hA).1)
            have hGclr : GoodB sz regions (b1.clearValue cell
                (rng k (b1.cell cell))).1 :=
              GoodB_clearValue sz regions b1 cell _ hgb1 hv1 (by omega) hcellns
            have hcoverb : (∀ A1, ¬ isSolution
                  (b1.setSolved cell (rng k (b1.cell cell))).1 A1 ∨
                  (b1.setSolved cell (rng k (b1.cell cell))).2 = false) →
                (∀ A1, ¬ isSolution
                  (b1.clearValue cell (rng k (b1.cell cell))).1 A1 ∨
                  (b1.clearValue cell (rng k (b1.cell cell))).2 = false) →
                ∀ A, ¬ isSolution b A := by
              intro hnoset hnoclr A hA
              have hA1 : isSolution b1 A := (hsoleq A).mpr hA
              rcases Decidable.em (A cell = rng k (b1.cell cell)) with heq | hne
              · rcases hnoset A with hno | hfail
                · rcases hok : (b1.setSolved cell (rng k (b1.cell cell))).2
                      with _ | _
                  · exact (setSolved_fail_excludes sz regions b1 cell _ hgb1
                      hcellb hcellns hok A hA1) heq
                  · exact hno ((setSolved_sol_iff sz regions b1 cell _ hgb1
                      hcellb hv1 hok A).mpr ⟨hA1, heq⟩)
                · exact (setSolved_fail_excludes sz regions b1 cell _ hgb1
                    hcellb hcellns hfail A hA1) heq
              · have hAclr : isSolution (b1.clearValue cell
                    (rng k (b1.cell cell))).1 A :=
                  (hclriff A).mpr ⟨hA1, fun _ => hne⟩
                rcases hnoclr A with hno | hfail
                · exact hno hAclr
                · have hemp : ValueMask.isEmpty ((b1.clearValue cell
                      (rng k (b1.cell cell))).1.cell cell) = true := by
                    have hcl : (b1.clearValue cell (rng k (b1.cell cell))).1.cell
                        cell = ValueMask.without (b1.cell cell)
                          (rng k (b1.cell cell)) := by
                      rw [clearValue_cell, if_pos ⟨rfl, by
                        rw [hgb1.2.1]; exact hcellb⟩]
                    rw [hcl]
                    unfold Board.clearValue at hfail
                    dsimp only at hfail
                    rcases he : ValueMask.isEmpty (ValueMask.without
                        (b1.cell cell) (rng k (b1.cell cell))) with _ | _
                    · rw [he] at hfail
                      cases hfail
                    · rfl
                  exact noSolution_of_empty sz regions _ cell hGclr hcellb hemp
                    A hAclr
            rcases hset : (b1.setSolved cell (rng k (b1.cell cell))).2 with _ | _
            · -- committed branch not pushed
              rw [hset] at hrun
              rw [if_neg (fun h => Bool.noConfusion h)] at hrun
              rcases hclr : (b1.clearValue cell (rng k (b1.cell cell))).2 with _ | _
              · -- neither branch pushed
                rw [hclr] at hrun
                rw [if_neg (fun h => Bool.noConfusion h)] at hrun
                obtain ⟨e1, e2, e3⟩ := ih rest (k + 1) r k' hgrest hsubrest hrun
                refine ⟨e1, ?_, e3⟩
                intro hr x hx A hA
                rcases List.mem_cons.mp hx with rfl | hx2
                · exact hcoverb (fun A1 => Or.inr hset) (fun A1 => Or.inr hclr)
                    A hA
                · exact e2 hr x hx2 A hA
              · -- only the cleared branch pushed
                rw [hclr] at hrun
                rw [if_pos rfl] at hrun
                obtain ⟨e1, e2, e3⟩ := ih _ (k + 1) r k'
                  (by
                    intro x hx
                    rcases List.mem_cons.mp hx with rfl | hx2
                    · exact hGclr
                    · exact hgrest x hx2)
                  (by
                    intro x hx
                    rcases List.mem_cons.mp hx with rfl | hx2
                    · exact hsubclear
                    · exact hsubrest x hx2) hrun
                refine ⟨e1, ?_, e3⟩
                intro hr x hx A hA
                rcases List.mem_cons.mp hx with rfl | hx2
                · exact hcoverb (fun A1 => Or.inr hset)
                    (fun A1 => Or.inl (e2 hr _ (List.mem_cons_self ..) A1)) A hA
                · exact e2 hr x (List.mem_cons_of_mem _ hx2) A hA
            · -- committed branch pushed
              rw [hset] at hrun
              rw [if_pos rfl] at hrun
              have hGset : GoodB sz regions (b1.setSolved cell
                  (rng k (b1.cell cell))).1 :=
                GoodB_setSolved sz regions b1 cell _ hgb1 hv1 hv2 hcellb hset
              have hsubset : ∀ A, isSolution (b1.setSolved cell
                  (rng k (b1.cell cell))).1 A → isSolution root A := by
                intro A hA
                exact hsubb A ((hsoleq A).mp ((setSolved_sol_iff sz regions b1
                  cell _ hgb1 hcellb hv1 hset A).mp hA).1)
              rcases hclr : (b1.clearValue cell (rng k (b1.cell cell))).2 with _ | _
              · -- only the committed branch pushed
                rw [hclr] at hrun
                rw [if_neg (fun h => Bool.noConfusion h)] at hrun
                obtain ⟨e1, e2, e3⟩ := ih _ (k + 1) r k'
                  (by
                    intro x hx
                    rcases List.mem_cons.mp hx with rfl | hx2
                    · exact hGset
                    · exact hgrest x hx2)
                  (by
                    intro x hx
                    rcases List.mem_cons.mp hx with rfl | hx2
                    · exact hsubset
                    · exact hsubrest x hx2) hrun
                refine ⟨e1, ?_, e3⟩
                intro hr x hx A hA
                rcases List.mem_cons.mp hx with rfl | hx2
                · exact hcoverb
                    (fun A1 => Or.inl (e2 hr _ (List.mem_cons_self ..) A1))
                    (fun A1 => Or.inr hclr) A hA
                · exact e2 hr x (List.mem_cons_of_mem _ hx2) A hA
              · -- both branches pushed
                rw [hclr] at hrun
                rw [if_pos rfl] at hrun
                obtain ⟨e1, e2, e3⟩ := ih _ (k + 1) r k'
                  (by
                    intro x hx
                    rcases List.mem_cons.mp hx with rfl | hx2
                    · exact hGset
                    · rcases List.mem_cons.mp hx2 with rfl | hx3
                      · exact hGclr
                      · exact hgrest x hx3)
                  (by
                    intro x hx
                    rcases List.mem_cons.mp hx with rfl | hx2
                    · exact hsubset
                    · rcases List.mem_cons.mp hx2 with rfl | hx3
                      · exact hsubclear
                      · exact hsubrest x hx3) hrun
                refine ⟨e1, ?_, e3⟩
                intro hr x hx A hA
                rcases List.mem_cons.mp hx with rfl | hx2
                · exact hcoverb
                    (fun A1 => Or.inl (e2 hr _ (List.mem_cons_self ..) A1))
                    (fun A1 => Or.inl (e2 hr _ (List.mem_cons_of_mem _
                      (List.mem_cons_self ..)) A1)) A hA
                · exact e2 hr x (List.mem_cons_of_mem _
                    (List.mem_cons_of_mem _ hx2)) A hA
          · -- solved: report it
            rw [hsolved, if_pos rfl] at hrun
            rw [Option.some.injEq] at hrun
            injection hrun with h1 h2
            subst h1
            obtain ⟨hsol, -⟩ := solution_of_solved sz regions b1 hgb1 hsolved
            refine ⟨?_, ?_, ?_⟩
            · intro sb hsb
              injection hsb with hsb
              subst hsb
              exact ⟨hgb1, hsolved, hsubb _ ((hsoleq _).mp hsol)⟩
            · intro hr
              cases hr
            · intro hh
              cases hh

/-! ## `keep_mask` and well-formedness -/

theorem keepMask_cell (b : Board) (cell m c : Nat) :
    (b.keepMask cell m).1.cell c =
      if cell = c ∧ cell < b.cells.board.length then b.cell cell &&& m
      else b.cell c := by
  unfold Board.keepMask
  dsimp only
  rw [cell_setCellMask]

theorem keepMask_length (b : Board) (cell m : Nat) :
    (b.keepMask cell m).1.cells.board.length = b.cells.board.length := by
  unfold Board.keepMask
  exact setCellMask_length ..

theorem keepMask_solvedCount (b : Board) (cell m : Nat) :
    (b.keepMask cell m).1.cells.solvedCount = b.cells.solvedCount := rfl

theorem keepMask_mono (b : Board) (cell m c k1 : Nat)
    (hbit : ((b.keepMask cell m).1.cell c).testBit k1 = true) :
    (b.cell c).testBit k1 = true := by
  rw [keepMask_cell] at hbit
  split at hbit
  · next h =>
    rw [Nat.testBit_land, Bool.and_eq_true] at hbit
    rw [← h.1]
    exact hbit.1
  · exact hbit

theorem keepMask_isSolved (b : Board) (cell m : Nat)
    (hk : ValueMask.isSolved (b.cell cell) = true → b.cell cell &&& m = b.cell cell) :
    ∀ c, ValueMask.isSolved ((b.keepMask cell m).1.cell c) =
      ValueMask.isSolved (b.cell c) := by
  intro c
  rw [keepMask_cell]
  split
  · next h =>
    rw [← h.1]
    rcases hsol : ValueMask.isSolved (b.cell cell) with _ | _
    · rw [isSolved_eq_testBit] at hsol ⊢
      rw [Nat.testBit_land, hsol, Bool.false_and]
    · rw [hk hsol, hsol]
  · rfl

/-- `keep_mask` keeps the board well-formed provided it does not shrink any
solved cell (the true-candidates accumulator always contains the solved
cells' masks whole). -/
theorem GoodB_keepMask (sz : Nat) (regions : List Nat) (b : Board) (cell m : Nat)
    (hg : GoodB sz regions b)
    (hk : ValueMask.isSolved (b.cell cell) = true → b.cell cell &&& m = b.cell cell) :
    GoodB sz regions (b.keepMask cell m).1 := by
  obtain ⟨hdata, hlen, hrange, hshape, hpeers, hcount, hs, hs31⟩ := hg
  have hflag := keepMask_isSolved b cell m hk
  have hunch : ∀ c, ValueMask.isSolved (b.cell c) = true →
      (b.keepMask cell m).1.cell c = b.cell c := by
    intro c hsol
    rw [keepMask_cell]
    split
    · next h =>
      rw [← h.1] at hsol
      rw [hk hsol, h.1]
    · rfl
  refine ⟨?_, ?_, ?_, ?_, ?_, ?_, hs, hs31⟩
  · rw [keepMask_data, hdata]
  · rw [keepMask_length]
    exact hlen
  · intro c hc k1 hk1
    exact hrange c hc k1 (keepMask_mono b cell m c k1 hk1)
  · intro c hc hsol
    rw [hflag c] at hsol
    obtain ⟨v, hv1, hv2, hmask⟩ := hshape c hc hsol
    refine ⟨v, hv1, hv2, ?_⟩
    rw [hunch c hsol]
    exact hmask
  · intro c hc v hv1 hv2 hmask B hB
    have hsolnew : ValueMask.isSolved ((b.keepMask cell m).1.cell c) = true := by
      rw [hmask]
      exact solvedMaskOf_isSolved v
    rw [hflag c] at hsolnew
    have hold : b.cell c = solvedMaskOf v := by
      rw [← hunch c hsolnew]
      exact hmask
    rw [keepMask_data] at hB
    have habs := hpeers c hc v hv1 hv2 hold B hB
    rcases hh : ValueMask.has ((b.keepMask cell m).1.cell (cellOfCand sz B))
        (valOfCand sz B) with _ | _
    · rfl
    · exfalso
      rw [has_eq_testBit] at hh habs
      rw [keepMask_mono b cell m _ _ hh] at habs
      cases habs
  · rw [keepMask_solvedCount, hcount]
    apply congrArg
    apply List.filter_congr
    intro c _
    rw [hflag c]

/-- Intersecting one cell with a mask keeps exactly the solutions whose
value there survives. -/
theorem isSolution_keepMask (b : Board) (cell m : Nat) (A : Nat → Nat)
    (hlen : b.cells.board.length = b.data.numCells)
    (hcell : cell < b.data.numCells) :
    isSolution (b.keepMask cell m).1 A ↔
      isSolution b A ∧ m.testBit (A cell - 1) = true := by
  have hdk := keepMask_data b cell m
  constructor
  · rintro ⟨hr, hl, ha⟩
    rw [hdk] at hr hl
    have hacell := ha cell (by rw [hdk]; exact hcell)
    rw [has_eq_testBit, keepMask_cell, if_pos ⟨rfl, by omega⟩, Nat.testBit_land,
      Bool.and_eq_true] at hacell
    refine ⟨⟨hr, hl, ?_⟩, hacell.2⟩
    intro c hc
    have hac := ha c (by rw [hdk]; exact hc)
    rw [has_eq_testBit] at hac ⊢
    exact keepMask_mono b cell m c _ hac
  · rintro ⟨⟨hr, hl, ha⟩, hm⟩
    refine ⟨by rw [hdk]; exact hr, by rw [hdk]; exact hl, ?_⟩
    intro c hc
    rw [hdk] at hc
    rw [has_eq_testBit, keepMask_cell]
    split
    · next h =>
      rw [Nat.testBit_land, Bool.and_eq_true]
      constructor
      · have hac := ha c hc
        rw [has_eq_testBit] at hac
        rw [h.1]
        exact hac
      · rw [h.1] at hm
        exact hm
    · have hac := ha c hc
      rw [has_eq_testBit] at hac
      exact hac

/-- The `keep_mask` loop of `find_true_candidates`, on success: every listed
cell is intersected with its accumulator entry, everything else is
untouched, well-formedness is preserved, and the surviving solutions are
exactly those whose values lie in the accumulator. -/
theorem ftcKeep_spec (sz : Nat) (regions : List Nat) (tcv : List Nat) :
    ∀ (cells : List Nat) (b : Board), GoodB sz regions b →
    (∀ c ∈ cells, c < sz * sz) → cells.Nodup →
    (∀ c ∈ cells, ValueMask.isSolved (b.cell c) = true →
      b.cell c &&& tcv.getD c 0 = b.cell c) →
    ∀ b', ftcKeep b tcv cells = (b', true) →
    GoodB sz regions b' ∧
    (∀ c, c ∉ cells → b'.cell c = b.cell c) ∧
    (∀ c ∈ cells, b'.cell c = b.cell c &&& tcv.getD c 0) ∧
    (∀ A, isSolution b' A ↔ isSolution b A ∧
      ∀ c ∈ cells, (tcv.getD c 0).testBit (A c - 1) = true) ∧
    (∀ c ∈ cells, ValueMask.isEmpty (b'.cell c) = false) := by
  intro cells
  induction cells with
  | nil =>
    intro b hg _ _ _ b' hrun
    unfold ftcKeep at hrun
    injection hrun with h1 h2
    subst h1
    refine ⟨hg, fun c _ => rfl, fun c hc => absurd hc (List.not_mem_nil c), ?_,
      fun c hc => absurd hc (List.not_mem_nil c)⟩
    intro A
    constructor
    · intro hA
      exact ⟨hA, fun c hc => absurd hc (List.not_mem_nil c)⟩
    · intro hA
      exact hA.1
  | cons c rest ih =>
    intro b hg hbd hnd hsolv b' hrun
    have hcb := hbd c (List.mem_cons_self ..)
    have hlenb : b.cells.board.length = b.data.numCells := by
      rw [GoodB_numCells sz regions b hg]
      exact hg.2.1
    have hcellb : c < b.data.numCells := by
      rw [GoodB_numCells sz regions b hg]
      exact hcb
    have hk : ValueMask.isSolved (b.cell c) = true →
        b.cell c &&& tcv.getD c 0 = b.cell c :=
      hsolv c (List.mem_cons_self ..)
    unfold ftcKeep at hrun
    rcases hkm : b.keepMask c (tcv.getD c 0) with ⟨b1, ok1⟩
    rw [hkm] at hrun
    cases ok1 with
    | false =>
      dsimp only at hrun
      injection hrun with h1 h2
      cases h2
    | true =>
      dsimp only at hrun
      have hb1 : b1 = (b.keepMask c (tcv.getD c 0)).1 := by rw [hkm]
      have hg1 : GoodB sz regions b1 := by
        rw [hb1]
        exact GoodB_keepMask sz regions b c (tcv.getD c 0) hg hk
      have hcellchar : ∀ c2, b1.cell c2 =
          if c = c2 then b.cell c &&& tcv.getD c 0 else b.cell c2 := by
        intro c2
        rw [hb1, keepMask_cell]
        rcases Decidable.em (c = c2) with he | hne
        · rw [if_pos ⟨he, by omega⟩, if_pos he]
        · rw [if_neg (fun hcon => hne hcon.1), if_neg hne]
      have hcnotin : c ∉ rest := (List.nodup_cons.mp hnd).1
      obtain ⟨e1, e2, e3, e4, e5⟩ := ih b1 hg1
        (fun x hx => hbd x (List.mem_cons_of_mem _ hx))
        (List.nodup_cons.mp hnd).2
        (by
          intro x hx hsolx
          have hxne : c ≠ x := fun hcon => hcnotin (hcon ▸ hx)
          rw [hcellchar x, if_neg hxne] at hsolx ⊢
          exact hsolv x (List.mem_cons_of_mem _ hx) hsolx)
        b' hrun
      have hheadmask : b'.cell c = b.cell c &&& tcv.getD c 0 := by
        rw [e2 c hcnotin, hcellchar c, if_pos rfl]
      refine ⟨e1, ?_, ?_, ?_, ?_⟩
      · intro c2 hc2
        have hc2r : c2 ∉ rest := fun hcon => hc2 (List.mem_cons_of_mem _ hcon)
        have hc2c : c ≠ c2 := fun hcon => hc2 (hcon ▸ List.mem_cons_self ..)
        rw [e2 c2 hc2r, hcellchar c2, if_neg hc2c]
      · intro c2 hc2
        rcases List.mem_cons.mp hc2 with rfl | hc2r
        · exact hheadmask
        · have hc2c : c ≠ c2 := fun hcon => hcnotin (hcon ▸ hc2r)
          rw [e3 c2 hc2r, hcellchar c2, if_neg hc2c]
      · intro A
        rw [e4 A]
        rw [hb1, isSolution_keepMask b c (tcv.getD c 0) A hlenb hcellb]
        constructor
        · rintro ⟨⟨hA, hbit⟩, hrest⟩
          refine ⟨hA, ?_⟩
          intro c2 hc2
          rcases List.mem_cons.mp hc2 with rfl | hc2r
          · exact hbit
          · exact hrest c2 hc2r
        · rintro ⟨hA, hall⟩
          exact ⟨⟨hA, hall c (List.mem_cons_self ..)⟩,
            fun c2 hc2 => hall c2 (List.mem_cons_of_mem _ hc2)⟩
      · intro c2 hc2
        rcases List.mem_cons.mp hc2 with rfl | hc2r
        · -- the head cell: its kept mask was checked non-empty
          rw [hheadmask]
          have hok1 : (b.keepMask c2 (tcv.getD c2 0)).2 = true := by rw [hkm]
          unfold Board.keepMask at hok1
          dsimp only at hok1
          rcases he : ValueMask.isEmpty (b.cell c2 &&& tcv.getD c2 0) with _ | _
          · rfl
          · rw [he] at hok1
            cases hok1
        · exact e5 c2 hc2r

/-! ## The true-candidates accumulator -/

theorem unionSolution_length (n : Nat) (tcv : List Nat) (sol : Board) :
    (unionSolution n tcv sol).length = n := by
  unfold unionSolution
  rw [List.length_map, List.length_range]

theorem unionSolution_getD (n : Nat) (tcv : List Nat) (sol : Board) (c : Nat)
    (hc : c < n) : (unionSolution n tcv sol).getD c 0 =
      tcv.getD c 0 ||| ValueMask.unsolved (sol.cell c) := by
  unfold unionSolution
  rw [List.getD_eq_getElem?_getD, List.getElem?_map, List.getElem?_range hc]
  rfl

theorem getD_zero_of_ge (l : List Nat) (c : Nat) (hc : l.length ≤ c) :
    l.getD c 0 = 0 := by
  rw [List.getD_eq_getElem?_getD, List.getElem?_eq_none (by omega)]
  rfl

/-- On a solved well-formed board, each cell's candidate bits are exactly
the committed value's bit. -/
theorem unsolved_solved_cell (sz : Nat) (regions : List Nat) (sol : Board)
    (hg : GoodB sz regions sol) (hsolved : sol.isSolved = true) (c : Nat)
    (hc : c < sz * sz) :
    ValueMask.unsolved (sol.cell c) = 2 ^ (assignOfBoard sol c - 1) ∧
    1 ≤ assignOfBoard sol c ∧ assignOfBoard sol c ≤ sz := by
  have hall := allSolved_of_isSolved sz regions sol hg hsolved c hc
  obtain ⟨w, hw1, hw2, hmask⟩ := hg.2.2.2.1 c hc hall
  have hs31 := hg.2.2.2.2.2.2.2
  have hval : assignOfBoard sol c = w := by
    unfold assignOfBoard
    rw [hmask]
    exact value_solvedMaskOf w hw1 (by omega)
  rw [hval, hmask]
  exact ⟨valueBits_solvedMaskOf w (by omega), hw1, hw2⟩

/-- The per-value probe loop of `find_true_candidates`: the accumulator only
grows, every addition is witnessed by an actual solution, and every probed
value realized by some solution ends up recorded at the probed cell. -/
theorem ftcVals_spec (sz : Nat) (regions : List Nat) (rng : Nat → Nat → Nat)
    (hrng : ∀ k m, ValueMask.valueBits m ≠ 0 →
      1 ≤ rng k m ∧ ValueMask.has m (rng k m) = true)
    (fuel : Nat) (b0 : Board) (c : Nat) (hg0 : GoodB sz regions b0)
    (hc : c < sz * sz) (hns : ValueMask.isSolved (b0.cell c) = false) :
    ∀ (vs : List Nat) (tcv : List Nat) (k : Nat) (tcv' : List Nat) (k' : Nat),
    (∀ v ∈ vs, 1 ≤ v) →
    tcv.length = sz * sz →
    ftcVals rng fuel b0 c tcv k vs = some (tcv', k') →
    tcv'.length = sz * sz ∧
    (∀ i j, (tcv.getD i 0).testBit j = true → (tcv'.getD i 0).testBit j = true) ∧
    (∀ i j, i < sz * sz → (tcv'.getD i 0).testBit j = true →
      (tcv.getD i 0).testBit j = true ∨
      ∃ A, isSolution b0 A ∧ A i = j + 1) ∧
    (∀ v ∈ vs, (∃ A, isSolution b0 A ∧ A c = v) →
      (tcv'.getD c 0).testBit (v - 1) = true) := by
  have hnc0 := GoodB_numCells sz regions b0 hg0
  intro vs
  induction vs with
  | nil =>
    intro tcv k tcv' k' hvs hlen hrun
    unfold ftcVals at hrun
    rw [Option.some.injEq] at hrun
    injection hrun with h1 h2
    subst h1
    refine ⟨hlen, fun i j h => h, fun i j _ h => Or.inl h, ?_⟩
    intro v hv
    cases hv
  | cons v vs ih =>
    intro tcv k tcv' k' hvs hlen hrun
    have hv1 : 1 ≤ v := hvs v (List.mem_cons_self ..)
    unfold ftcVals at hrun
    rcases hset : b0.setSolved c v with ⟨nb, ok⟩
    rw [hset] at hrun
    cases ok with
    | false =>
      dsimp only at hrun
      obtain ⟨e1, e2, e3, e4⟩ := ih tcv k tcv' k'
        (fun w hw => hvs w (List.mem_cons_of_mem _ hw)) hlen hrun
      refine ⟨e1, e2, e3, ?_⟩
      intro w hw hex
      rcases List.mem_cons.mp hw with rfl | hw2
      · exfalso
        obtain ⟨A, hA, hAc⟩ := hex
        exact setSolved_fail_excludes sz regions b0 c w hg0 hc hns
          (by rw [hset]) A hA hAc
      · exact e4 w hw2 hex
    | true =>
      dsimp only at hrun
      have hok : (b0.setSolved c v).2 = true := by rw [hset]
      have hnb : nb = (b0.setSolved c v).1 := by rw [hset]
      have hvsz : v ≤ sz := by
        have hm : b0.cell c < 2 ^ 32 := by
          apply mask_lt_u32
          intro k2 hk2
          have hs31 := hg0.2.2.2.2.2.2.2
          have := hg0.2.2.1 c hc k2 hk2
          omega
        have hhas := (setSolved_success_spec b0 c v
          (by rw [GoodB_size sz regions b0 hg0]; exact hg0.2.2.2.2.2.2.1)
          (by rw [GoodB_size sz regions b0 hg0]; exact hg0.2.2.2.2.2.2.2)
          hm hok).1
        exact has_le_size sz regions b0 c v hg0 hc hns hv1 hhas
      have hgnb : GoodB sz regions nb := by
        rw [hnb]
        exact GoodB_setSolved sz regions b0 c v hg0 hv1 hvsz hc hok
      have hsoliff := setSolved_sol_iff sz regions b0 c v hg0 hc hv1 hok
      rcases hfrs : frsLoop rng fuel [nb] k with _ | ⟨r, k2⟩
      · rw [hfrs] at hrun
        cases hrun
      · rw [hfrs] at hrun
        obtain ⟨f1, f2, f3⟩ := frsLoop_spec sz regions rng hrng nb fuel [nb] k
          r k2
          (by
            intro x hx
            rcases List.mem_cons.mp hx with rfl | hx2
            · exact hgnb
            · cases hx2)
          (by
            intro x hx
            rcases List.mem_cons.mp hx with rfl | hx2
            · exact fun A h => h
            · cases hx2) hfrs
        cases r with
        | solved sol =>
          dsimp only at hrun
          obtain ⟨hgsol, hsolved, hsolnb⟩ := f1 sol rfl
          have hsolb0 : isSolution b0 (assignOfBoard sol) ∧
              assignOfBoard sol c = v := by
            rw [hnb] at hsolnb
            exact (hsoliff _).mp hsolnb
          obtain ⟨e1, e2, e3, e4⟩ := ih (unionSolution b0.data.numCells tcv sol)
            k2 tcv' k'
            (fun w hw => hvs w (List.mem_cons_of_mem _ hw))
            (by rw [unionSolution_length, hnc0]) hrun
          have hugetD : ∀ i, i < sz * sz →
              (unionSolution b0.data.numCells tcv sol).getD i 0 =
                tcv.getD i 0 ||| ValueMask.unsolved (sol.cell i) := by
            intro i hi
            exact unionSolution_getD _ tcv sol i (by omega)
          refine ⟨e1, ?_, ?_, ?_⟩
          · intro i j hbit
            rcases Nat.lt_or_ge i (sz * sz) with hi | hi
            · apply e2
              rw [hugetD i hi, Nat.testBit_or, hbit, Bool.true_or]
            · exfalso
              rw [getD_zero_of_ge tcv i (by omega), Nat.zero_testBit] at hbit
              cases hbit
          · intro i j hi hbit
            rcases e3 i j hi hbit with hold | hsolw
            · rw [hugetD i hi, Nat.testBit_or, Bool.or_eq_true] at hold
              rcases hold with h | h
              · exact Or.inl h
              · obtain ⟨hpow, hw1, hw2⟩ :=
                  unsolved_solved_cell sz regions sol hgsol hsolved i hi
                rw [hpow, Nat.testBit_two_pow] at h
                have hj : assignOfBoard sol i - 1 = j := by simpa using h
                exact Or.inr ⟨assignOfBoard sol, hsolb0.1, by omega⟩
            · exact Or.inr hsolw
          · intro w hw hex
            rcases List.mem_cons.mp hw with rfl | hw2
            · apply e2
              rw [hugetD c hc, Nat.testBit_or]
              obtain ⟨hpow, hw1a, hw2a⟩ :=
                unsolved_solved_cell sz regions sol hgsol hsolved c hc
              rw [hpow, Nat.testBit_two_pow]
              have : assignOfBoard sol c - 1 = w - 1 := by
                rw [hsolb0.2]
              rw [decide_eq_true this, Bool.or_true]
            · exact e4 w hw2 hex
        | none =>
          dsimp only at hrun
          obtain ⟨e1, e2, e3, e4⟩ := ih tcv k2 tcv' k'
            (fun w hw => hvs w (List.mem_cons_of_mem _ hw)) hlen hrun
          refine ⟨e1, e2, e3, ?_⟩
          intro w hw hex
          rcases List.mem_cons.mp hw with rfl | hw2
          · exfalso
            obtain ⟨A, hA, hAc⟩ := hex
            have hAnb : isSolution nb A := by
              rw [hnb]
              exact (hsoliff A).mpr ⟨hA, hAc⟩
            exact f2 rfl nb (List.mem_cons_self ..) A hAnb
          · exact e4 w hw2 hex
        | error =>
          exact absurd rfl f3

/-- The per-cell probe loop of `find_true_candidates`: the accumulator keeps
its length, only grows, grows only by witnessed values, and after the loop
covers every solution's value at every listed cell. -/
theorem ftcCells_spec (sz : Nat) (regions : List Nat) (rng : Nat → Nat → Nat)
    (hrng : ∀ k m, ValueMask.valueBits m ≠ 0 →
      1 ≤ rng k m ∧ ValueMask.has m (rng k m) = true)
    (fuel : Nat) (b0 : Board) (hg0 : GoodB sz regions b0) :
    ∀ (cells : List Nat) (tcv : List Nat) (k : Nat) (tcv' : List Nat) (k' : Nat),
    (∀ c ∈ cells, c < sz * sz) →
    tcv.length = sz * sz →
    (∀ i, i < sz * sz → ValueMask.isSolved (b0.cell i) = true →
      ∀ A, isSolution b0 A → (tcv.getD i 0).testBit (A i - 1) = true) →
    ftcCells rng fuel b0 tcv k cells = some (tcv', k') →
    tcv'.length = sz * sz ∧
    (∀ i j, (tcv.getD i 0).testBit j = true → (tcv'.getD i 0).testBit j = true) ∧
    (∀ i j, i < sz * sz → (tcv'.getD i 0).testBit j = true →
      (tcv.getD i 0).testBit j = true ∨ ∃ A, isSolution b0 A ∧ A i = j + 1) ∧
    (∀ c ∈ cells, ∀ A, isSolution b0 A →
      (tcv'.getD c 0).testBit (A c - 1) = true) := by
  have hnc0 := GoodB_numCells sz regions b0 hg0
  have hsz0 := GoodB_size sz regions b0 hg0
  have hs31 : sz ≤ 31 := hg0.2.2.2.2.2.2.2
  intro cells
  induction cells with
  | nil =>
    intro tcv k tcv' k' hbd hlen hsolcov hrun
    unfold ftcCells at hrun
    rw [Option.some.injEq] at hrun
    injection hrun with h1 h2
    subst h1
    refine ⟨hlen, fun i j h => h, fun i j _ h => Or.inl h, ?_⟩
    intro c hc
    cases hc
  | cons c cells ih =>
    intro tcv k tcv' k' hbd hlen hsolcov hrun
    have hc : c < sz * sz := hbd c (List.mem_cons_self ..)
    unfold ftcCells at hrun
    dsimp only at hrun
    rcases hsol : ValueMask.isSolved (b0.cell c) with _ | _
    · -- unsolved: probe the missing values
      rw [hsol] at hrun
      rw [if_neg (fun h => Bool.noConfusion h)] at hrun
      rcases hfv : ftcVals rng fuel b0 c tcv k
          (ValueMask.toVals (b0.cell c &&& (u32All ^^^ tcv.getD c 0)))
        with _ | ⟨tcv2, k2⟩
      · rw [hfv] at hrun
        cases hrun
      · rw [hfv] at hrun
        dsimp only at hrun
        obtain ⟨g1, g2, g3, g4⟩ := ftcVals_spec sz regions rng hrng fuel b0 c
          hg0 hc hsol _ tcv k tcv2 k2
          (fun v hv => ((mem_toVals _ v).mp hv).1) hlen hfv
        obtain ⟨e1, e2, e3, e4⟩ := ih tcv2 k2 tcv' k'
          (fun x hx => hbd x (List.mem_cons_of_mem _ hx)) g1
          (by
            intro i hi hisol A hA
            exact g2 i _ (hsolcov i hi hisol A hA)) hrun
        refine ⟨e1, ?_, ?_, ?_⟩
        · intro i j hbit
          exact e2 i j (g2 i j hbit)
        · intro i j hi hbit
          rcases e3 i j hi hbit with h2 | h2
          · exact g3 i j hi h2
          · exact Or.inr h2
        · intro x hx A hA
          rcases List.mem_cons.mp hx with rfl | hx2
          · -- the probed cell itself
            have hrc : 1 ≤ A x ∧ A x ≤ sz := by
              have := hA.1 x (by omega)
              rw [hsz0] at this
              exact this
            rcases hold : (tcv.getD x 0).testBit (A x - 1) with _ | _
            · -- the value was still missing: it was probed
              apply e2
              apply g4 (A x) ?_ ⟨A, hA, rfl⟩
              rw [mem_toVals]
              refine ⟨hrc.1, by omega, ?_⟩
              rw [testBit_valueBits, Nat.testBit_land, Nat.testBit_xor]
              have hhas := hA.2.2 x (by omega)
              rw [has_eq_testBit] at hhas
              rw [hhas, hold]
              rw [show u32All = 2 ^ 32 - 1 from rfl, Nat.testBit_two_pow_sub_one]
              have hj32 : A x - 1 < 32 := by omega
              rw [decide_eq_true hj32]
              have hj31 : A x - 1 < 31 := by omega
              rw [decide_eq_true hj31]
              rfl
            · exact e2 x _ (g2 x _ hold)
          · exact e4 x hx2 A hA
    · -- solved: skip, covered by the invariant
      rw [hsol] at hrun
      rw [if_pos rfl] at hrun
      obtain ⟨e1, e2, e3, e4⟩ := ih tcv k tcv' k'
        (fun x hx => hbd x (List.mem_cons_of_mem _ hx)) hlen hsolcov hrun
      refine ⟨e1, e2, e3, ?_⟩
      intro x hx A hA
      rcases List.mem_cons.mp hx with rfl | hx2
      · exact e2 x _ (hsolcov x hc hsol A hA)
      · exact e4 x hx2 A hA

theorem and_absorb (x y : Nat) (h : ∀ j, x.testBit j = true → y.testBit j = true) :
    x &&& y = x := by
  apply Nat.eq_of_testBit_eq
  intro j
  rw [Nat.testBit_land]
  rcases hx : x.testBit j with _ | _
  · rw [Bool.false_and]
  · rw [h j hx, Bool.and_true]

/-- **C2.** For every well-formed classic board and every behaviour of the
random source (`ValueMask::random` is absent from the library snapshot and
is modelled per the spec as an arbitrary stream that picks one of the
remaining candidate values), whenever `find_true_candidates` returns a
board: every candidate on it appears in at least one complete solution
(soundness), and every complete solution's candidates all appear on it
(completeness). -/
theorem claim_C2 (size : Nat) (regions : List Nat) (b : Board)
    (hg : GoodB size regions b) (rng : Nat → Nat → Nat)
    (hrng : ∀ k m, ValueMask.valueBits m ≠ 0 →
      1 ≤ rng k m ∧ ValueMask.has m (rng k m) = true)
    (fuel : Nat) (tc : Board)
    (hrun : findTrueCandidates rng b fuel = some (.solved tc)) :
    (∀ c v, c < size * size → 1 ≤ v → v ≤ size →
      ValueMask.has (tc.cell c) v = true → ∃ A, isSolution b A ∧ A c = v) ∧
    (∀ A, isSolution b A → ∀ c, c < size * size →
      ValueMask.has (tc.cell c) (A c) = true) := by
  have hs31 : size ≤ 31 := hg.2.2.2.2.2.2.2
  unfold findTrueCandidates at hrun
  obtain ⟨hcond, -⟩ := rbfl_spec size regions (bfFuel b) b hg
  rcases hlog : runBruteForceLogic b (bfFuel b) with _ | ⟨b0, ok⟩
  · rw [hlog] at hrun
    cases hrun
  · rw [hlog] at hrun
    obtain ⟨hfalse, htrue⟩ := hcond b0 ok hlog
    cases ok with
    | false =>
      dsimp only at hrun
      rw [Option.some.injEq] at hrun
      cases hrun
    | true =>
      obtain ⟨hg0, hsoleq0, -, -⟩ := htrue rfl
      have hnc0 := GoodB_numCells size regions b0 hg0
      have hsz0 := GoodB_size size regions b0 hg0
      dsimp only at hrun
      rcases hsolved : b0.isSolved with _ | _
      · -- probe path
        rw [hsolved] at hrun
        rw [if_neg (fun h => Bool.noConfusion h)] at hrun
        split at hrun
        · cases hrun
        · next tcv1 k1 hcells =>
          split at hrun
          · next bdead hkeep =>
            rw [Option.some.injEq] at hrun
            cases hrun
          · next b1 hkeep =>
            -- the initial accumulator
            have htcv0get : ∀ i, i < size * size →
                ((List.range b0.data.numCells).map (fun c =>
                  if ValueMask.isSolved (b0.cell c) = true then b0.cell c
                  else 0)).getD i 0 =
                if ValueMask.isSolved (b0.cell i) = true then b0.cell i else 0 := by
              intro i hi
              rw [List.getD_eq_getElem?_getD, List.getElem?_map,
                List.getElem?_range (by omega)]
              rfl
            have htcv0len : ((List.range b0.data.numCells).map (fun c =>
                if ValueMask.isSolved (b0.cell c) = true then b0.cell c
                else 0)).length = size * size := by
              rw [List.length_map, List.length_range, hnc0]
            obtain ⟨g1, g2, g3, g4⟩ := ftcCells_spec size regions rng hrng fuel
              b0 hg0 (List.range b0.data.numCells) _ 0 tcv1 k1
              (by
                intro x hx
                rw [hnc0] at hx
                exact List.mem_range.mp hx)
              htcv0len
              (by
                intro i hi hisol A hA
                rw [htcv0get i hi, if_pos hisol]
                have := hA.2.2 i (by omega)
                rw [has_eq_testBit] at this
                exact this) hcells
            obtain ⟨k1g, k2u, k3c, k4s, k5e⟩ := ftcKeep_spec size regions tcv1
              (List.range b0.data.numCells) b0 hg0
              (by
                intro x hx
                rw [hnc0] at hx
                exact List.mem_range.mp hx)
              (List.nodup_range _)
              (by
                intro x hx hxsol
                apply and_absorb
                intro j hj
                apply g2
                rw [htcv0get x (by rw [hnc0] at hx; exact List.mem_range.mp hx),
                  if_pos hxsol]
                exact hj)
              b1 hkeep
            -- at least one solution exists
            obtain ⟨c0, hc0, hc0u⟩ := exists_unsolved size regions b0 hg0 hsolved
            have hc0mem : c0 ∈ List.range b0.data.numCells := by
              rw [hnc0]
              exact List.mem_range.mpr hc0
            have hexists : ∃ A, isSolution b0 A := by
              have hne := k5e c0 hc0mem
              have hvb : ValueMask.valueBits (b1.cell c0) ≠ 0 := by
                intro hz
                rw [(isEmpty_eq _).mpr hz] at hne
                cases hne
              obtain ⟨j, hj⟩ := exists_testBit_of_ne_zero _ hvb
              rw [testBit_valueBits, Bool.and_eq_true] at hj
              have hj31 := of_decide_eq_true hj.2
              have hjb := hj.1
              rw [k3c c0 hc0mem, Nat.testBit_land, Bool.and_eq_true] at hjb
              rcases g3 c0 j hc0 hjb.2 with h0 | hsolw
              · have hnotsol : ¬ (ValueMask.isSolved (b0.cell c0) = true) := by
                  rw [hc0u]
                  exact fun h => Bool.noConfusion h
                rw [htcv0get c0 hc0, if_neg hnotsol, Nat.zero_testBit] at h0
                cases h0
              · obtain ⟨A, hA, -⟩ := hsolw
                exact ⟨A, hA⟩
            -- the final naked-singles pass
            obtain ⟨N1, N2, -, -, -, -⟩ := allNakedSingles_spec size regions b1
              (b1.data.numCells + 1) k1g
            have hsub := allNakedSingles_candSubset b1 (b1.data.numCells + 1)
            have hcore :
                (∀ c v, c < size * size → 1 ≤ v → v ≤ size →
                  ValueMask.has ((allNakedSingles b1
                    (b1.data.numCells + 1)).1.cell c) v = true →
                  ∃ A, isSolution b A ∧ A c = v) ∧
                (∀ A, isSolution b A → ∀ c, c < size * size →
                  ValueMask.has ((allNakedSingles b1
                    (b1.data.numCells + 1)).1.cell c) (A c) = true) := by
              constructor
              · -- soundness
                intro c v hc hv1 hv2 hhas
                rw [has_eq_testBit] at hhas
                have hb1bit : (b1.cell c).testBit (v - 1) = true :=
                  hsub c (v - 1) (by omega) hhas
                have hcmem : c ∈ List.range b0.data.numCells := by
                  rw [hnc0]
                  exact List.mem_range.mpr hc
                rw [k3c c hcmem, Nat.testBit_land, Bool.and_eq_true] at hb1bit
                rcases g3 c (v - 1) hc hb1bit.2 with h0 | hsolw
                · -- from the initial accumulator: a solved cell of b0
                  rcases hcsol : ValueMask.isSolved (b0.cell c) with _ | _
                  · have hnotsol : ¬ (ValueMask.isSolved (b0.cell c) = true) := by
                      rw [hcsol]
                      exact fun h => Bool.noConfusion h
                    rw [htcv0get c hc, if_neg hnotsol, Nat.zero_testBit] at h0
                    cases h0
                  · obtain ⟨A, hA⟩ := hexists
                    refine ⟨A, (hsoleq0 A).mp hA, ?_⟩
                    rw [htcv0get c hc, if_pos hcsol] at h0
                    obtain ⟨w, hw1, hw2, hwm⟩ := hg0.2.2.2.1 c hc hcsol
                    have hadm := hA.2.2 c (by omega)
                    rw [has_eq_testBit, hwm, testBit_solvedMaskOf] at hadm
                    have hArc := hA.1 c (by omega)
                    rw [hsz0] at hArc
                    rw [hwm, testBit_solvedMaskOf] at h0
                    rcases Bool.or_eq_true_iff.mp hadm with hx | hx
                    · have : 31 = A c - 1 := by simpa using hx
                      omega
                    · have hAw : w - 1 = A c - 1 := by simpa using hx
                      rcases Bool.or_eq_true_iff.mp h0 with hy | hy
                      · have : 31 = v - 1 := by simpa using hy
                        omega
                      · have hvw : w - 1 = v - 1 := by simpa using hy
                        omega
                · obtain ⟨A, hA, hAc⟩ := hsolw
                  exact ⟨A, (hsoleq0 A).mp hA, by omega⟩
              · -- completeness
                intro A hA c hc
                have hA0 : isSolution b0 A := (hsoleq0 A).mpr hA
                have hA1 : isSolution b1 A := by
                  rw [k4s A]
                  refine ⟨hA0, ?_⟩
                  intro x hx
                  exact g4 x hx A hA0
                have hA2 : isSolution (allNakedSingles b1
                    (b1.data.numCells + 1)).1 A := (N2 A).mpr hA1
                have hnc2 : (allNakedSingles b1
                    (b1.data.numCells + 1)).1.data.numCells = size * size :=
                  GoodB_numCells size regions _ N1
                exact hA2.2.2 c (by omega)
            split at hrun
            · next bdead hans =>
              rw [Option.some.injEq] at hrun
              cases hrun
            · next b2 hans =>
              rw [Option.some.injEq] at hrun
              injection hrun with hrun
              have hfst := congrArg Prod.fst hans
              dsimp only at hfst
              rw [hfst, hrun] at hcore
              exact hcore
            · next b2 hans =>
              rw [Option.some.injEq] at hrun
              injection hrun with hrun
              have hfst := congrArg Prod.fst hans
              dsimp only at hfst
              rw [hfst, hrun] at hcore
              exact hcore
      · -- already solved after the logic pass
        rw [hsolved] at hrun
        rw [if_pos rfl] at hrun
        rw [Option.some.injEq] at hrun
        injection hrun with hrun
        rw [← hrun]
        constructor
        · intro c v hc hv1 hv2 hhas
          obtain ⟨hsol0, -⟩ := solution_of_solved size regions b0 hg0 hsolved
          refine ⟨assignOfBoard b0, (hsoleq0 _).mp hsol0, ?_⟩
          obtain ⟨hpow, ha1, ha2⟩ := unsolved_solved_cell size regions b0 hg0
            hsolved c hc
          rw [has_eq_testBit] at hhas
          have hvb : (ValueMask.unsolved (b0.cell c)).testBit (v - 1) = true := by
            show (ValueMask.valueBits (b0.cell c)).testBit (v - 1) = true
            rw [testBit_valueBits, hhas]
            simp
            omega
          rw [hpow, Nat.testBit_two_pow] at hvb
          have := of_decide_eq_true hvb
          omega
        · intro A hA c hc
          have hA0 : isSolution b0 A := (hsoleq0 A).mpr hA
          exact hA0.2.2 c (by omega)

/-- A concrete admissible random source: always pick the smallest remaining
candidate. -/
def c2rng : Nat → Nat → Nat := fun _ m => ValueMask.minVal m

/-- A concrete `find_true_candidates` run on the empty 2×2 classic board. -/
def c2run : Option SingleSolutionResult :=
  findTrueCandidates c2rng (Board.new 2 [] []) 8

/-- The board carried by the `Solved` result of `c2run`. -/
def c2tc : Board :=
  match c2run with
  | some (.solved tb) => tb
  | _ => Board.new 2 [] []

theorem claim_C2_witness :
    c2run = some (.solved c2tc) ∧
    isSolution (Board.new 2 [] []) (fun c => [1, 2, 2, 1].getD c 0) ∧
    ValueMask.has (c2tc.cell 0) 1 = true := by
  have hrng : ∀ k m, ValueMask.valueBits m ≠ 0 →
      1 ≤ c2rng k m ∧ ValueMask.has m (c2rng k m) = true := by
    intro k m hm
    have hne : ValueMask.isEmpty m = false := by
      unfold ValueMask.isEmpty
      simpa using hm
    obtain ⟨h1, h2, h3, h4⟩ := minVal_spec m hne
    exact ⟨h3, h1⟩
  have hrun : findTrueCandidates c2rng (Board.new 2 [] []) 8 =
      some (.solved c2tc) := by rfl
  have hA : isSolution (Board.new 2 [] []) (fun c => [1, 2, 2, 1].getD c 0) := by
    rw [← isSolutionB_iff]
    decide
  have happ := claim_C2 2 [] (Board.new 2 [] [])
    (GoodB_boardNew 2 [] (by omega) (by omega)) c2rng hrng 8 c2tc hrun
  exact ⟨hrun, hA, happ.2 _ hA 0 (by omega)⟩

/-! ## Solved flags persist through the brute-force logic (claim C3
groundwork) -/

end SudokuRs
